import Mathlib

/-!
# Signal Hunter: overlap aggregation of `TwitterService.analyzeExperts`

A shallow embedding of `src/server/src/services/twitterService.js`.

* JavaScript `Map` and `Set` keep insertion order; they are modelled as
  association lists and duplicate-free lists in insertion order.
* The outcomes of `Promise.allSettled` are an explicit list of `Settled`
  values, aligned by index with the `usernames` array.
* A finite JavaScript number is the rational it denotes, and an arithmetic
  operation on doubles is the exact operation followed by `roundDouble`, the
  rounding of IEEE 754 binary64 to nearest, ties to even, with subnormals.
  Overflow, infinities and NaN are not modelled: no input of the functions
  embedded here reaches them. `Math.floor(totalExperts * 0.2)` is the integer
  quotient by 5 (see `floor_fifth`).
* `getExpertFollowing` runs against a sequence `responses` of upstream
  answers, one for each call of `fetchFollowingPage` in the order of the
  calls; the turns of its loop are bounded by a fuel, and the state `World`
  carries the cache and the log of the calls made.
* Time is not modelled: the delays are left out and the cache holds its live
  entries. `analyzeExpertsIn` starts the calls of `getExpertFollowing` in the
  order of `usernames`; what a call finds in the cache of the writes of the
  calls started before it in the same request depends on the interleaving
  under `pLimit(5)`, given by a `Schedule`.
* The route `POST /analyze`, the client helpers `parseUsernames`,
  `calculateGemScore` and `getGemTier`, and the class `RateLimiter` follow;
  `checkLimit` takes the value of `Date.now()` as an argument, and the gem
  score is computed in double arithmetic.
-/

namespace SignalHunter

/-! ## Data model -/

/-- The normalized account record built by `fetchFollowingPage` (lines 194-202).
`screen_name` is passed through from the upstream record and may be absent. -/
structure Account where
  screen_name : Option String
  name : String
  followers_count : Int
  friends_count : Int
  description : String
  verified : Bool
  statuses_count : Int
deriving DecidableEq, Repr

/-- One outcome of `Promise.allSettled` (line 51). -/
inductive Settled where
  | fulfilled (value : List Account)
  | rejected (reason : String)
deriving DecidableEq, Repr

/-- The object pushed to `analysisResults` (lines 93-104). -/
structure AnalysisResult where
  username : String
  overlap_count : Nat
  overlap_percentage : ℚ
  overlap_fraction : String
  followers_count : Int
  following_count : Int
  description : String
  verified : Bool
  experts_following : List String
  profile_url : String
deriving DecidableEq

/-! ## JavaScript `Map` and `Set` in insertion order -/

/-- The method `Map.prototype.has`. -/
def mapHas {β : Type} : List (String × β) → String → Bool
  | [], _ => false
  | (k', _) :: m, k => if k' = k then true else mapHas m k

/-- The method `Map.prototype.get`; `none` stands for `undefined`. -/
def mapGet {β : Type} : List (String × β) → String → Option β
  | [], _ => none
  | (k', v) :: m, k => if k' = k then some v else mapGet m k

/-- The method `Map.prototype.set`: an existing key keeps its position, a new
key goes to the end. -/
def mapSet {β : Type} : List (String × β) → String → β → List (String × β)
  | [], k, v => [(k, v)]
  | (k', v') :: m, k, v => if k' = k then (k', v) :: m else (k', v') :: mapSet m k v

/-- The method `Set.prototype.add`. -/
def setAdd (s : List String) (x : String) : List String :=
  if x ∈ s then s else s ++ [x]

/-! ## Double arithmetic -/

/-- The integer nearest to `q`, the even one of the two when `q` lies half way
between them. -/
def roundHalfEven (q : ℚ) : Int :=
  if q - ⌊q⌋ < 1 / 2 then ⌊q⌋
  else if 1 / 2 < q - ⌊q⌋ then ⌊q⌋ + 1
  else if ⌊q⌋ % 2 = 0 then ⌊q⌋ else ⌊q⌋ + 1

/-- The exponent of the unit in the last place of the double nearest to `x`:
52 below the binary exponent of `x` for the 53 bits of the significand, and
not below `-1074`, the exponent of the subnormal doubles. -/
def ulpExponent (x : ℚ) : Int := max (Int.log 2 |x| - 52) (-1074)

/-- The double nearest to `x`, ties to even: the result of an IEEE 754
binary64 operation whose exact value is `x`, below the overflow threshold. -/
def roundDouble (x : ℚ) : ℚ :=
  (roundHalfEven (x / 2 ^ ulpExponent x) : ℚ) * 2 ^ ulpExponent x

/-- The operator `/` on doubles, for a divisor other than zero. -/
def divDouble (a b : ℚ) : ℚ := roundDouble (a / b)

/-- The operator `*` on doubles. -/
def mulDouble (a b : ℚ) : ℚ := roundDouble (a * b)

/-- The operator `+` on doubles. -/
def addDouble (a b : ℚ) : ℚ := roundDouble (a + b)

/-! ## `analyzeExperts` -/

/-- The two maps built by the `results.forEach` loop (lines 39-40). -/
structure AggState where
  followsMap : List (String × List String)
  accountDetails : List (String × Account)
deriving DecidableEq

/-- The state before the loop: two empty maps. -/
def AggState.empty : AggState := ⟨[], []⟩

/-- The body of `following.forEach` (lines 63-77) for one account. -/
def processAccount (expertUsername : String) (st : AggState) (account : Account) : AggState :=
  match account.screen_name with
  | none => st
  | some username =>
    if username = "" then st
    else
      let fm₁ := if mapHas st.followsMap username then st.followsMap
                 else mapSet st.followsMap username []
      let fm₂ := match mapGet fm₁ username with
                 | some s => mapSet fm₁ username (setAdd s expertUsername)
                 | none => fm₁
      let ad := if mapHas st.accountDetails username then st.accountDetails
                else mapSet st.accountDetails username account
      ⟨fm₂, ad⟩

/-- The body of `results.forEach` (lines 56-81) for one settled result. -/
def processResult (st : AggState) (expertUsername : String) (result : Settled) : AggState :=
  match result with
  | Settled.fulfilled following => following.foldl (processAccount expertUsername) st
  | Settled.rejected _ => st

/-- The loop `results.forEach((result, index) => ...)` with
`expertUsername = usernames[index]` (lines 56-81). -/
def processResults (usernames : List String) (results : List Settled) : AggState :=
  (usernames.zip results).foldl (fun st p => processResult st p.1 p.2) AggState.empty

/-- The threshold `Math.max(2, Math.floor(totalExperts * 0.2))` (line 85).
The double `0.2` exceeds 1/5 by a relative `2^-54`, less than half a unit in
the last place of any array length, so the floor is the quotient by 5. -/
def minOverlap (totalExperts : Nat) : Nat := max 2 (totalExperts / 5)

/-- The object literal of lines 93-104 for one entry of `followsMap`;
`account` is `accountDetails.get(username)`, and `none` stands for the
fallback `{}`. Line 96 computes `(overlapCount / totalExperts) * 100` on
doubles: the quotient is rounded, then the product; `totalExperts` is the
length of a non-empty array. -/
def mkResult (totalExperts : Nat) (username : String) (expertsFollowing : List String)
    (account : Option Account) : AnalysisResult :=
  let overlapCount := expertsFollowing.length
  { username := username
    overlap_count := overlapCount
    overlap_percentage := mulDouble (divDouble (overlapCount : ℚ) (totalExperts : ℚ)) 100
    overlap_fraction := toString overlapCount ++ "/" ++ toString totalExperts
    followers_count := match account with
      | some a => if a.followers_count = 0 then 0 else a.followers_count
      | none => 0
    following_count := match account with
      | some a => if a.friends_count = 0 then 0 else a.friends_count
      | none => 0
    description := match account with
      | some a => if a.description = "" then "" else a.description
      | none => ""
    verified := match account with
      | some a => if a.verified = false then false else a.verified
      | none => false
    experts_following := expertsFollowing
    profile_url := "https://x.com/" ++ username }

/-- The loop `followsMap.forEach` (lines 87-106): one object per entry whose
set has at least `minOverlap` experts, in map order. -/
def convertResults (totalExperts : Nat) (st : AggState) : List AnalysisResult :=
  st.followsMap.filterMap (fun p =>
    if minOverlap totalExperts ≤ p.2.length then
      some (mkResult totalExperts p.1 p.2 (mapGet st.accountDetails p.1))
    else none)

/-- The comparator `(a, b) => b.overlap_count - a.overlap_count` is not
positive: `a` may stay before `b`. -/
def byOverlapDesc (a b : AnalysisResult) : Prop := b.overlap_count ≤ a.overlap_count

instance : DecidableRel byOverlapDesc := fun a b =>
  inferInstanceAs (Decidable (b.overlap_count ≤ a.overlap_count))

/-- The call `analysisResults.sort(...)` of line 109; `Array.prototype.sort`
is stable, as is insertion sort. -/
def sortResults (rs : List AnalysisResult) : List AnalysisResult :=
  List.insertionSort byOverlapDesc rs

/-- The method `TwitterService.analyzeExperts` (lines 30-115). `results` is
the array awaited at line 51: the settled outcome of `getExpertFollowing` for
each username, in the order of `usernames`. The guard of line 35 leaves only
the empty array to reject, `usernames` being a list. -/
def analyzeExperts (usernames : List String) (results : List Settled) :
    Except String (List AnalysisResult) :=
  if usernames.length = 0 then Except.error "Invalid usernames provided"
  else
    let totalExperts := usernames.length
    let st := processResults usernames results
    Except.ok (sortResults (convertResults totalExperts st))

/-! ## Terms of the specification -/

/-- The usernames whose fulfilled following list contains the screen name `h`,
one entry per position of `usernames`. -/
def followersOf (usernames : List String) (results : List Settled) (h : String) : List String :=
  ((usernames.zip results).filter (fun p =>
    match p.2 with
    | Settled.fulfilled following => following.any (fun a => decide (a.screen_name = some h))
    | Settled.rejected _ => false)).map Prod.fst

/-- All accounts of the fulfilled following lists, experts in input order. -/
def encountered (usernames : List String) (results : List Settled) : List Account :=
  (usernames.zip results).flatMap (fun p =>
    match p.2 with
    | Settled.fulfilled following => following
    | Settled.rejected _ => [])

/-- An account with the given screen name and an otherwise empty profile. -/
def plainAccount (h : String) : Account :=
  { screen_name := some h, name := "", followers_count := 0, friends_count := 0,
    description := "", verified := false, statuses_count := 0 }

/-! ## Auxiliary definitions for the proofs -/

/-- The finite doubles: a significand of at most 53 bits times a power of two
not below the smallest subnormal (the overflow threshold left aside). -/
def isDouble (y : ℚ) : Prop := ∃ m k : Int, |m| < 2 ^ 53 ∧ -1074 ≤ k ∧ y = m * 2 ^ k

/-- The keys of a map, in insertion order. -/
def mapKeys {β : Type} (m : List (String × β)) : List String := m.map Prod.fst

/-- The pairs (expert, account) visited by the two nested loops, in order. -/
def events (usernames : List String) (results : List Settled) : List (String × Account) :=
  (usernames.zip results).flatMap (fun p =>
    match p.2 with
    | Settled.fulfilled following => following.map (fun a => (p.1, a))
    | Settled.rejected _ => [])

/-- The experts of the visited pairs whose account has screen name `h`. -/
def occurrences (evs : List (String × Account)) (h : String) : List String :=
  (evs.filter (fun ea => decide (ea.2.screen_name = some h))).map Prod.fst

/-- The state after the visited pairs `evs`, from the state `st`. -/
def runEvents (st : AggState) (evs : List (String × Account)) : AggState :=
  evs.foldl (fun st ea => processAccount ea.1 st ea.2) st

instance : IsTotal AnalysisResult byOverlapDesc :=
  ⟨fun a b => Nat.le_total b.overlap_count a.overlap_count⟩

instance : IsTrans AnalysisResult byOverlapDesc :=
  ⟨fun _ _ _ hab hbc => Nat.le_trans hbc hab⟩

/-- The experts `["a", "b", "c"]` of the worked example. -/
def exampleUsernames : List String := ["a", "b", "c"]

/-- The following lists `a -> [x, y]`, `b -> [x]`, `c -> [x, y, z]`, all fulfilled. -/
def exampleResults : List Settled :=
  [Settled.fulfilled [plainAccount "x", plainAccount "y"],
   Settled.fulfilled [plainAccount "x"],
   Settled.fulfilled [plainAccount "x", plainAccount "y", plainAccount "z"]]

/-- An account with screen name `h` and the profile fields of `p`. -/
def named (h : String) (p : Account) : Account := { p with screen_name := some h }

/-- Twenty-five experts. -/
def twentyFiveUsernames : List String :=
  ["e01", "e02", "e03", "e04", "e05", "e06", "e07", "e08", "e09", "e10", "e11", "e12", "e13",
    "e14", "e15", "e16", "e17", "e18", "e19", "e20", "e21", "e22", "e23", "e24", "e25"]

/-- The first seven of twenty-five experts follow the account `x`, the other
eighteen follow nobody. -/
def sevenFollowX : List Settled :=
  List.replicate 7 (Settled.fulfilled [plainAccount "x"]) ++
    List.replicate 18 (Settled.fulfilled [])

/-- The usernames without their later repeats, first occurrences kept in
order, as `[...new Set(usernames)]` would give. -/
def dedupUsernames : List String → List String
  | [] => []
  | u :: us => u :: (dedupUsernames us).filter (fun v => decide (v ≠ u))

/-- The fields of a record that do not mention `totalExperts`. -/
def coreFields (r : AnalysisResult) :
    String × Nat × List String × Int × Int × String × Bool × String :=
  (r.username, r.overlap_count, r.experts_following, r.followers_count,
    r.following_count, r.description, r.verified, r.profile_url)

/-- The record `r` with percentage and fraction recomputed against `m` experts. -/
def retotal (m : Nat) (r : AnalysisResult) : AnalysisResult :=
  { r with
    overlap_percentage := mulDouble (divDouble (r.overlap_count : ℚ) (m : ℚ)) 100
    overlap_fraction := toString r.overlap_count ++ "/" ++ toString m }

/-- The account `a` met under expert `u` changes nothing any more in `st`. -/
def Absorbs (st : AggState) (u : String) (a : Account) : Prop :=
  ∀ h, a.screen_name = some h → h ≠ "" →
    (∃ s, mapGet st.followsMap h = some s ∧ u ∈ s) ∧ mapHas st.accountDetails h = true

/-- A list of 101 distinct usernames. -/
def manyUsernames : List String :=
  (List.range 101).map (fun n => String.mk (List.replicate (n + 1) 'a'))

/-- Two experts with one common account, the first expert given twice. -/
def duplicateUsernames : List String := ["a", "a", "b"]

/-- Every expert follows the single account `x`. -/
def followsX (_ : String) : Settled := Settled.fulfilled [plainAccount "x"]

/-- Two experts whose lists give the account `x` different profile data. -/
def profileUsernames : List String := ["a", "b"]

/-- The first list has `x` with 10 followers, the second with 99. -/
def profileResults : List Settled :=
  [Settled.fulfilled [⟨some "x", "X", 10, 1, "first", false, 5⟩],
   Settled.fulfilled [⟨some "x", "X", 99, 2, "second", true, 7⟩]]

/-- A raw user record of the upstream response; every field may be missing. -/
structure RawUser where
  screen_name : Option String
  name : Option String
  followers_count : Option Int
  friends_count : Option Int
  description : Option String
  verified : Option Bool
  statuses_count : Option Int
deriving DecidableEq, Repr

/-- The field `users` of a response body: missing, an array of records, or
some other JSON value, which is either falsy (`null`, `0`, `""`, `false`) or
truthy (a non-empty string, a number, `true`, an object). -/
inductive UsersField where
  | absent
  | nonArray (truthy : Bool)
  | array (users : List RawUser)
deriving DecidableEq, Repr

/-- The body `response.data` of a successful HTTP response. -/
structure ResponseData where
  users : UsersField
  next_cursor_str : Option String
deriving DecidableEq, Repr

/-- How `axios.get` settles: with a response, or by throwing an error whose
`error.response?.status` is `status` (`none` for a network error or timeout). -/
inductive HttpOutcome where
  | response (data : ResponseData)
  | failure (status : Option Nat)
deriving DecidableEq, Repr

/-- The error thrown by `fetchFollowingPage`, seen through `error.response?.status`. -/
structure FetchError where
  status : Option Nat
deriving DecidableEq, Repr

/-- The object `{ accounts, nextCursor }` returned by `fetchFollowingPage`. -/
structure Page where
  accounts : List Account
  nextCursor : Option String
deriving DecidableEq, Repr

/-- The expression `x || ''` for a string field. -/
def orEmpty (x : Option String) : String :=
  match x with
  | some s => if s = "" then "" else s
  | none => ""

/-- The expression `x || 0` for a numeric field. -/
def orZero (x : Option Int) : Int :=
  match x with
  | some n => if n = 0 then 0 else n
  | none => 0

/-- The expression `x || false` for a boolean field. -/
def orFalse (x : Option Bool) : Bool :=
  match x with
  | some b => if b = false then false else b
  | none => false

/-- The arrow function of `accounts.map` (lines 194-202). -/
def transformUser (user : RawUser) : Account :=
  { screen_name := user.screen_name
    name := orEmpty user.name
    followers_count := orZero user.followers_count
    friends_count := orZero user.friends_count
    description := orEmpty user.description
    verified := orFalse user.verified
    statuses_count := orZero user.statuses_count }

/-- The method `fetchFollowingPage` (lines 176-212) once `axios.get` has
settled with `outcome`. An error of `axios.get` is thrown again; `data.users
|| []` replaces a missing or falsy `users`; a truthy value that is not an
array has no method `map`, and the `TypeError` carries no `response`. -/
def fetchFollowingPage (outcome : HttpOutcome) : Except FetchError Page :=
  match outcome with
  | HttpOutcome.failure status => Except.error ⟨status⟩
  | HttpOutcome.response data =>
    match data.users with
    | UsersField.absent => Except.ok ⟨[], data.next_cursor_str⟩
    | UsersField.nonArray false => Except.ok ⟨[], data.next_cursor_str⟩
    | UsersField.nonArray true => Except.error ⟨none⟩
    | UsersField.array users => Except.ok ⟨users.map transformUser, data.next_cursor_str⟩

/-- The constant `maxPages` (line 131). -/
def maxPages : Int := 5

/-- The constant `maxFollowing` (line 132). -/
def maxFollowing : Nat := 1000

/-- The test `!nextCursor || nextCursor === '-1'` (line 145). -/
def cursorStops (nextCursor : Option String) : Bool :=
  match nextCursor with
  | none => true
  | some c => decide (c = "") || decide (c = "-1")

/-- The variables of the loop of `getExpertFollowing` (lines 129-165):
`fetched` lists the arguments (username, cursor) of all calls of
`fetchFollowingPage` made so far, and `done` tells that the loop was left. -/
structure LoopState where
  page : Int
  cursor : Option String
  allFollowing : List Account
  fetched : List (String × Option String)
  done : Bool
deriving DecidableEq, Repr

/-- One turn of the `for` loop (lines 135-165): the test `page < maxPages`,
the body, and `page++`. The call of `fetchFollowingPage` is the one numbered
`st.fetched.length`, answered by `responses` at that number. -/
def collectStep (responses : Nat → HttpOutcome) (username : String) (st : LoopState) :
    LoopState :=
  if st.done then st
  else if st.page < maxPages then
    let fetched := st.fetched ++ [(username, st.cursor)]
    match fetchFollowingPage (responses st.fetched.length) with
    | Except.ok pg =>
      if pg.accounts.length = 0 then
        { st with fetched := fetched, done := true }
      else
        let allFollowing := st.allFollowing ++ pg.accounts
        if cursorStops pg.nextCursor || decide (maxFollowing ≤ allFollowing.length) then
          { st with allFollowing := allFollowing, fetched := fetched, done := true }
        else
          { st with allFollowing := allFollowing, fetched := fetched,
                    cursor := pg.nextCursor, page := st.page + 1 }
    | Except.error error =>
      if error.status = some 429 then
        { st with fetched := fetched, page := (st.page - 1) + 1 }
      else
        { st with fetched := fetched, done := true }
  else { st with done := true }

/-- The loop run for at most `fuel` turns. -/
def collectLoop (responses : Nat → HttpOutcome) (username : String) (fuel : Nat)
    (st : LoopState) : LoopState :=
  (collectStep responses username)^[fuel] st

/-- The cache `this.cache` with its live entries, and the arguments of all
calls of `fetchFollowingPage` made so far, oldest first. -/
structure World where
  cache : List (String × List Account)
  fetched : List (String × Option String)
deriving DecidableEq, Repr

/-- The template `following_${username}` (line 118). -/
def cacheKey (username : String) : String := "following_" ++ username

/-- The loop variables at line 135: `page = 0`, `cursor = null`, nothing accumulated. -/
def LoopState.init (w : World) : LoopState :=
  { page := 0, cursor := none, allFollowing := [], fetched := w.fetched, done := false }

/-- The method `getExpertFollowing` (lines 117-174) with the loop run for at
most `fuel` turns; `none` when the loop has not been left by then. A cached
array is truthy, also when empty, so every live entry is a hit; errors of
`fetchFollowingPage` are caught inside the loop, so the call never rejects. -/
def getExpertFollowing (responses : Nat → HttpOutcome) (fuel : Nat) (w : World)
    (username : String) : Option (List Account × World) :=
  match mapGet w.cache (cacheKey username) with
  | some cached => some (cached, w)
  | none =>
    let st := collectLoop responses username fuel (LoopState.init w)
    if st.done then
      let trimmedFollowing := st.allFollowing.take maxFollowing
      some (trimmedFollowing,
        { cache := mapSet w.cache (cacheKey username) trimmedFollowing, fetched := st.fetched })
    else none

/-- The interleaving of the calls `getExpertFollowing(username)` of one request
(lines 44-51, under `pLimit(5)`), as far as the cache shows it. The calls are
started in the order of `usernames` and numbered from 0. When the cache held
no entry for the username of call `i` before the request, `sees i` names the
call started before it whose entry call `i` finds at line 119 (`none`: it
finds no entry), and `lands i` tells whether the write of call `i` at line 171
comes after the writes made for the same username by the calls started before
it. -/
structure Schedule where
  sees : Nat → Option Nat
  lands : Nat → Bool

/-- Every call reads the cache before any call of the request writes it, as
the calls of a request of at most five usernames do. -/
def Schedule.together : Schedule := ⟨fun _ => none, fun _ => true⟩

/-- What `this.cache.get(cacheKey)` (line 119) returns to the call for
`username` started after the calls `started` (username and snapshot of each),
`w₀` being the world before the request: an entry held before the request,
or else the snapshot of the earlier call for the same username that the
schedule names. -/
def cacheView (sched : Schedule) (w₀ : World) (started : List (String × List Account))
    (username : String) : Option (List Account) :=
  match mapGet w₀.cache (cacheKey username) with
  | some cached => some cached
  | none =>
    match sched.sees started.length with
    | none => none
    | some j =>
      match started.get? j with
      | some (u, snapshot) => if u = username then some snapshot else none
      | none => none

/-- The calls `getExpertFollowing(username)` of line 48 for `usernames`, after
the calls `started` of the same request: each call runs against the cache as
it sees it, its calls of `fetchFollowingPage` are logged after those of the
calls started before it, and a call that found no entry writes its snapshot;
the cache of the world handed on is the cache as it will be once the calls
started so far have written. -/
def fetchAllFrom (responses : Nat → HttpOutcome) (fuel : Nat) (sched : Schedule) (w₀ : World) :
    List (String × List Account) → World → List String →
      Option (List (List Account) × World)
  | _, w, [] => some ([], w)
  | started, w, username :: rest =>
    let seen := cacheView sched w₀ started username
    let view : World :=
      { cache := match seen with
          | some cached => [(cacheKey username, cached)]
          | none => []
        fetched := w.fetched }
    match getExpertFollowing responses fuel view username with
    | none => none
    | some (following, w₁) =>
      let cache₁ :=
        if seen.isSome then w.cache
        else if mapHas w.cache (cacheKey username) && !sched.lands started.length then w.cache
        else mapSet w.cache (cacheKey username) following
      match fetchAllFrom responses fuel sched w₀ (started ++ [(username, following)])
          { cache := cache₁, fetched := w₁.fetched } rest with
      | none => none
      | some (snapshots, w₂) => some (following :: snapshots, w₂)

/-- The array `results` awaited at line 51: `getExpertFollowing` catches the
errors of its fetches, so every call is fulfilled with its snapshot. -/
def fetchAll (responses : Nat → HttpOutcome) (fuel : Nat) (sched : Schedule) (w : World)
    (usernames : List String) : Option (List Settled × World) :=
  match fetchAllFrom responses fuel sched w [] w usernames with
  | none => none
  | some (snapshots, w₁) => some (snapshots.map Settled.fulfilled, w₁)

/-- The method `analyzeExperts` (lines 30-115) run in the world `w`: the
guard, the calls of `getExpertFollowing` started in input order and
interleaved as `sched` tells, the aggregation. -/
def analyzeExpertsIn (responses : Nat → HttpOutcome) (fuel : Nat) (sched : Schedule) (w : World)
    (usernames : List String) : Option (Except String (List AnalysisResult) × World) :=
  if usernames.length = 0 then some (Except.error "Invalid usernames provided", w)
  else
    match fetchAll responses fuel sched w usernames with
    | none => none
    | some (results, w₁) => some (analyzeExperts usernames results, w₁)

/-- The results of the first `m` calls of `fetchFollowingPage` from call
number `base` on. -/
def outcomes (responses : Nat → HttpOutcome) (base m : Nat) : List (Except FetchError Page) :=
  (List.range m).map (fun i => fetchFollowingPage (responses (base + i)))

/-- The accounts of the pages fetched successfully, concatenated. -/
def accumulated (outs : List (Except FetchError Page)) : List Account :=
  outs.flatMap (fun o =>
    match o with
    | Except.ok pg => pg.accounts
    | Except.error _ => [])

/-- The number of pages fetched successfully. -/
def okCount (outs : List (Except FetchError Page)) : Nat :=
  outs.countP (fun o =>
    match o with
    | Except.ok _ => true
    | Except.error _ => false)

/-- The number of rate-limit (429) errors. -/
def rateLimitedCount (outs : List (Except FetchError Page)) : Nat :=
  outs.countP (fun o =>
    match o with
    | Except.ok _ => false
    | Except.error e => decide (e.status = some 429))

/-- The cursor in force after the given results: the `nextCursor` of the
last page fetched successfully, `null` before any. -/
def cursorAfter (outs : List (Except FetchError Page)) : Option String :=
  outs.foldl (fun c o =>
    match o with
    | Except.ok pg => pg.nextCursor
    | Except.error _ => c) none

/-- The loop goes on after a call with result `o`, made with `before`
accumulated: a non-empty page with a usable cursor that stays under the
budget, or a rate-limit error. -/
def continues (before : List Account) (o : Except FetchError Page) : Bool :=
  match o with
  | Except.ok pg =>
    !(decide (pg.accounts.length = 0)) && !(cursorStops pg.nextCursor) &&
      !(decide (maxFollowing ≤ (before ++ pg.accounts).length))
  | Except.error e => decide (e.status = some 429)

/-- What holds after `n` turns of the loop started in the world with calls
`fetched₀`, when `m` calls of `fetchFollowingPage` have been made for `username`. -/
structure LoopInv (responses : Nat → HttpOutcome) (username : String)
    (fetched₀ : List (String × Option String)) (n : Nat) (st : LoopState) (m : Nat) : Prop where
  calls_le : m ≤ n
  fetched_eq : st.fetched = fetched₀ ++ (List.range m).map (fun i =>
    (username, cursorAfter (outcomes responses fetched₀.length i)))
  all_eq : st.allFollowing = accumulated (outcomes responses fetched₀.length m)
  earlier_continue : ∀ i, i + 1 < m →
    continues (accumulated (outcomes responses fetched₀.length i))
      (fetchFollowingPage (responses (fetched₀.length + i))) = true
  before_call : ∀ i, i < m → okCount (outcomes responses fetched₀.length i) < 5 ∧
    (accumulated (outcomes responses fetched₀.length i)).length < maxFollowing
  ok_le : okCount (outcomes responses fetched₀.length m) ≤ 5
  running : st.done = false → m = n ∧
    st.page = (okCount (outcomes responses fetched₀.length m) : Int) ∧
    st.cursor = cursorAfter (outcomes responses fetched₀.length m) ∧
    (accumulated (outcomes responses fetched₀.length m)).length < maxFollowing ∧
    ∀ i, i < m → continues (accumulated (outcomes responses fetched₀.length i))
      (fetchFollowingPage (responses (fetched₀.length + i))) = true
  left : st.done = true →
    (∃ k, m = k + 1 ∧ continues (accumulated (outcomes responses fetched₀.length k))
      (fetchFollowingPage (responses (fetched₀.length + k))) = false) ∨
    okCount (outcomes responses fetched₀.length m) = 5

/-- The number of calls of `fetchFollowingPage` made by the loop since the world `w`. -/
def callsMade (w : World) (st : LoopState) : Nat := st.fetched.length - w.fetched.length

/-- Two experts whose calls of `getExpertFollowing` are both rejected. -/
def failedResults : List Settled :=
  [Settled.rejected "Request failed", Settled.rejected "timeout"]

/-- The upstream answers every request with the HTTP status 500. -/
def alwaysError : Nat → HttpOutcome := fun _ => HttpOutcome.failure (some 500)

/-- The world of a fresh `TwitterService`: empty cache, no call made. -/
def World.fresh : World := ⟨[], []⟩

/-- One page of two accounts with a terminal cursor. -/
def onePage : Nat → HttpOutcome := fun _ =>
  HttpOutcome.response
    ⟨UsersField.array [⟨some "x", none, none, none, none, none, none⟩,
      ⟨some "y", some "Y", some 7, none, none, none, none⟩], none⟩

/-- The two accounts of `onePage`, as `fetchFollowingPage` returns them. -/
def pageAccounts : List Account :=
  [⟨some "x", "", 0, 0, "", false, 0⟩, ⟨some "y", "Y", 7, 0, "", false, 0⟩]

/-- The world after a first analysis of the experts `a` and `b` against `onePage`. -/
def cachedWorld : World :=
  ⟨[("following_a", pageAccounts), ("following_b", pageAccounts)],
    [("a", none), ("b", none)]⟩

/-- Every snapshot held by the cache respects the budget `maxFollowing`. -/
def CacheBounded (cache : List (String × List Account)) : Prop :=
  ∀ k v, mapGet cache k = some v → v.length ≤ maxFollowing

/-- Five pages of one account each, every one with a usable cursor. -/
def fivePages : Nat → HttpOutcome := fun i =>
  HttpOutcome.response
    ⟨UsersField.array [⟨some (toString i), none, none, none, none, none, none⟩],
      some (toString (i + 1))⟩

/-- The upstream answers every request with the HTTP status 429. -/
def alwaysRateLimited : Nat → HttpOutcome := fun _ => HttpOutcome.failure (some 429)

/-- One rate-limit error, then a page of one account that ends the list. -/
def rateLimitedOnce : Nat → HttpOutcome := fun i =>
  if i = 0 then HttpOutcome.failure (some 429)
  else HttpOutcome.response
    ⟨UsersField.array [⟨some "x", none, none, none, none, none, none⟩], none⟩

/-- A page of one account with a usable cursor, then an error of status 500. -/
def pageThenError : Nat → HttpOutcome := fun i =>
  if i = 0 then HttpOutcome.response
    ⟨UsersField.array [⟨some "x", none, none, none, none, none, none⟩], some "c1"⟩
  else HttpOutcome.failure (some 500)

/-- The page returned by the call numbered `base + i`, empty if that call fails. -/
def pageAt (responses : Nat → HttpOutcome) (base i : Nat) : Page :=
  match fetchFollowingPage (responses (base + i)) with
  | Except.ok pg => pg
  | Except.error _ => ⟨[], none⟩

/-- The concatenation of the pages `0` to `i - 1`. -/
def pagesUpTo (responses : Nat → HttpOutcome) (base i : Nat) : List Account :=
  (List.range i).flatMap (fun j => (pageAt responses base j).accounts)

/-- The cursor passed with the call for page `i`: `null` for the first page,
then the `nextCursor` of the page before. -/
def cursorFor (responses : Nat → HttpOutcome) (base i : Nat) : Option String :=
  if i = 0 then none else (pageAt responses base (i - 1)).nextCursor

/-- The stopping conditions at page `k`: (a) the page has no account, (b) its
`nextCursor` is null, empty or `'-1'`, (c) the count accumulated with it is
at least 1000, (d) `k = 4`. -/
def stopsAt (responses : Nat → HttpOutcome) (base k : Nat) : Bool :=
  decide ((pageAt responses base k).accounts.length = 0) ||
    cursorStops (pageAt responses base k).nextCursor ||
    decide (1000 ≤ (pagesUpTo responses base (k + 1)).length) ||
    decide (k = 4)

/-- A page of one account with a usable cursor, then a body without `users`. -/
def pageThenNoUsers : Nat → HttpOutcome := fun i =>
  if i = 0 then HttpOutcome.response
    ⟨UsersField.array [⟨some "x", none, none, none, none, none, none⟩], some "c1"⟩
  else HttpOutcome.response ⟨UsersField.absent, some "c2"⟩

/-- An element of the array `usernames` of a request body: a string, or a
JSON value of another type. -/
inductive JsonItem where
  | string (s : String)
  | other
deriving DecidableEq, Repr

/-- The field `usernames` of a request body: missing, a JSON value that is not
an array (falsy or truthy), or an array. -/
inductive BodyField where
  | absent
  | nonArray (truthy : Bool)
  | array (items : List JsonItem)
deriving DecidableEq, Repr

/-- What the handler of `POST /analyze` does with a request: answer 400 with
an error message, or call `twitterService.analyzeExperts(usernames)`. -/
inductive RouteOutcome where
  | badRequest (error : String)
  | forwarded (usernames : List JsonItem)
deriving DecidableEq, Repr

/-- The handler of `router.post('/analyze', ...)` up to the call of the
service (`routes/analysis.js`, lines 9-21). -/
def postAnalyze (usernames : BodyField) : RouteOutcome :=
  match usernames with
  | BodyField.absent => RouteOutcome.badRequest "Invalid usernames provided"
  | BodyField.nonArray _ => RouteOutcome.badRequest "Invalid usernames provided"
  | BodyField.array items =>
    if items.length < 2 ∨ items.length > 100 then
      RouteOutcome.badRequest "Please provide between 2 and 100 usernames"
    else RouteOutcome.forwarded items

/-- The lower-case form of a handle, as a case normalization would give. -/
def lowerCase (s : String) : String := String.mk (s.data.map Char.toLower)

/-- The class `\s` of a JavaScript regular expression, which is also what
`String.prototype.trim` removes: white space and line terminators. -/
def isJsSpace (c : Char) : Bool :=
  let n := c.toNat
  (decide (9 ≤ n) && decide (n ≤ 13)) || decide (n = 32) || decide (n = 160) ||
    decide (n = 5760) || (decide (8192 ≤ n) && decide (n ≤ 8202)) || decide (n = 8232) ||
    decide (n = 8233) || decide (n = 8239) || decide (n = 8287) || decide (n = 12288) ||
    decide (n = 65279)

/-- The character class `[\n,\s]` of line 9. -/
def isSeparator (c : Char) : Bool :=
  decide (c = '\n') || decide (c = ',') || isJsSpace c

/-- The call `cleaned.split(/[\n,\s]+/)`: the pieces between the maximal runs
of separators, an empty piece included before a leading and after a trailing
run. `cur` is the piece being read, reversed, and `afterSep` tells that the
character before was a separator. -/
def splitTokens : List Char → List Char → Bool → List (List Char)
  | [], cur, _ => [cur.reverse]
  | c :: rest, cur, afterSep =>
    if isSeparator c then
      if afterSep then splitTokens rest [] true
      else cur.reverse :: splitTokens rest [] true
    else splitTokens rest (c :: cur) false

/-- The method `String.prototype.trim`. -/
def trimChars (cs : List Char) : List Char :=
  ((cs.dropWhile isJsSpace).reverse.dropWhile isJsSpace).reverse

/-- The function `parseUsernames` (lines 1-20); `none` stands for an absent
(`null`, `undefined`) input. -/
def parseUsernames (input : Option String) : List String :=
  match input with
  | none => []
  | some s =>
    if s = "" then []
    else
      let cleaned := s.data.filter (fun c => decide (c ≠ '@'))
      let tokens := splitTokens cleaned [] false
      let usernames := tokens.filterMap (fun token =>
        let username := trimChars token
        if username.length > 0 then some (String.mk username) else none)
      dedupUsernames usernames

/-- The key under which the loop of lines 63-77 files an account: its
`screen_name` when it is truthy. -/
def validName (a : Account) : Option String :=
  match a.screen_name with
  | some h => if h = "" then none else some h
  | none => none

/-- The screen names in the order of their first encounter: experts in
input order, the accounts of each fulfilled list in list order. -/
def encounterOrder (usernames : List String) (results : List Settled) : List String :=
  dedupUsernames ((encountered usernames results).filterMap validName)

/-- Two accounts `x` and `y` followed by both experts, `y` met first. -/
def tieResults : List Settled :=
  [Settled.fulfilled [plainAccount "y", plainAccount "x"],
   Settled.fulfilled [plainAccount "x", plainAccount "y"]]

/-- The number of distinct usernames whose fulfilled list holds `h`. -/
def overlapOf (usernames : List String) (results : List Settled) (h : String) : Nat :=
  (followersOf usernames results h).dedup.length

/-- The fields of a record the overlap statistics consist of. -/
def overlapTriple (r : AnalysisResult) : String × Nat × ℚ :=
  (r.username, r.overlap_count, r.overlap_percentage)

/-- The worked example with its experts in another order. -/
def permutedExample : List (String × Settled) :=
  [("c", Settled.fulfilled [plainAccount "x", plainAccount "y", plainAccount "z"]),
   ("a", Settled.fulfilled [plainAccount "x", plainAccount "y"]),
   ("b", Settled.fulfilled [plainAccount "x"])]

/-- The fields of a `RateLimiter`: `requests` maps a key to the times of its
stored requests, oldest first. -/
structure RateLimiter where
  maxRequests : Nat
  windowMs : Int
  requests : List (String × List Int)
deriving DecidableEq, Repr

/-- The error thrown by `checkLimit`: `waitTime` (line 18, `none` standing
for `NaN` when there is no oldest request) and the message of line 19. -/
structure LimitError where
  waitTime : Option Int
  message : String
deriving DecidableEq, Repr

/-- The entries kept by line 14: `userRequests.filter(time => time > windowStart)`. -/
def recentRequests (rl : RateLimiter) (key : String) (now : Int) : List Int :=
  ((mapGet rl.requests key).getD []).filter (fun time => decide (time > now - rl.windowMs))

/-- The text of `Math.ceil(waitTime / 1000)` in the message. -/
def waitSeconds (waitTime : Option Int) : String :=
  match waitTime with
  | some w => toString (-((-w) / 1000))
  | none => "NaN"

/-- The method `checkLimit` (lines 8-26) called at the clock value `now`:
the result, and the limiter afterwards. -/
def checkLimit (rl : RateLimiter) (key : String) (now : Int) :
    Except LimitError Bool × RateLimiter :=
  let recent := recentRequests rl key now
  if rl.maxRequests ≤ recent.length then
    let waitTime := recent.head?.map (fun oldestRequest => rl.windowMs - (now - oldestRequest))
    (Except.error ⟨waitTime,
      "Rate limit exceeded. Please wait " ++ waitSeconds waitTime ++ " seconds."⟩, rl)
  else
    (Except.ok true, { rl with requests := mapSet rl.requests key (recent ++ [now]) })

/-- The call was accepted: `checkLimit` returned instead of throwing. -/
def wasAccepted (r : Except LimitError Bool × RateLimiter) : Bool :=
  match r.1 with
  | Except.ok _ => true
  | Except.error _ => false

/-- A sequence of calls `(key, now)` of `checkLimit`, made one after the
other: the limiter afterwards and, for each call, whether it was accepted. -/
def runLimiter (rl : RateLimiter) (calls : List (String × Int)) :
    RateLimiter × List (String × Int × Bool) :=
  calls.foldl (fun s c =>
    ((checkLimit s.1 c.1 c.2).2, s.2 ++ [(c.1, c.2, wasAccepted (checkLimit s.1 c.1 c.2))]))
    (rl, [])

/-- The times of the accepted calls for `key`, in the order of the calls. -/
def acceptedTimes (key : String) (log : List (String × Int × Bool)) : List Int :=
  (log.filter (fun e => e.2.2 && decide (e.1 = key))).map (fun e => e.2.1)

/-- Three calls for one key within a window of 1000 ms, with a limit of 2. -/
def burstCalls : List (String × Int) := [("ip", 0), ("ip", 10), ("ip", 20), ("ip", 1500)]

/-- What holds after the calls `calls`, made with a non-decreasing clock on a
fresh limiter of limit `M` and window `W`. -/
structure LimiterInv (M : Nat) (W : Int) (calls : List (String × Int))
    (s : RateLimiter × List (String × Int × Bool)) : Prop where
  max_eq : s.1.maxRequests = M
  window_eq : s.1.windowMs = W
  stored_recent : ∀ k now, (∀ c ∈ calls, c.2 ≤ now) →
    ((mapGet s.1.requests k).getD []).filter (fun time => decide (time > now - W)) =
      (acceptedTimes k s.2).filter (fun time => decide (time > now - W))
  stored_past : ∀ k l, mapGet s.1.requests k = some l → ∀ a ∈ l, ∃ c ∈ calls, c.2 = a
  accepted_past : ∀ k a, a ∈ acceptedTimes k s.2 → ∃ c ∈ calls, c.2 = a
  window_bound : ∀ k t, ((acceptedTimes k s.2).filter
    (fun a => decide (t - W < a) && decide (a ≤ t))).length ≤ M

/-- The property `length` of a JavaScript string: UTF-16 code units. -/
def utf16Length (s : String) : Nat :=
  (s.data.map (fun c => if c.toNat < 65536 then 1 else 2)).sum

/-- The function `Math.round` on a double: the nearest integer, halves upwards. -/
def jsRound (x : ℚ) : Int := ⌊x + 1 / 2⌋

/-- The variable `followerRatio` of line 51; the counts are integers and
`Math.max` is exact. -/
def followerRatio (account : AnalysisResult) : ℚ :=
  divDouble (account.followers_count : ℚ) ((max account.following_count 1 : Int) : ℚ)

/-- The expression `Math.min(followerRatio / 10, 1)` of line 52. -/
def normalizedRatio (account : AnalysisResult) : ℚ :=
  min (divDouble (followerRatio account) 10) 1

/-- The variable `overlapScore` of line 55. -/
def overlapScore (account : AnalysisResult) : ℚ :=
  divDouble account.overlap_percentage 100

/-- The variable `hiddenBonus` of lines 58-61; a decimal literal is the double
nearest to it. -/
def hiddenBonus (account : AnalysisResult) : ℚ :=
  if account.followers_count < 1000 then roundDouble (3 / 10)
  else if account.followers_count < 5000 then roundDouble (2 / 10)
  else if account.followers_count < 10000 then roundDouble (1 / 10)
  else 0

/-- The variable `bioScore` of line 64. -/
def bioScore (account : AnalysisResult) : ℚ :=
  if account.description ≠ "" ∧ utf16Length account.description > 50 then roundDouble (1 / 10)
  else 0

/-- The variable `gemScore` of lines 67-72: four products on doubles, added
from left to right. -/
def gemScoreValue (account : AnalysisResult) : ℚ :=
  addDouble
    (addDouble
      (addDouble (mulDouble (overlapScore account) (roundDouble (4 / 10)))
        (mulDouble (normalizedRatio account) (roundDouble (2 / 10))))
      (mulDouble (hiddenBonus account) (roundDouble (3 / 10))))
    (mulDouble (bioScore account) (roundDouble (1 / 10)))

/-- The object returned by `calculateGemScore`. -/
structure GemScore where
  score : Int
  overlap : Int
  influence : Int
  hiddenGem : Int
  bioQuality : Int
deriving DecidableEq, Repr

/-- The function `calculateGemScore` (lines 49-83). -/
def calculateGemScore (account : AnalysisResult) : GemScore :=
  { score := jsRound (mulDouble (gemScoreValue account) 100)
    overlap := jsRound (mulDouble (overlapScore account) 100)
    influence := jsRound (mulDouble (normalizedRatio account) 100)
    hiddenGem := jsRound (mulDouble (hiddenBonus account) 100)
    bioQuality := jsRound (mulDouble (bioScore account) 100) }

/-- The object returned by `getGemTier`. -/
structure GemTier where
  tier : String
  color : String
  label : String
deriving DecidableEq, Repr

/-- The function `getGemTier` (lines 85-91). -/
def getGemTier (gemScore : Int) : GemTier :=
  if gemScore ≥ 80 then ⟨"S", "#FFD700", "Legendary Gem"⟩
  else if gemScore ≥ 70 then ⟨"A", "#C0C0C0", "Rare Gem"⟩
  else if gemScore ≥ 60 then ⟨"B", "#CD7F32", "Hidden Gem"⟩
  else if gemScore ≥ 50 then ⟨"C", "#45B7D1", "Rising Talent"⟩
  else ⟨"D", "#808080", "Potential"⟩

/-- A record followed by all of 3 experts, with 999 followers and 50 followed. -/
def gemAccount : AnalysisResult :=
  { username := "x", overlap_count := 3, overlap_percentage := 100, overlap_fraction := "3/3",
    followers_count := 999, following_count := 50, description := "", verified := false,
    experts_following := ["a", "b", "c"], profile_url := "https://x.com/x" }

/-- The record `gemAccount` with a description of 51 characters. -/
def gemAccountBio : AnalysisResult :=
  { gemAccount with
    description := "Building tools for founders, investors and engineers" }

/-- A record followed by half of the experts, with 29 followers and 4 followed. -/
def gemAccountLow : AnalysisResult :=
  { username := "y", overlap_count := 2, overlap_percentage := 50, overlap_fraction := "2/4",
    followers_count := 29, following_count := 4, description := "", verified := false,
    experts_following := ["a", "b"], profile_url := "https://x.com/y" }

/-- The first expert gets a page of two accounts, the fetch for the second
fails with the status 500, every later fetch gets the page again. -/
def secondFails : Nat → HttpOutcome := fun i =>
  if i = 1 then HttpOutcome.failure (some 500) else onePage i

/-- Every other fetch, from the second on, fails with the status 500; the
others return a page of one account and a usable cursor. -/
def pageThenErrorEach : Nat → HttpOutcome := fun i =>
  if i % 2 = 0 then HttpOutcome.response
    ⟨UsersField.array [⟨some "x", none, none, none, none, none, none⟩], some "c1"⟩
  else HttpOutcome.failure (some 500)

/-! ## Theorems -/

theorem roundHalfEven_cases (q : ℚ) : roundHalfEven q = ⌊q⌋ ∨ (roundHalfEven q = ⌊q⌋ + 1 ∧ 1 / 2 ≤ q - ⌊q⌋) := by
  unfold roundHalfEven
  split_ifs with h1 h2 h3
  · exact Or.inl rfl
  · exact Or.inr ⟨rfl, h2.le⟩
  · exact Or.inl rfl
  · exact Or.inr ⟨rfl, not_lt.1 h1⟩

theorem roundHalfEven_le {q : ℚ} {n : Int} (h : q ≤ n) : roundHalfEven q ≤ n := by
  rcases roundHalfEven_cases q with h1 | ⟨h1, h2⟩
  · rw [h1]
    have : (⌊q⌋ : ℚ) ≤ n := le_trans (Int.floor_le q) h
    exact_mod_cast this
  · rw [h1]
    have : (⌊q⌋ : ℚ) < n := by linarith
    have : ⌊q⌋ < n := by exact_mod_cast this
    omega

theorem le_roundHalfEven {q : ℚ} {n : Int} (h : (n : ℚ) ≤ q) : n ≤ roundHalfEven q := by
  have hf : n ≤ ⌊q⌋ := Int.le_floor.2 h
  rcases roundHalfEven_cases q with h1 | ⟨h1, _⟩ <;> rw [h1] <;> omega

theorem roundHalfEven_intCast (n : Int) : roundHalfEven (n : ℚ) = n :=
  le_antisymm (roundHalfEven_le le_rfl) (le_roundHalfEven le_rfl)

theorem abs_roundHalfEven_sub_le (q : ℚ) : |(roundHalfEven q : ℚ) - q| ≤ 1 / 2 := by
  have hfl : (⌊q⌋ : ℚ) ≤ q := Int.floor_le q
  have hlt : q < ⌊q⌋ + 1 := Int.lt_floor_add_one q
  unfold roundHalfEven
  split_ifs with h1 h2 h3
  · rw [abs_le]; constructor <;> linarith
  · push_cast; rw [abs_le]; constructor <;> linarith
  · rw [abs_le]; constructor <;> linarith
  · push_cast; rw [abs_le]; constructor <;> linarith

theorem roundHalfEven_near {q : ℚ} {m : Int} (h : |q - m| < 1 / 2) : roundHalfEven q = m := by
  rw [abs_lt] at h
  have hfl : (⌊q⌋ : ℚ) ≤ q := Int.floor_le q
  have hlt : q < ⌊q⌋ + 1 := Int.lt_floor_add_one q
  have h1 : (⌊q⌋ : ℚ) < m + 1 := by linarith
  have h2 : (m : ℚ) - 2 < ⌊q⌋ := by linarith
  have h1' : ⌊q⌋ < m + 1 := by exact_mod_cast h1
  have h2' : m - 2 < ⌊q⌋ := by exact_mod_cast h2
  have hfm : ⌊q⌋ = m ∨ ⌊q⌋ = m - 1 := by omega
  unfold roundHalfEven
  rcases hfm with hf | hf
  · rw [hf]
    rw [if_pos (by linarith)]
  · rw [hf]
    have : ¬ (q - ((m - 1 : Int) : ℚ) < 1 / 2) := by push_cast; linarith
    rw [if_neg this, if_pos (by push_cast; linarith)]
    omega

theorem zpow_log_le_abs {x : ℚ} (hx : x ≠ 0) : (2 : ℚ) ^ Int.log 2 |x| ≤ |x| := by
  have h := Int.zpow_log_le_self (b := 2) (r := |x|) (by norm_num) (abs_pos.2 hx)
  simpa using h

theorem abs_lt_zpow_log_succ (x : ℚ) : |x| < (2 : ℚ) ^ (Int.log 2 |x| + 1) := by
  have h := Int.lt_zpow_succ_log_self (b := 2) (by norm_num) |x|
  simpa using h

theorem ulpExponent_le_of_double {y : ℚ} {m k : Int} (hm : |m| < 2 ^ 53) (hk : -1074 ≤ k)
    (hy : y = m * 2 ^ k) {x : ℚ} (hxy : (2 : ℚ) ^ Int.log 2 |x| ≤ |y|) :
    ulpExponent x ≤ k := by
  unfold ulpExponent
  apply max_le _ hk
  have h2 : (0 : ℚ) < 2 ^ k := by positivity
  have hm' : (|m| : ℚ) < 2 ^ 53 := by exact_mod_cast hm
  have h1 : |y| < (2 : ℚ) ^ (53 + k) := by
    rw [hy, abs_mul, abs_of_pos h2, zpow_add₀ (by norm_num)]
    have : (|(m : ℚ)|) < 2 ^ (53 : ℤ) := by
      rw [← Int.cast_abs]; exact_mod_cast hm
    exact mul_lt_mul_of_pos_right this h2
  have h3 : (2 : ℚ) ^ Int.log 2 |x| < 2 ^ (53 + k) := lt_of_le_of_lt hxy h1
  have h4 : Int.log 2 |x| < 53 + k := (zpow_lt_zpow_iff_right₀ (by norm_num)).1 h3
  omega

theorem double_div_ulp {y : ℚ} {m k j : Int} (hy : y = m * 2 ^ k) (hj : j ≤ k) :
    y / 2 ^ j = ((m * 2 ^ (k - j).toNat : Int) : ℚ) := by
  have hk : k = j + ((k - j).toNat : Int) := by omega
  have h2 : (2 : ℚ) ^ j ≠ 0 := by positivity
  rw [hy]
  conv_lhs => rw [hk]
  rw [zpow_add₀ (by norm_num), zpow_natCast]
  push_cast
  field_simp
  ring

theorem roundDouble_zero : roundDouble 0 = 0 := by
  unfold roundDouble
  have : roundHalfEven ((0 : ℚ) / 2 ^ ulpExponent 0) = 0 := by
    rw [zero_div]; exact_mod_cast roundHalfEven_intCast 0
  rw [this]; simp

theorem roundDouble_of_isDouble {y : ℚ} (h : isDouble y) : roundDouble y = y := by
  obtain ⟨m, k, hm, hk, hy⟩ := h
  by_cases h0 : y = 0
  · rw [h0]; exact roundDouble_zero
  have hj := ulpExponent_le_of_double hm hk hy (zpow_log_le_abs h0)
  unfold roundDouble
  rw [double_div_ulp hy hj, roundHalfEven_intCast, ← double_div_ulp hy hj]
  have h2 : (2 : ℚ) ^ ulpExponent y ≠ 0 := by positivity
  field_simp

theorem roundDouble_nonneg {x : ℚ} (hx : 0 ≤ x) : 0 ≤ roundDouble x := by
  unfold roundDouble
  have h2 : (0 : ℚ) < 2 ^ ulpExponent x := by positivity
  have : (0 : Int) ≤ roundHalfEven (x / 2 ^ ulpExponent x) :=
    le_roundHalfEven (by push_cast; positivity)
  have : (0 : ℚ) ≤ roundHalfEven (x / 2 ^ ulpExponent x) := by exact_mod_cast this
  positivity

theorem roundDouble_nonpos {x : ℚ} (hx : x ≤ 0) : roundDouble x ≤ 0 := by
  unfold roundDouble
  have h2 : (0 : ℚ) < 2 ^ ulpExponent x := by positivity
  have : roundHalfEven (x / 2 ^ ulpExponent x) ≤ (0 : Int) :=
    roundHalfEven_le (by push_cast; exact div_nonpos_of_nonpos_of_nonneg hx h2.le)
  have : (roundHalfEven (x / 2 ^ ulpExponent x) : ℚ) ≤ 0 := by exact_mod_cast this
  exact mul_nonpos_of_nonpos_of_nonneg this h2.le

theorem roundDouble_le {x y : ℚ} (hy : isDouble y) (hy0 : 0 ≤ y) (hxy : x ≤ y) :
    roundDouble x ≤ y := by
  rcases le_or_lt x 0 with hx | hx
  · exact le_trans (roundDouble_nonpos hx) hy0
  obtain ⟨m, k, hm, hk, hye⟩ := hy
  have hx0 : x ≠ 0 := ne_of_gt hx
  have hle : (2 : ℚ) ^ Int.log 2 |x| ≤ |y| := by
    refine le_trans (zpow_log_le_abs hx0) ?_
    rw [abs_of_pos hx, abs_of_nonneg hy0]; exact hxy
  have hj := ulpExponent_le_of_double hm hk hye hle
  have h2 : (0 : ℚ) < 2 ^ ulpExponent x := by positivity
  have hq : x / 2 ^ ulpExponent x ≤ ((m * 2 ^ (k - ulpExponent x).toNat : Int) : ℚ) := by
    rw [← double_div_ulp hye hj]
    exact div_le_div_of_nonneg_right hxy h2.le
  have hr := roundHalfEven_le hq
  have hr' : (roundHalfEven (x / 2 ^ ulpExponent x) : ℚ)
      ≤ ((m * 2 ^ (k - ulpExponent x).toNat : Int) : ℚ) := by exact_mod_cast hr
  unfold roundDouble
  calc (roundHalfEven (x / 2 ^ ulpExponent x) : ℚ) * 2 ^ ulpExponent x
      ≤ ((m * 2 ^ (k - ulpExponent x).toNat : Int) : ℚ) * 2 ^ ulpExponent x :=
        mul_le_mul_of_nonneg_right hr' h2.le
    _ = y := by rw [← double_div_ulp hye hj]; field_simp

theorem isDouble_natCast_div_pow (m n : ℕ) (hm : m < 2 ^ 53) (hn : n ≤ 1074) :
    isDouble ((m : ℚ) / 2 ^ n) := by
  refine ⟨(m : Int), -(n : Int), ?_, by omega, ?_⟩
  · rw [abs_of_nonneg (by positivity)]; exact_mod_cast hm
  · rw [zpow_neg, zpow_natCast]; push_cast; rfl

theorem isDouble_natCast (m : ℕ) (hm : m < 2 ^ 53) : isDouble (m : ℚ) := by
  have := isDouble_natCast_div_pow m 0 hm (by norm_num)
  simpa using this

theorem log_abs_eq {x : ℚ} {e : Int} (hlo : (2 : ℚ) ^ e ≤ x) (hhi : x < 2 ^ (e + 1)) :
    Int.log 2 |x| = e := by
  have hx : 0 < x := lt_of_lt_of_le (by positivity) hlo
  rw [abs_of_pos hx]
  have h1 : e ≤ Int.log 2 x := (Int.zpow_le_iff_le_log (b := 2) (by norm_num) hx).1 (by simpa using hlo)
  have h2 : Int.log 2 x < e + 1 := (Int.lt_zpow_iff_log_lt (b := 2) (by norm_num) hx).1 (by simpa using hhi)
  omega

theorem roundDouble_eq {x : ℚ} {m k : Int} (hk : -1074 ≤ k) (hlo : (2 : ℚ) ^ (k + 52) ≤ x)
    (hhi : x < 2 ^ (k + 53)) (hm : |x / 2 ^ k - m| < 1 / 2) : roundDouble x = m * 2 ^ k := by
  have he : Int.log 2 |x| = k + 52 := log_abs_eq hlo (by rw [show k + 52 + 1 = k + 53 by ring]; exact hhi)
  have hu : ulpExponent x = k := by unfold ulpExponent; rw [he]; omega
  unfold roundDouble
  rw [hu, roundHalfEven_near hm]

theorem roundDouble_eq_lit (m k : Int) {x y : ℚ} (hk : -1074 ≤ k)
    (hlo : (2 : ℚ) ^ (k + 52) ≤ x) (hhi : x < 2 ^ (k + 53)) (hm : |x / 2 ^ k - m| < 1 / 2)
    (hy : y = m * 2 ^ k) : roundDouble x = y := by
  rw [hy]; exact roundDouble_eq hk hlo hhi hm

theorem roundHalfEven_tie {q : ℚ} {m : Int} (h : q - m = 1 / 2 ∨ q - m = -(1 / 2))
    (heven : m % 2 = 0) : roundHalfEven q = m := by
  rcases h with h | h
  · have hf : ⌊q⌋ = m := by
      rw [Int.floor_eq_iff]; constructor <;> linarith
    unfold roundHalfEven
    rw [hf, if_neg (by linarith), if_neg (by linarith), if_pos heven]
  · have hf : ⌊q⌋ = m - 1 := by
      rw [Int.floor_eq_iff]; push_cast; constructor <;> linarith
    have hodd : ¬ (m - 1) % 2 = 0 := by omega
    unfold roundHalfEven
    rw [hf, if_neg (by push_cast; linarith), if_neg (by push_cast; linarith), if_neg hodd]
    omega

theorem roundDouble_eq_tie (m k : Int) {x y : ℚ} (hk : -1074 ≤ k)
    (hlo : (2 : ℚ) ^ (k + 52) ≤ x) (hhi : x < 2 ^ (k + 53))
    (hm : x / 2 ^ k - m = 1 / 2 ∨ x / 2 ^ k - m = -(1 / 2)) (heven : m % 2 = 0)
    (hy : y = m * 2 ^ k) : roundDouble x = y := by
  have he : Int.log 2 |x| = k + 52 :=
    log_abs_eq hlo (by rw [show k + 52 + 1 = k + 53 by ring]; exact hhi)
  have hu : ulpExponent x = k := by unfold ulpExponent; rw [he]; omega
  unfold roundDouble
  rw [hu, roundHalfEven_tie hm heven, hy]

theorem roundDouble_pos {x : ℚ} (hx : (2 : ℚ) ^ (-1074 : Int) ≤ x) : 0 < roundDouble x := by
  have hx0 : 0 < x := lt_of_lt_of_le (by positivity) hx
  have he : (-1074 : Int) ≤ Int.log 2 |x| := by
    rw [abs_of_pos hx0]
    exact (Int.zpow_le_iff_le_log (b := 2) (by norm_num) hx0).1 (by simpa using hx)
  have hu : ulpExponent x ≤ Int.log 2 |x| := by unfold ulpExponent; omega
  have h2 : (0 : ℚ) < 2 ^ ulpExponent x := by positivity
  have h1 : ((1 : Int) : ℚ) ≤ x / 2 ^ ulpExponent x := by
    rw [le_div_iff₀ h2]
    push_cast
    rw [one_mul]
    refine le_trans ?_ (le_trans (zpow_log_le_abs hx0.ne.symm) (abs_of_pos hx0).le)
    exact zpow_le_zpow_right₀ (by norm_num) hu
  have h3 := le_roundHalfEven h1
  have h4 : (1 : ℚ) ≤ roundHalfEven (x / 2 ^ ulpExponent x) := by exact_mod_cast h3
  unfold roundDouble
  positivity

theorem abs_roundDouble_sub_le {x : ℚ} {K : Int} (hK : -1074 ≤ K)
    (hx : |x| < 2 ^ (K + 53)) : |roundDouble x - x| ≤ 2 ^ K / 2 := by
  by_cases h0 : x = 0
  · rw [h0, roundDouble_zero]; simp; positivity
  have hu : ulpExponent x ≤ K := by
    have h3 : (2 : ℚ) ^ Int.log 2 |x| < 2 ^ (K + 53) := lt_of_le_of_lt (zpow_log_le_abs h0) hx
    have h4 : Int.log 2 |x| < K + 53 := (zpow_lt_zpow_iff_right₀ (by norm_num)).1 h3
    unfold ulpExponent; omega
  have h2 : (0 : ℚ) < 2 ^ ulpExponent x := by positivity
  have hq := abs_roundHalfEven_sub_le (x / 2 ^ ulpExponent x)
  have heq : roundDouble x - x
      = ((roundHalfEven (x / 2 ^ ulpExponent x) : ℚ) - x / 2 ^ ulpExponent x) * 2 ^ ulpExponent x := by
    unfold roundDouble; field_simp
  rw [heq, abs_mul, abs_of_pos h2]
  calc |(roundHalfEven (x / 2 ^ ulpExponent x) : ℚ) - x / 2 ^ ulpExponent x| * 2 ^ ulpExponent x
      ≤ 1 / 2 * 2 ^ ulpExponent x := mul_le_mul_of_nonneg_right hq h2.le
    _ ≤ 1 / 2 * 2 ^ K := by
        apply mul_le_mul_of_nonneg_left _ (by norm_num)
        exact zpow_le_zpow_right₀ (by norm_num) hu
    _ = 2 ^ K / 2 := by ring

theorem mapHas_eq_isSome {β : Type} (m : List (String × β)) (k : String) :
    mapHas m k = (mapGet m k).isSome := by
  induction m with
  | nil => rfl
  | cons p m ih =>
    obtain ⟨k', v⟩ := p
    by_cases hk : k' = k <;> simp [mapHas, mapGet, hk, ih]

theorem mapGet_mapSet {β : Type} (m : List (String × β)) (k k' : String) (v : β) :
    mapGet (mapSet m k v) k' = if k' = k then some v else mapGet m k' := by
  induction m with
  | nil =>
    by_cases hk : k' = k
    · simp [mapSet, mapGet, hk]
    · have hk' : ¬ k = k' := fun h => hk h.symm
      simp [mapSet, mapGet, hk, hk']
  | cons p m ih =>
    obtain ⟨k₀, v₀⟩ := p
    by_cases h₀ : k₀ = k
    · subst h₀
      by_cases hk : k' = k₀
      · simp [mapSet, mapGet, hk]
      · have hk' : ¬ k₀ = k' := fun h => hk h.symm
        simp [mapSet, mapGet, hk, hk']
    · by_cases hk : k' = k
      · subst hk
        simp [mapSet, mapGet, h₀, ih]
      · by_cases h₁ : k₀ = k'
        · simp [mapSet, mapGet, h₀, h₁, hk]
        · simp [mapSet, mapGet, h₀, h₁, hk, ih]

theorem mapGet_eq_none_iff {β : Type} (m : List (String × β)) (k : String) :
    mapGet m k = none ↔ k ∉ mapKeys m := by
  induction m with
  | nil => simp [mapGet, mapKeys]
  | cons p m ih =>
    obtain ⟨k₀, v₀⟩ := p
    by_cases h₀ : k₀ = k
    · simp [mapGet, mapKeys, h₀]
    · have h₀' : ¬ k = k₀ := fun h => h₀ h.symm
      simpa [mapGet, mapKeys, h₀, h₀'] using ih

theorem mapKeys_mapSet {β : Type} (m : List (String × β)) (k : String) (v : β) :
    mapKeys (mapSet m k v) = if k ∈ mapKeys m then mapKeys m else mapKeys m ++ [k] := by
  induction m with
  | nil => simp [mapSet, mapKeys]
  | cons p m ih =>
    obtain ⟨k₀, v₀⟩ := p
    by_cases h₀ : k₀ = k
    · simp [mapSet, mapKeys, h₀]
    · have h₀' : ¬ k = k₀ := fun h => h₀ h.symm
      have ih' := ih
      simp only [mapKeys] at ih'
      by_cases hm : k ∈ List.map Prod.fst m
      · simp [mapSet, mapKeys, h₀, h₀', hm, ih'] 
      · simp [mapSet, mapKeys, h₀, h₀', hm, ih']

theorem mapKeys_mapSet_nodup {β : Type} (m : List (String × β)) (k : String) (v : β)
    (h : (mapKeys m).Nodup) : (mapKeys (mapSet m k v)).Nodup := by
  rw [mapKeys_mapSet]
  by_cases hm : k ∈ mapKeys m
  · simpa [hm] using h
  · simp only [hm, if_false]
    exact List.Nodup.append h (List.nodup_singleton k) (by simpa using hm)

theorem mem_iff_mapGet {β : Type} (m : List (String × β)) (h : (mapKeys m).Nodup)
    (k : String) (v : β) : (k, v) ∈ m ↔ mapGet m k = some v := by
  induction m with
  | nil => simp [mapGet]
  | cons p m ih =>
    obtain ⟨k₀, v₀⟩ := p
    have hnd : k₀ ∉ mapKeys m ∧ (mapKeys m).Nodup := by
      simpa [mapKeys] using h
    by_cases h₀ : k₀ = k
    · subst h₀
      have hnot : ∀ w, (k₀, w) ∉ m := fun w hw =>
        hnd.1 (List.mem_map.2 ⟨(k₀, w), hw, rfl⟩)
      simp [mapGet, hnot, eq_comm]
    · have h₀' : ¬ k = k₀ := fun h => h₀ h.symm
      simp [mapGet, h₀, h₀', ih hnd.2]

/-- Folding `Set.add` over a list. -/
theorem mem_foldl_setAdd (l s : List String) (e : String) :
    e ∈ l.foldl setAdd s ↔ e ∈ s ∨ e ∈ l := by
  induction l generalizing s with
  | nil => simp
  | cons x l ih =>
    rw [List.foldl_cons, ih]
    by_cases hx : x ∈ s
    · simp only [setAdd, hx, if_true, List.mem_cons]
      constructor
      · rintro (h | h)
        · exact Or.inl h
        · exact Or.inr (Or.inr h)
      · rintro (h | h | h)
        · exact Or.inl h
        · exact Or.inl (h ▸ hx)
        · exact Or.inr h
    · simp only [setAdd, hx, if_false, List.mem_append, List.mem_singleton, List.mem_cons]
      tauto

theorem nodup_foldl_setAdd (l s : List String) (h : s.Nodup) : (l.foldl setAdd s).Nodup := by
  induction l generalizing s with
  | nil => simpa using h
  | cons x l ih =>
    rw [List.foldl_cons]
    apply ih
    by_cases hx : x ∈ s
    · simpa [setAdd, hx] using h
    · simp only [setAdd, hx, if_false]
      exact List.Nodup.append h (List.nodup_singleton x) (by simpa using hx)

theorem processResult_eq_runEvents (st : AggState) (e : String) (r : Settled) :
    processResult st e r = runEvents st (match r with
      | Settled.fulfilled following => following.map (fun a => (e, a))
      | Settled.rejected _ => []) := by
  cases r with
  | fulfilled following => simp [processResult, runEvents, List.foldl_map]
  | rejected reason => simp [processResult, runEvents]

theorem foldl_processResult_eq (ps : List (String × Settled)) (st : AggState) :
    ps.foldl (fun st p => processResult st p.1 p.2) st =
      runEvents st (ps.flatMap (fun p =>
        match p.2 with
        | Settled.fulfilled following => following.map (fun a => (p.1, a))
        | Settled.rejected _ => [])) := by
  induction ps generalizing st with
  | nil => simp [runEvents]
  | cons p ps ih =>
    rw [List.foldl_cons, ih, processResult_eq_runEvents]
    simp [runEvents, List.flatMap_cons, List.foldl_append]

theorem processResults_eq_runEvents (usernames : List String) (results : List Settled) :
    processResults usernames results = runEvents AggState.empty (events usernames results) := by
  unfold processResults events
  exact foldl_processResult_eq _ _

theorem runEvents_snoc (st : AggState) (evs : List (String × Account)) (ea : String × Account) :
    runEvents st (evs ++ [ea]) = processAccount ea.1 (runEvents st evs) ea.2 := by
  simp [runEvents, List.foldl_append]

theorem occurrences_snoc (evs : List (String × Account)) (ea : String × Account) (h : String) :
    occurrences (evs ++ [ea]) h =
      occurrences evs h ++ (if ea.2.screen_name = some h then [ea.1] else []) := by
  by_cases hh : ea.2.screen_name = some h <;> simp [occurrences, List.filter_append, hh]

theorem processAccount_skip (e : String) (st : AggState) (a : Account)
    (h : ∀ u, a.screen_name = some u → u = "") : processAccount e st a = st := by
  unfold processAccount
  cases hs : a.screen_name with
  | none => rfl
  | some u => simp [h u hs]

theorem processAccount_followsMap (e : String) (st : AggState) (a : Account) (u : String)
    (hs : a.screen_name = some u) (hu : u ≠ "") (h : String) :
    mapGet (processAccount e st a).followsMap h =
      if h = u then some (setAdd ((mapGet st.followsMap u).getD []) e)
      else mapGet st.followsMap h := by
  unfold processAccount
  simp only [hs, hu, if_false]
  cases hg : mapGet st.followsMap u with
  | none =>
    have hh : mapHas st.followsMap u = false := by simp [mapHas_eq_isSome, hg]
    simp [hh, mapGet_mapSet]
    by_cases hhu : h = u <;> simp [hhu, hg, mapGet_mapSet]
  | some s =>
    have hh : mapHas st.followsMap u = true := by simp [mapHas_eq_isSome, hg]
    simp [hh, hg, mapGet_mapSet]

theorem processAccount_accountDetails (e : String) (st : AggState) (a : Account) (u : String)
    (hs : a.screen_name = some u) (hu : u ≠ "") (h : String) :
    mapGet (processAccount e st a).accountDetails h =
      if h = u then some ((mapGet st.accountDetails u).getD a)
      else mapGet st.accountDetails h := by
  unfold processAccount
  simp only [hs, hu, if_false]
  cases hg : mapGet st.accountDetails u with
  | none =>
    have hh : mapHas st.accountDetails u = false := by simp [mapHas_eq_isSome, hg]
    simp [hh, mapGet_mapSet]
  | some s =>
    have hh : mapHas st.accountDetails u = true := by simp [mapHas_eq_isSome, hg]
    by_cases hhu : h = u <;> simp [hh, hg, hhu]

theorem processAccount_keys_nodup (e : String) (st : AggState) (a : Account)
    (h : (mapKeys st.followsMap).Nodup) :
    (mapKeys (processAccount e st a).followsMap).Nodup := by
  unfold processAccount
  cases hs : a.screen_name with
  | none => exact h
  | some u =>
    by_cases hu : u = ""
    · simpa [hu] using h
    · simp only [hu, if_false]
      have h₁ : (mapKeys (if mapHas st.followsMap u then st.followsMap
          else mapSet st.followsMap u [])).Nodup := by
        split
        · exact h
        · exact mapKeys_mapSet_nodup _ _ _ h
      split
      · exact mapKeys_mapSet_nodup _ _ _ h₁
      · exact h₁

theorem runEvents_keys_nodup (evs : List (String × Account)) :
    (mapKeys (runEvents AggState.empty evs).followsMap).Nodup := by
  induction evs using List.reverseRecOn with
  | nil => simp [runEvents, AggState.empty, mapKeys]
  | append_singleton evs ea ih =>
    rw [runEvents_snoc]
    exact processAccount_keys_nodup _ _ _ ih

theorem followsMap_runEvents (evs : List (String × Account)) (h : String) :
    mapGet (runEvents AggState.empty evs).followsMap h =
      if h ≠ "" ∧ occurrences evs h ≠ [] then some ((occurrences evs h).foldl setAdd [])
      else none := by
  induction evs using List.reverseRecOn generalizing h with
  | nil => simp [runEvents, AggState.empty, mapGet, occurrences]
  | append_singleton evs ea ih =>
    rw [runEvents_snoc, occurrences_snoc]
    by_cases hskip : ∀ u, ea.2.screen_name = some u → u = ""
    · rw [processAccount_skip _ _ _ hskip, ih]
      by_cases hh : h = ""
      · simp [hh]
      · have hne : ¬ ea.2.screen_name = some h := fun hc => hh (hskip h hc)
        simp [hne]
    · push_neg at hskip
      obtain ⟨u, hs, hu⟩ := hskip
      rw [processAccount_followsMap _ _ _ u hs hu]
      by_cases hhu : h = u
      · subst hhu
        have hget : (mapGet (runEvents AggState.empty evs).followsMap h).getD [] =
            (occurrences evs h).foldl setAdd [] := by
          rw [ih]
          by_cases ho : occurrences evs h = []
          · simp [ho]
          · simp [ho, hu]
        simp [hs, hu, hget, List.foldl_append]
      · have hne : ¬ ea.2.screen_name = some h := by
          rw [hs]; intro hc; exact hhu (Option.some.inj hc).symm
        simp [hhu, hne, ih]

theorem accountDetails_runEvents (evs : List (String × Account)) (h : String) :
    mapGet (runEvents AggState.empty evs).accountDetails h =
      if h ≠ "" then (evs.map Prod.snd).find? (fun a => decide (a.screen_name = some h))
      else none := by
  induction evs using List.reverseRecOn generalizing h with
  | nil => simp [runEvents, AggState.empty, mapGet]
  | append_singleton evs ea ih =>
    rw [runEvents_snoc, List.map_append, List.find?_append]
    by_cases hskip : ∀ u, ea.2.screen_name = some u → u = ""
    · rw [processAccount_skip _ _ _ hskip, ih]
      by_cases hh : h = ""
      · simp [hh]
      · have hne : ¬ ea.2.screen_name = some h := fun hc => hh (hskip h hc)
        simp [hne, hh]
    · push_neg at hskip
      obtain ⟨u, hs, hu⟩ := hskip
      rw [processAccount_accountDetails _ _ _ u hs hu]
      by_cases hhu : h = u
      · subst hhu
        rw [ih]
        cases hf : List.find? (fun a => decide (a.screen_name = some h)) (List.map Prod.snd evs) with
        | none => simp [hu, hs]
        | some b => simp [hu]
      · have hne : ¬ ea.2.screen_name = some h := by
          rw [hs]; intro hc; exact hhu (Option.some.inj hc).symm
        simp [hhu, hne, ih]

theorem floor_fifth (n : Nat) : ⌊(n : ℚ) * 0.2⌋₊ = n / 5 := by
  have h : (n : ℚ) * 0.2 = (n : ℚ) / ((5 : ℕ) : ℚ) := by norm_num; ring
  rw [h, Nat.floor_div_eq_div]

theorem minOverlap_eq (n : Nat) : minOverlap n = max 2 ⌊(n : ℚ) * 0.2⌋₊ := by
  rw [floor_fifth]; rfl

theorem minOverlap_mono {m n : Nat} (h : m ≤ n) : minOverlap m ≤ minOverlap n := by
  unfold minOverlap
  have := Nat.div_le_div_right (c := 5) h
  omega

theorem map_snd_events (usernames : List String) (results : List Settled) :
    (events usernames results).map Prod.snd = encountered usernames results := by
  unfold events encountered
  induction usernames.zip results with
  | nil => rfl
  | cons p ps ih =>
    simp only [List.flatMap_cons, List.map_append, ih]
    congr 1
    cases p.2 <;> simp [Function.comp_def]

theorem mem_occurrences_events (usernames : List String) (results : List Settled)
    (h e : String) :
    e ∈ occurrences (events usernames results) h ↔ e ∈ followersOf usernames results h := by
  unfold occurrences events followersOf
  simp only [List.mem_map, List.mem_filter, List.mem_flatMap, decide_eq_true_eq]
  constructor
  · rintro ⟨⟨e', a⟩, ⟨⟨⟨u, r⟩, hp, hmem⟩, hs⟩, rfl⟩
    refine ⟨(u, r), ⟨hp, ?_⟩, ?_⟩
    · cases r with
      | fulfilled following =>
        simp only [List.mem_map, Prod.mk.injEq] at hmem
        obtain ⟨b, hb, -, rfl⟩ := hmem
        simp only [List.any_eq_true, decide_eq_true_eq]
        exact ⟨b, hb, hs⟩
      | rejected reason => simp at hmem
    · cases r with
      | fulfilled following =>
        simp only [List.mem_map, Prod.mk.injEq] at hmem
        obtain ⟨b, -, rfl, -⟩ := hmem
        rfl
      | rejected reason => simp at hmem
  · rintro ⟨⟨u, r⟩, ⟨hp, hany⟩, rfl⟩
    cases r with
    | fulfilled following =>
      simp only [List.any_eq_true, decide_eq_true_eq] at hany
      obtain ⟨b, hb, hs⟩ := hany
      exact ⟨(u, b), ⟨⟨(u, Settled.fulfilled following), hp, by simpa using hb⟩, hs⟩, rfl⟩
    | rejected reason => simp at hany

theorem fst_mem_of_mem_events (usernames : List String) (results : List Settled)
    (ea : String × Account) (h : ea ∈ events usernames results) : ea.1 ∈ usernames := by
  unfold events at h
  simp only [List.mem_flatMap] at h
  obtain ⟨⟨u, r⟩, hp, hmem⟩ := h
  cases r with
  | fulfilled following =>
    simp only [List.mem_map] at hmem
    obtain ⟨b, -, rfl⟩ := hmem
    exact (List.of_mem_zip hp).1
  | rejected reason => simp at hmem

theorem mem_usernames_of_mem_occurrences (usernames : List String) (results : List Settled)
    (h e : String) (he : e ∈ occurrences (events usernames results) h) : e ∈ usernames := by
  unfold occurrences at he
  simp only [List.mem_map, List.mem_filter] at he
  obtain ⟨ea, ⟨hmem, -⟩, rfl⟩ := he
  exact fst_mem_of_mem_events _ _ _ hmem

/-- The set stored in `followsMap` for a screen name: its experts without
repeats, as many as the distinct experts following it. -/
theorem followSet_facts (usernames : List String) (results : List Settled) (h : String) :
    ((occurrences (events usernames results) h).foldl setAdd []).Nodup ∧
    (∀ e, e ∈ (occurrences (events usernames results) h).foldl setAdd [] ↔
      e ∈ followersOf usernames results h) ∧
    ((occurrences (events usernames results) h).foldl setAdd []).length =
      (followersOf usernames results h).dedup.length ∧
    ((occurrences (events usernames results) h).foldl setAdd []).length ≤
      usernames.dedup.length := by
  have hnd := nodup_foldl_setAdd (occurrences (events usernames results) h) [] List.nodup_nil
  have hmem : ∀ e, e ∈ (occurrences (events usernames results) h).foldl setAdd [] ↔
      e ∈ followersOf usernames results h := by
    intro e
    rw [mem_foldl_setAdd, ← mem_occurrences_events]
    simp
  refine ⟨hnd, hmem, ?_, ?_⟩
  · rw [← List.toFinset_card_of_nodup hnd, ← List.card_toFinset]
    congr 1
    ext e
    simp [hmem]
  · rw [← List.toFinset_card_of_nodup hnd, ← List.card_toFinset]
    apply Finset.card_le_card
    intro e he
    rw [List.mem_toFinset] at he ⊢
    rw [mem_foldl_setAdd] at he
    rcases he with he | he
    · simp at he
    · exact mem_usernames_of_mem_occurrences _ _ _ _ he

theorem analyzeExperts_ok (usernames : List String) (results : List Settled)
    (hne : usernames ≠ []) :
    analyzeExperts usernames results =
      Except.ok (sortResults (convertResults usernames.length
        (processResults usernames results))) := by
  have hlen : usernames.length ≠ 0 := by
    intro h; exact hne (List.length_eq_zero.1 h)
  simp [analyzeExperts, hlen]

theorem sortResults_perm (rs : List AnalysisResult) : (sortResults rs).Perm rs :=
  List.perm_insertionSort _ rs

theorem mem_sortResults (rs : List AnalysisResult) (r : AnalysisResult) :
    r ∈ sortResults rs ↔ r ∈ rs := (sortResults_perm rs).mem_iff

theorem sortResults_sorted (rs : List AnalysisResult) :
    (sortResults rs).Sorted byOverlapDesc :=
  List.sorted_insertionSort _ rs

theorem mem_convertResults (n : Nat) (st : AggState) (r : AnalysisResult) :
    r ∈ convertResults n st ↔
      ∃ p ∈ st.followsMap, minOverlap n ≤ p.2.length ∧
        r = mkResult n p.1 p.2 (mapGet st.accountDetails p.1) := by
  unfold convertResults
  simp only [List.mem_filterMap]
  constructor
  · rintro ⟨p, hp, hsome⟩
    by_cases hmin : minOverlap n ≤ p.2.length
    · simp only [hmin, if_true, Option.some.injEq] at hsome
      exact ⟨p, hp, hmin, hsome.symm⟩
    · simp [hmin] at hsome
  · rintro ⟨p, hp, hmin, rfl⟩
    exact ⟨p, hp, by simp [hmin]⟩

theorem map_username_convertResults (n : Nat) (st : AggState) :
    (convertResults n st).map (fun r => r.username) =
      mapKeys (st.followsMap.filter (fun p => decide (minOverlap n ≤ p.2.length))) := by
  unfold convertResults mapKeys
  induction st.followsMap with
  | nil => rfl
  | cons p m ih =>
    by_cases hmin : minOverlap n ≤ p.2.length
    · simp only [List.filterMap_cons, List.filter_cons, hmin, if_true, decide_True,
        List.map_cons, ih]
      rfl
    · simp [List.filterMap_cons, List.filter_cons, hmin, ih]

theorem usernames_nodup (usernames : List String) (results : List Settled) :
    ((sortResults (convertResults usernames.length
      (processResults usernames results))).map (fun r => r.username)).Nodup := by
  rw [((sortResults_perm _).map _).nodup_iff, map_username_convertResults]
  have hk := runEvents_keys_nodup (events usernames results)
  rw [← processResults_eq_runEvents] at hk
  exact List.Nodup.sublist (List.Sublist.map _ (List.filter_sublist _)) hk

/-- What the loop of lines 87-106 pushes: every object is built from a
non-empty screen name met in some fulfilled list, the experts following it
in order of first encounter, and the first account met under that name. -/
theorem record_facts (usernames : List String) (results : List Settled) (r : AnalysisResult) :
    r ∈ convertResults usernames.length (processResults usernames results) ↔
      r.username ≠ "" ∧ occurrences (events usernames results) r.username ≠ [] ∧
      minOverlap usernames.length ≤
        ((occurrences (events usernames results) r.username).foldl setAdd []).length ∧
      r = mkResult usernames.length r.username
        ((occurrences (events usernames results) r.username).foldl setAdd [])
        ((encountered usernames results).find?
          (fun a => decide (a.screen_name = some r.username))) := by
  rw [mem_convertResults]
  have hk := runEvents_keys_nodup (events usernames results)
  rw [← processResults_eq_runEvents] at hk
  have hget := fun h => followsMap_runEvents (events usernames results) h
  have hacc := fun h => accountDetails_runEvents (events usernames results) h
  simp only [← processResults_eq_runEvents, map_snd_events] at hget hacc
  constructor
  · rintro ⟨⟨u, s⟩, hp, hmin, hr⟩
    have hu : r.username = u := by rw [hr]; rfl
    rw [mem_iff_mapGet _ hk, hget] at hp
    by_cases hc : u ≠ "" ∧ occurrences (events usernames results) u ≠ []
    · rw [if_pos hc, Option.some.injEq] at hp
      subst hp
      rw [hu]
      refine ⟨hc.1, hc.2, hmin, ?_⟩
      rw [hr, hacc, if_pos hc.1]
    · rw [if_neg hc] at hp
      exact absurd hp (by simp)
  · rintro ⟨hu, hocc, hmin, hr⟩
    refine ⟨(r.username, (occurrences (events usernames results) r.username).foldl setAdd []),
      ?_, hmin, ?_⟩
    · rw [mem_iff_mapGet _ hk, hget, if_pos ⟨hu, hocc⟩]
    · rw [hacc, if_pos hu]
      exact hr

/-- C1: for a non-empty list of usernames and any settled outcomes,
`analyzeExperts` returns a list with exactly one record per screen name `h`
that is non-empty and occurs in the fulfilled following lists of at least
`max(2, floor(totalExperts * 0.2))` distinct usernames, and with no record for
any other screen name. -/
theorem analyzeExperts_emits_exactly_overlapping (usernames : List String)
    (results : List Settled) (hne : usernames ≠ []) :
    ∃ recs, analyzeExperts usernames results = Except.ok recs ∧
      (recs.map (fun r => r.username)).Nodup ∧
      ∀ h, h ∈ recs.map (fun r => r.username) ↔
        (h ≠ "" ∧ max 2 ⌊(usernames.length : ℚ) * 0.2⌋₊ ≤
          (followersOf usernames results h).dedup.length) := by
  refine ⟨_, analyzeExperts_ok usernames results hne, usernames_nodup usernames results, ?_⟩
  intro h
  rw [← minOverlap_eq]
  obtain ⟨-, hmem, hlen, -⟩ := followSet_facts usernames results h
  simp only [List.mem_map, mem_sortResults, record_facts]
  constructor
  · rintro ⟨r, ⟨hu, -, hmin, -⟩, rfl⟩
    obtain ⟨-, -, hlen', -⟩ := followSet_facts usernames results r.username
    exact ⟨hu, hlen' ▸ hmin⟩
  · rintro ⟨hu, hmin⟩
    rw [← hlen] at hmin
    have hocc : occurrences (events usernames results) h ≠ [] := by
      intro hc
      rw [hc] at hmin
      have h2 : 2 ≤ minOverlap usernames.length := le_max_left _ _
      simp at hmin
      omega
    exact ⟨mkResult usernames.length h
      ((occurrences (events usernames results) h).foldl setAdd [])
      ((encountered usernames results).find? (fun a => decide (a.screen_name = some h))),
      ⟨hu, hocc, hmin, rfl⟩, rfl⟩

theorem analyzeExperts_emits_exactly_overlapping_witness :
    exampleUsernames ≠ [] ∧
    ∃ recs, analyzeExperts exampleUsernames exampleResults = Except.ok recs ∧
      (recs.map (fun r => r.username)).Nodup ∧
      ∀ h, h ∈ recs.map (fun r => r.username) ↔
        (h ≠ "" ∧ max 2 ⌊(exampleUsernames.length : ℚ) * 0.2⌋₊ ≤
          (followersOf exampleUsernames exampleResults h).dedup.length) :=
  ⟨by decide, analyzeExperts_emits_exactly_overlapping exampleUsernames exampleResults
    (by decide)⟩

/-- C2: every record returned by `analyzeExperts` has an `experts_following`
list whose entries are usernames of the deduplicated input, without repeats,
and `overlap_count` is the length of that list. -/
theorem analyzeExperts_followedBy_subset (usernames : List String)
    (results : List Settled) (hne : usernames ≠ []) :
    ∃ recs, analyzeExperts usernames results = Except.ok recs ∧
      ∀ r ∈ recs, (∀ e ∈ r.experts_following, e ∈ usernames.dedup) ∧
        r.experts_following.Nodup ∧
        r.overlap_count = r.experts_following.length := by
  refine ⟨_, analyzeExperts_ok usernames results hne, ?_⟩
  intro r hr
  rw [mem_sortResults, record_facts] at hr
  obtain ⟨-, -, -, hr⟩ := hr
  obtain ⟨hnd, hmem, -, -⟩ := followSet_facts usernames results r.username
  have hexp : r.experts_following =
      (occurrences (events usernames results) r.username).foldl setAdd [] := by
    rw [hr]; rfl
  have hcnt : r.overlap_count =
      ((occurrences (events usernames results) r.username).foldl setAdd []).length := by
    rw [hr]; rfl
  refine ⟨?_, hexp ▸ hnd, by rw [hcnt, hexp]⟩
  intro e he
  rw [hexp, mem_foldl_setAdd] at he
  rcases he with he | he
  · simp at he
  · exact List.mem_dedup.2 (mem_usernames_of_mem_occurrences _ _ _ _ he)

theorem analyzeExperts_followedBy_subset_witness :
    exampleUsernames ≠ [] ∧
    ∃ recs, analyzeExperts exampleUsernames exampleResults = Except.ok recs ∧
      ∀ r ∈ recs, (∀ e ∈ r.experts_following, e ∈ exampleUsernames.dedup) ∧
        r.experts_following.Nodup ∧
        r.overlap_count = r.experts_following.length :=
  ⟨by decide, analyzeExperts_followedBy_subset exampleUsernames exampleResults (by decide)⟩

/-- C3: every record returned by `analyzeExperts` has
`overlap_count >= max(2, floor(N * 0.2))`, where `N` is the number of
deduplicated usernames of the input. -/
theorem analyzeExperts_overlap_ge_minOverlap (usernames : List String)
    (results : List Settled) (hne : usernames ≠ []) :
    ∃ recs, analyzeExperts usernames results = Except.ok recs ∧
      ∀ r ∈ recs, max 2 ⌊(usernames.dedup.length : ℚ) * 0.2⌋₊ ≤ r.overlap_count := by
  refine ⟨_, analyzeExperts_ok usernames results hne, ?_⟩
  intro r hr
  rw [mem_sortResults, record_facts] at hr
  obtain ⟨-, -, hmin, hr⟩ := hr
  have hcnt : r.overlap_count =
      ((occurrences (events usernames results) r.username).foldl setAdd []).length := by
    rw [hr]; rfl
  rw [← minOverlap_eq, hcnt]
  exact le_trans (minOverlap_mono (List.Sublist.length_le (List.dedup_sublist usernames))) hmin

theorem analyzeExperts_overlap_ge_minOverlap_witness :
    exampleUsernames ≠ [] ∧
    ∃ recs, analyzeExperts exampleUsernames exampleResults = Except.ok recs ∧
      ∀ r ∈ recs, max 2 ⌊(exampleUsernames.dedup.length : ℚ) * 0.2⌋₊ ≤ r.overlap_count :=
  ⟨by decide, analyzeExperts_overlap_ge_minOverlap exampleUsernames exampleResults (by decide)⟩

/-- C4: the list returned by `analyzeExperts` is in descending order of
`overlap_count`: of two adjacent records the earlier one has an
`overlap_count` at least that of the later one, and so has any earlier record
against any later one. -/
theorem analyzeExperts_sorted_desc (usernames : List String)
    (results : List Settled) (hne : usernames ≠ []) :
    ∃ recs, analyzeExperts usernames results = Except.ok recs ∧
      List.Chain' (fun a b => b.overlap_count ≤ a.overlap_count) recs ∧
      List.Pairwise (fun a b => b.overlap_count ≤ a.overlap_count) recs := by
  refine ⟨_, analyzeExperts_ok usernames results hne, ?_, ?_⟩
  · exact List.Pairwise.chain' (sortResults_sorted _)
  · exact sortResults_sorted _

theorem analyzeExperts_sorted_desc_witness :
    exampleUsernames ≠ [] ∧
    ∃ recs, analyzeExperts exampleUsernames exampleResults = Except.ok recs ∧
      List.Chain' (fun a b => b.overlap_count ≤ a.overlap_count) recs ∧
      List.Pairwise (fun a b => b.overlap_count ≤ a.overlap_count) recs :=
  ⟨by decide, analyzeExperts_sorted_desc exampleUsernames exampleResults (by decide)⟩

theorem mkResult_profile (n : Nat) (u : String) (s : List String) (a : Account) :
    (mkResult n u s (some a)).followers_count = a.followers_count ∧
    (mkResult n u s (some a)).following_count = a.friends_count ∧
    (mkResult n u s (some a)).description = a.description ∧
    (mkResult n u s (some a)).verified = a.verified := by
  refine ⟨?_, ?_, ?_, ?_⟩
  · show (if a.followers_count = 0 then 0 else a.followers_count) = a.followers_count
    split
    · next h => exact h.symm
    · rfl
  · show (if a.friends_count = 0 then 0 else a.friends_count) = a.friends_count
    split
    · next h => exact h.symm
    · rfl
  · show (if a.description = "" then "" else a.description) = a.description
    split
    · next h => exact h.symm
    · rfl
  · show (if a.verified = false then false else a.verified) = a.verified
    split
    · next h => exact h.symm
    · rfl

theorem find?_encountered_isSome (usernames : List String) (results : List Settled)
    (h : String) (hocc : occurrences (events usernames results) h ≠ []) :
    ∃ a, (encountered usernames results).find?
      (fun a => decide (a.screen_name = some h)) = some a := by
  obtain ⟨e, he⟩ := List.exists_mem_of_ne_nil _ hocc
  unfold occurrences at he
  simp only [List.mem_map, List.mem_filter, decide_eq_true_eq] at he
  obtain ⟨ea, ⟨hmem, hs⟩, -⟩ := he
  have hm : ea.2 ∈ encountered usernames results := by
    rw [← map_snd_events]
    exact List.mem_map_of_mem _ hmem
  cases hf : (encountered usernames results).find?
      (fun a => decide (a.screen_name = some h)) with
  | some a => exact ⟨a, rfl⟩
  | none =>
    rw [List.find?_eq_none] at hf
    exact absurd (by simpa using hs) (hf ea.2 hm)

/-- The two maps built for the worked example, whatever the profiles. -/
theorem processResults_worked_example (p₁ p₂ p₃ p₄ p₅ p₆ : Account) :
    processResults ["a", "b", "c"]
      [Settled.fulfilled [named "x" p₁, named "y" p₂],
       Settled.fulfilled [named "x" p₃],
       Settled.fulfilled [named "x" p₄, named "y" p₅, named "z" p₆]] =
    ⟨[("x", ["a", "b", "c"]), ("y", ["a", "c"]), ("z", ["c"])],
     [("x", named "x" p₁), ("y", named "y" p₂), ("z", named "z" p₆)]⟩ := by
  simp only [processResults, List.zip_cons_cons, List.zip_nil_right, List.foldl_cons,
    List.foldl_nil, processResult, AggState.empty]
  rw [show processAccount "a" ⟨[], []⟩ (named "x" p₁) =
    ⟨[("x", ["a"])], [("x", named "x" p₁)]⟩ from rfl]
  rw [show processAccount "a" ⟨[("x", ["a"])], [("x", named "x" p₁)]⟩ (named "y" p₂) =
    ⟨[("x", ["a"]), ("y", ["a"])], [("x", named "x" p₁), ("y", named "y" p₂)]⟩ from rfl]
  rw [show processAccount "b" ⟨[("x", ["a"]), ("y", ["a"])],
      [("x", named "x" p₁), ("y", named "y" p₂)]⟩ (named "x" p₃) =
    ⟨[("x", ["a", "b"]), ("y", ["a"])], [("x", named "x" p₁), ("y", named "y" p₂)]⟩ from rfl]
  rw [show processAccount "c" ⟨[("x", ["a", "b"]), ("y", ["a"])],
      [("x", named "x" p₁), ("y", named "y" p₂)]⟩ (named "x" p₄) =
    ⟨[("x", ["a", "b", "c"]), ("y", ["a"])],
      [("x", named "x" p₁), ("y", named "y" p₂)]⟩ from rfl]
  rw [show processAccount "c" ⟨[("x", ["a", "b", "c"]), ("y", ["a"])],
      [("x", named "x" p₁), ("y", named "y" p₂)]⟩ (named "y" p₅) =
    ⟨[("x", ["a", "b", "c"]), ("y", ["a", "c"])],
      [("x", named "x" p₁), ("y", named "y" p₂)]⟩ from rfl]
  rfl

/-- C5: for the experts `[a, b, c]` with following lists `a -> [x, y]`,
`b -> [x]`, `c -> [x, y, z]` (accounts with any profile data), `analyzeExperts`
returns exactly two records: first `x` with `overlap_count` 3 and
`experts_following` a, b, c, then `y` with `overlap_count` 2 and
`experts_following` a, c; `z` is not in the output. -/
theorem analyzeExperts_worked_example (p₁ p₂ p₃ p₄ p₅ p₆ : Account) :
    ∃ recs, analyzeExperts ["a", "b", "c"]
        [Settled.fulfilled [named "x" p₁, named "y" p₂],
         Settled.fulfilled [named "x" p₃],
         Settled.fulfilled [named "x" p₄, named "y" p₅, named "z" p₆]]
        = Except.ok recs ∧
      recs.map (fun r => (r.username, r.overlap_count, r.experts_following)) =
        [("x", 3, ["a", "b", "c"]), ("y", 2, ["a", "c"])] ∧
      recs.length = 2 ∧
      "z" ∉ recs.map (fun r => r.username) := by
  refine ⟨_, analyzeExperts_ok _ _ (by decide), ?_⟩
  rw [processResults_worked_example]
  refine ⟨rfl, rfl, ?_⟩
  show "z" ∉ ["x", "y"]
  decide

/-- C6: the `overlap_count` of every record returned by `analyzeExperts` is at
most the number of usernames in the request. -/
theorem analyzeExperts_overlap_le_total (usernames : List String)
    (results : List Settled) (hne : usernames ≠ []) :
    ∃ recs, analyzeExperts usernames results = Except.ok recs ∧
      ∀ r ∈ recs, r.overlap_count ≤ usernames.length := by
  refine ⟨_, analyzeExperts_ok usernames results hne, ?_⟩
  intro r hr
  rw [mem_sortResults, record_facts] at hr
  obtain ⟨-, -, -, hr⟩ := hr
  obtain ⟨-, -, -, hle⟩ := followSet_facts usernames results r.username
  have hcnt : r.overlap_count =
      ((occurrences (events usernames results) r.username).foldl setAdd []).length := by
    rw [hr]; rfl
  rw [hcnt]
  exact le_trans hle (List.Sublist.length_le (List.dedup_sublist usernames))

theorem analyzeExperts_overlap_le_total_witness :
    exampleUsernames ≠ [] ∧
    ∃ recs, analyzeExperts exampleUsernames exampleResults = Except.ok recs ∧
      ∀ r ∈ recs, r.overlap_count ≤ exampleUsernames.length :=
  ⟨by decide, analyzeExperts_overlap_le_total exampleUsernames exampleResults (by decide)⟩

theorem divDouble_7_25 : divDouble 7 25 = 5044031582654956 * 2 ^ (-54 : Int) := by
  unfold divDouble
  refine roundDouble_eq (by norm_num) (by norm_num) (by norm_num) ?_
  rw [abs_lt]; constructor <;> norm_num

theorem percentage_7_25 : mulDouble (divDouble 7 25) 100 = 28 + 1 / 2 ^ 48 := by
  rw [divDouble_7_25]
  unfold mulDouble
  have h : roundDouble (5044031582654956 * 2 ^ (-54 : Int) * 100) =
      (7881299347898369 : Int) * 2 ^ (-48 : Int) := by
    refine roundDouble_eq (by norm_num) (by norm_num) (by norm_num) ?_
    rw [abs_lt]; constructor <;> norm_num
  rw [h]; norm_num

theorem percentage_facts {c n : Nat} (hc : 0 < c) (hcn : c ≤ n) (hn : n < 2 ^ 32) :
    |mulDouble (divDouble (c : ℚ) (n : ℚ)) 100 - 100 * (c : ℚ) / (n : ℚ)| ≤ 1 / 2 ^ 45 ∧
    0 < mulDouble (divDouble (c : ℚ) (n : ℚ)) 100 ∧
    mulDouble (divDouble (c : ℚ) (n : ℚ)) 100 ≤ 100 := by
  have hc' : (1 : ℚ) ≤ (c : ℚ) := by exact_mod_cast hc
  have hn0 : (0 : ℚ) < (n : ℚ) := by
    have : 0 < n := by omega
    exact_mod_cast this
  have hcn' : (c : ℚ) ≤ (n : ℚ) := by exact_mod_cast hcn
  have hn' : (n : ℚ) < 2 ^ 32 := by exact_mod_cast hn
  have hq1 : (c : ℚ) / (n : ℚ) ≤ 1 := (div_le_one hn0).2 hcn'
  have hq0 : (1 : ℚ) / 2 ^ 32 < (c : ℚ) / (n : ℚ) := by
    rw [div_lt_div_iff₀ (by positivity) hn0]
    nlinarith
  have hd1 : divDouble (c : ℚ) (n : ℚ) ≤ 1 :=
    roundDouble_le (by simpa using isDouble_natCast 1 (by norm_num)) (by norm_num) hq1
  have hde : |divDouble (c : ℚ) (n : ℚ) - (c : ℚ) / (n : ℚ)| ≤ 2 ^ (-52 : Int) / 2 := by
    refine abs_roundDouble_sub_le (by norm_num) ?_
    rw [abs_of_pos (by positivity)]
    exact lt_of_le_of_lt hq1 (by norm_num)
  have hde' := abs_le.1 hde
  have hd0 : (1 : ℚ) / 2 ^ 33 ≤ divDouble (c : ℚ) (n : ℚ) := by
    have h1 : (2 : ℚ) ^ (-52 : Int) / 2 ≤ 1 / 2 ^ 33 := by norm_num
    have h2 : (1 : ℚ) / 2 ^ 32 = 1 / 2 ^ 33 + 1 / 2 ^ 33 := by norm_num
    linarith [hde'.1]
  have hm0 : (0 : ℚ) < divDouble (c : ℚ) (n : ℚ) * 100 :=
    mul_pos (lt_of_lt_of_le (by positivity) hd0) (by norm_num)
  have hm1 : divDouble (c : ℚ) (n : ℚ) * 100 ≤ 100 := by linarith
  have hp1 : mulDouble (divDouble (c : ℚ) (n : ℚ)) 100 ≤ 100 :=
    roundDouble_le (by simpa using isDouble_natCast 100 (by norm_num)) (by norm_num) hm1
  have hp0 : 0 < mulDouble (divDouble (c : ℚ) (n : ℚ)) 100 := by
    apply roundDouble_pos
    have h1 : (2 : ℚ) ^ (-1074 : Int) ≤ 2 ^ (-33 : Int) :=
      zpow_le_zpow_right₀ (by norm_num) (by norm_num)
    have h2 : (2 : ℚ) ^ (-33 : Int) = 1 / 2 ^ 33 := by norm_num
    have h3 : (1 : ℚ) / 2 ^ 33 ≤ divDouble (c : ℚ) (n : ℚ) * 100 := by
      have : (0 : ℚ) ≤ divDouble (c : ℚ) (n : ℚ) := le_trans (by positivity) hd0
      linarith
    exact le_trans h1 (le_trans h2.le h3)
  have hpe : |mulDouble (divDouble (c : ℚ) (n : ℚ)) 100 - divDouble (c : ℚ) (n : ℚ) * 100|
      ≤ 2 ^ (-46 : Int) / 2 := by
    refine abs_roundDouble_sub_le (by norm_num) ?_
    rw [abs_of_pos hm0]
    exact lt_of_le_of_lt hm1 (by norm_num)
  have hpe' := abs_le.1 hpe
  refine ⟨?_, hp0, hp1⟩
  have e1 : (2 : ℚ) ^ (-52 : Int) / 2 = 1 / 2 ^ 53 := by norm_num
  have e2 : (2 : ℚ) ^ (-46 : Int) / 2 = 1 / 2 ^ 47 := by norm_num
  have e3 : (100 : ℚ) * (c : ℚ) / (n : ℚ) = (c : ℚ) / (n : ℚ) * 100 := by ring
  rw [e1] at hde'
  rw [e2] at hpe'
  rw [e3, abs_le]
  constructor
  · have : (1 : ℚ) / 2 ^ 47 + 100 * (1 / 2 ^ 53) ≤ 1 / 2 ^ 45 := by norm_num
    linarith [hde'.1, hpe'.1]
  · have : (1 : ℚ) / 2 ^ 47 + 100 * (1 / 2 ^ 53) ≤ 1 / 2 ^ 45 := by norm_num
    linarith [hde'.2, hpe'.2]

/-- C7 (as stated, refuted): with seven of twenty-five experts following the
account `x`, its record has the fraction "7/25" and the percentage
`28 + 2^-48`, which a double prints as 28.000000000000004, and not
`100 * 7 / 25 = 28`. -/
theorem analyzeExperts_percentage_rounded :
    ∃ r, analyzeExperts twentyFiveUsernames sevenFollowX = Except.ok [r] ∧
      twentyFiveUsernames.length = 25 ∧
      r.overlap_count = 7 ∧
      r.overlap_fraction = "7/25" ∧
      r.overlap_percentage = 28 + 1 / 2 ^ 48 ∧
      r.overlap_percentage ≠
        100 * (r.overlap_count : ℚ) / (twentyFiveUsernames.length : ℚ) := by
  have hp : (mkResult 25 "x" ["e01", "e02", "e03", "e04", "e05", "e06", "e07"]
      (some (plainAccount "x"))).overlap_percentage = 28 + 1 / 2 ^ 48 := by
    show mulDouble (divDouble ((7 : Nat) : ℚ) ((25 : Nat) : ℚ)) 100 = _
    rw [← percentage_7_25]
    norm_num
  refine ⟨mkResult 25 "x" ["e01", "e02", "e03", "e04", "e05", "e06", "e07"]
    (some (plainAccount "x")), rfl, rfl, rfl, by decide, hp, ?_⟩
  rw [hp]
  show (28 : ℚ) + 1 / 2 ^ 48 ≠ 100 * ((7 : Nat) : ℚ) / ((25 : Nat) : ℚ)
  norm_num

/-- C7 (amended): every record returned by `analyzeExperts` has
`overlap_percentage` equal to the double `(overlap_count / totalExperts) * 100`,
the quotient rounded to a double and then the product: it lies in `(0, 100]`
and within `2^-45` of `100 * overlap_count / totalExperts`; `overlap_fraction`
is the text `<overlap_count>/<totalExperts>`. `totalExperts` is the number of
usernames of the request, an array length below `2^32`. -/
theorem analyzeExperts_overlap_fraction (usernames : List String)
    (results : List Settled) (hne : usernames ≠ []) (hlen : usernames.length < 2 ^ 32) :
    ∃ recs, analyzeExperts usernames results = Except.ok recs ∧
      ∀ r ∈ recs,
        r.overlap_percentage =
          mulDouble (divDouble (r.overlap_count : ℚ) (usernames.length : ℚ)) 100 ∧
        |r.overlap_percentage - 100 * (r.overlap_count : ℚ) / (usernames.length : ℚ)|
          ≤ 1 / 2 ^ 45 ∧
        0 < r.overlap_percentage ∧ r.overlap_percentage ≤ 100 ∧
        r.overlap_fraction = toString r.overlap_count ++ "/" ++ toString usernames.length := by
  refine ⟨_, analyzeExperts_ok usernames results hne, ?_⟩
  intro r hr
  rw [mem_sortResults, record_facts] at hr
  obtain ⟨-, -, hmin, hr⟩ := hr
  obtain ⟨-, -, -, hle⟩ := followSet_facts usernames results r.username
  have hcnt : r.overlap_count =
      ((occurrences (events usernames results) r.username).foldl setAdd []).length := by
    rw [hr]; rfl
  have hpct : r.overlap_percentage =
      mulDouble (divDouble (r.overlap_count : ℚ) (usernames.length : ℚ)) 100 := by
    rw [hcnt, hr]; rfl
  have hfrac : r.overlap_fraction =
      toString r.overlap_count ++ "/" ++ toString usernames.length := by
    rw [hcnt, hr]; rfl
  have h2 : 2 ≤ r.overlap_count := by
    rw [hcnt]; exact le_trans (le_max_left _ _) hmin
  have hcn : r.overlap_count ≤ usernames.length := by
    rw [hcnt]; exact le_trans hle (List.Sublist.length_le (List.dedup_sublist usernames))
  obtain ⟨he, h0, h1⟩ := percentage_facts (by omega : 0 < r.overlap_count) hcn hlen
  rw [← hpct] at he h0 h1
  exact ⟨hpct, he, h0, h1, hfrac⟩

theorem analyzeExperts_overlap_fraction_witness :
    exampleUsernames ≠ [] ∧ exampleUsernames.length < 2 ^ 32 ∧
    ∃ recs, analyzeExperts exampleUsernames exampleResults = Except.ok recs ∧
      ∀ r ∈ recs,
        r.overlap_percentage =
          mulDouble (divDouble (r.overlap_count : ℚ) (exampleUsernames.length : ℚ)) 100 ∧
        |r.overlap_percentage -
          100 * (r.overlap_count : ℚ) / (exampleUsernames.length : ℚ)| ≤ 1 / 2 ^ 45 ∧
        0 < r.overlap_percentage ∧ r.overlap_percentage ≤ 100 ∧
        r.overlap_fraction =
          toString r.overlap_count ++ "/" ++ toString exampleUsernames.length :=
  ⟨by decide, by decide,
    analyzeExperts_overlap_fraction exampleUsernames exampleResults (by decide) (by decide)⟩

/-- C8: every record returned by `analyzeExperts` takes `followers_count`,
`following_count`, `description` and `verified` from the first account with
its screen name met when the fulfilled following lists are read in input
order of the experts, each list from its start. -/
theorem analyzeExperts_first_seen_profile (usernames : List String)
    (results : List Settled) (hne : usernames ≠ []) :
    ∃ recs, analyzeExperts usernames results = Except.ok recs ∧
      ∀ r ∈ recs, ∃ a,
        (encountered usernames results).find?
          (fun a => decide (a.screen_name = some r.username)) = some a ∧
        r.followers_count = a.followers_count ∧
        r.following_count = a.friends_count ∧
        r.description = a.description ∧
        r.verified = a.verified := by
  refine ⟨_, analyzeExperts_ok usernames results hne, ?_⟩
  intro r hr
  rw [mem_sortResults, record_facts] at hr
  obtain ⟨-, hocc, -, hr⟩ := hr
  obtain ⟨a, ha⟩ := find?_encountered_isSome usernames results r.username hocc
  rw [ha] at hr
  obtain ⟨h₁, h₂, h₃, h₄⟩ := mkResult_profile usernames.length r.username
    ((occurrences (events usernames results) r.username).foldl setAdd []) a
  rw [← hr] at h₁ h₂ h₃ h₄
  exact ⟨a, ha, h₁, h₂, h₃, h₄⟩

theorem mem_dedupUsernames (us : List String) (u : String) :
    u ∈ dedupUsernames us ↔ u ∈ us := by
  induction us with
  | nil => simp [dedupUsernames]
  | cons v us ih =>
    simp only [dedupUsernames, List.mem_cons, List.mem_filter, ih, decide_eq_true_eq]
    by_cases h : u = v <;> simp [h]

theorem nodup_dedupUsernames (us : List String) : (dedupUsernames us).Nodup := by
  induction us with
  | nil => simp [dedupUsernames]
  | cons v us ih =>
    simp only [dedupUsernames, List.nodup_cons, List.mem_filter, decide_eq_true_eq]
    exact ⟨fun h => h.2 rfl, ih.filter _⟩

theorem mapSet_self {β : Type} (m : List (String × β)) (k : String) (v : β)
    (h : mapGet m k = some v) : mapSet m k v = m := by
  induction m with
  | nil => simp [mapGet] at h
  | cons p m ih =>
    obtain ⟨k₀, v₀⟩ := p
    by_cases h₀ : k₀ = k
    · simp only [mapGet, h₀, if_true, Option.some.injEq] at h
      simp [mapSet, h₀, h]
    · simp only [mapGet, h₀, if_false] at h
      simp [mapSet, h₀, ih h]

theorem mem_setAdd (s : List String) (x e : String) : e ∈ setAdd s x ↔ e ∈ s ∨ e = x := by
  unfold setAdd
  by_cases hx : x ∈ s
  · simp only [hx, if_true]
    constructor
    · exact Or.inl
    · rintro (h | h)
      · exact h
      · exact h ▸ hx
  · simp [hx]

theorem processAccount_of_absorbs (u : String) (st : AggState) (a : Account)
    (h : Absorbs st u a) : processAccount u st a = st := by
  by_cases hskip : ∀ v, a.screen_name = some v → v = ""
  · exact processAccount_skip _ _ _ hskip
  · push_neg at hskip
    obtain ⟨v, hs, hv⟩ := hskip
    obtain ⟨⟨s, hget, hmem⟩, hhas⟩ := h v hs hv
    have hfm : mapHas st.followsMap v = true := by simp [mapHas_eq_isSome, hget]
    have hadd : setAdd s u = s := by simp [setAdd, hmem]
    unfold processAccount
    simp only [hs, hv, if_false, hfm, if_true, hget, hadd, hhas, mapSet_self _ _ _ hget]

theorem absorbs_processAccount (e u : String) (st : AggState) (a b : Account)
    (h : Absorbs st u a) : Absorbs (processAccount e st b) u a := by
  by_cases hskip : ∀ v, b.screen_name = some v → v = ""
  · rw [processAccount_skip _ _ _ hskip]; exact h
  · push_neg at hskip
    obtain ⟨v, hs, hv⟩ := hskip
    intro k hk hk0
    obtain ⟨⟨s, hget, hmem⟩, hhas⟩ := h k hk hk0
    rw [mapHas_eq_isSome] at hhas ⊢
    rw [processAccount_followsMap _ _ _ v hs hv, processAccount_accountDetails _ _ _ v hs hv]
    by_cases hkv : k = v
    · subst hkv
      simp only [if_true, hget, Option.getD_some]
      exact ⟨⟨_, rfl, (mem_setAdd _ _ _).2 (Or.inl hmem)⟩, rfl⟩
    · simp only [hkv, if_false]
      exact ⟨⟨s, hget, hmem⟩, hhas⟩

theorem absorbs_self (u : String) (st : AggState) (a : Account) :
    Absorbs (processAccount u st a) u a := by
  intro k hk hk0
  rw [mapHas_eq_isSome, processAccount_followsMap _ _ _ k hk hk0,
    processAccount_accountDetails _ _ _ k hk hk0]
  simp only [if_true]
  exact ⟨⟨_, rfl, (mem_setAdd _ _ _).2 (Or.inr rfl)⟩, rfl⟩

theorem absorbs_foldl (e u : String) (l : List Account) (st : AggState) (a : Account)
    (h : Absorbs st u a) : Absorbs (l.foldl (processAccount e) st) u a := by
  induction l generalizing st with
  | nil => exact h
  | cons b l ih => exact ih _ (absorbs_processAccount _ _ _ _ _ h)

theorem absorbs_after (u : String) (l : List Account) (st : AggState) :
    ∀ a ∈ l, Absorbs (l.foldl (processAccount u) st) u a := by
  induction l generalizing st with
  | nil => simp
  | cons b l ih =>
    intro a ha
    rcases List.mem_cons.1 ha with rfl | ha
    · exact absorbs_foldl u u l (processAccount u st a) a (absorbs_self u st a)
    · exact ih (processAccount u st b) a ha

theorem foldl_of_absorbs (u : String) (l : List Account) (st : AggState)
    (h : ∀ a ∈ l, Absorbs st u a) : l.foldl (processAccount u) st = st := by
  induction l with
  | nil => rfl
  | cons b l ih =>
    rw [List.foldl_cons, processAccount_of_absorbs _ _ _ (h b (List.mem_cons_self _ _))]
    exact ih (fun a ha => h a (List.mem_cons_of_mem _ ha))

/-- The expert `u` has been read: reading `result` again for `u` is a no-op. -/
theorem processResult_of_absorbs (st : AggState) (u : String) (result : Settled)
    (h : ∀ l, result = Settled.fulfilled l → ∀ a ∈ l, Absorbs st u a) :
    processResult st u result = st := by
  cases result with
  | fulfilled l => exact foldl_of_absorbs _ _ _ (h l rfl)
  | rejected reason => rfl

theorem absorbs_processResult (st : AggState) (e u : String) (result : Settled) (a : Account)
    (h : Absorbs st u a) : Absorbs (processResult st e result) u a := by
  cases result with
  | fulfilled l => exact absorbs_foldl _ _ _ _ _ h
  | rejected reason => exact h

theorem foldl_filter_absorbed (f : String → Settled) (u : String) (us : List String)
    (st : AggState) (h : ∀ l, f u = Settled.fulfilled l → ∀ a ∈ l, Absorbs st u a) :
    us.foldl (fun st v => processResult st v (f v)) st =
      (us.filter (fun v => decide (v ≠ u))).foldl (fun st v => processResult st v (f v)) st := by
  induction us generalizing st with
  | nil => rfl
  | cons v us ih =>
    by_cases hv : v = u
    · subst hv
      simp only [List.foldl_cons, List.filter_cons, ne_eq, not_true_eq_false, decide_False,
        Bool.false_eq_true, if_false]
      rw [processResult_of_absorbs _ _ _ h]
      exact ih st h
    · simp only [List.foldl_cons, List.filter_cons, ne_eq, hv, not_false_eq_true, decide_True,
        if_true]
      exact ih _ (fun l hl a ha => absorbs_processResult _ _ _ _ _ (h l hl a ha))

theorem foldl_dedupUsernames (f : String → Settled) (us : List String) (st : AggState) :
    us.foldl (fun st v => processResult st v (f v)) st =
      (dedupUsernames us).foldl (fun st v => processResult st v (f v)) st := by
  induction us generalizing st with
  | nil => rfl
  | cons u us ih =>
    simp only [dedupUsernames, List.foldl_cons]
    rw [ih]
    apply foldl_filter_absorbed
    intro l hl a ha
    rw [hl]
    exact absorbs_after u l st a ha

theorem processResults_map (f : String → Settled) (us : List String) :
    processResults us (us.map f) =
      us.foldl (fun st v => processResult st v (f v)) AggState.empty := by
  unfold processResults
  have hz : us.zip (us.map f) = us.map (fun v => (v, f v)) := by
    induction us with
    | nil => rfl
    | cons v us ih => simp [ih]
  rw [hz, List.foldl_map]

theorem processResults_dedup (f : String → Settled) (us : List String) :
    processResults us (us.map f) =
      processResults (dedupUsernames us) ((dedupUsernames us).map f) := by
  rw [processResults_map, processResults_map, foldl_dedupUsernames]

theorem analyzeExperts_first_seen_profile_witness :
    profileUsernames ≠ [] ∧
    ∃ recs, analyzeExperts profileUsernames profileResults = Except.ok recs ∧
      ∀ r ∈ recs, ∃ a,
        (encountered profileUsernames profileResults).find?
          (fun a => decide (a.screen_name = some r.username)) = some a ∧
        r.followers_count = a.followers_count ∧
        r.following_count = a.friends_count ∧
        r.description = a.description ∧
        r.verified = a.verified :=
  ⟨by decide, analyzeExperts_first_seen_profile profileUsernames profileResults (by decide)⟩

theorem analyzeExperts_profile_example :
    (analyzeExperts profileUsernames profileResults).map
      (List.map (fun r => (r.username, r.followers_count, r.description, r.verified))) =
      Except.ok [("x", 10, "first", false)] := by
  rfl

theorem manyUsernames_nodup : manyUsernames.Nodup := by
  unfold manyUsernames
  apply List.Nodup.map _ (List.nodup_range 101)
  intro m n h
  have h' := congrArg (fun s => s.data.length) h
  simpa using h'

/-- C9 (as stated, refuted): a request with a single expert, and a request
with 101 distinct experts, do not fail: `analyzeExperts` returns a list. -/
theorem analyzeExperts_accepts_one_and_101 :
    (["a"].dedup.length < 2 ∧
      analyzeExperts ["a"] [Settled.fulfilled [plainAccount "x"]] = Except.ok []) ∧
    (manyUsernames.dedup.length = 101 ∧
      ∃ recs, analyzeExperts manyUsernames (manyUsernames.map followsX) = Except.ok recs) := by
  refine ⟨⟨by decide, rfl⟩, ?_, ?_⟩
  · rw [List.dedup_eq_self.2 manyUsernames_nodup]
    simp [manyUsernames]
  · exact ⟨_, analyzeExperts_ok _ _ (by simp [manyUsernames])⟩

theorem coreFields_retotal (m : Nat) (r : AnalysisResult) :
    coreFields (retotal m r) = coreFields r := rfl

theorem retotal_mkResult (n m : Nat) (u : String) (s : List String) (a : Option Account) :
    retotal m (mkResult n u s a) = mkResult m u s a := rfl

theorem convertResults_retotal (n m : Nat) (st : AggState)
    (h : minOverlap n = minOverlap m) :
    convertResults m st = (convertResults n st).map (retotal m) := by
  unfold convertResults
  rw [List.map_filterMap]
  congr 1
  funext p
  by_cases hp : minOverlap m ≤ p.2.length
  · simp [h, hp, retotal_mkResult]
  · simp [h, hp]

theorem sortResults_map_retotal (m : Nat) (rs : List AnalysisResult) :
    sortResults (rs.map (retotal m)) = (sortResults rs).map (retotal m) := by
  unfold sortResults
  rw [List.map_insertionSort byOverlapDesc byOverlapDesc (retotal m) rs]
  intro a _ b _
  rfl

theorem map_coreFields_sort_convert (n m : Nat) (st : AggState)
    (h : minOverlap n = minOverlap m) :
    (sortResults (convertResults n st)).map coreFields =
      (sortResults (convertResults m st)).map coreFields := by
  rw [convertResults_retotal n m st h, sortResults_map_retotal, List.map_map]
  rfl

theorem percentage_2_3 : mulDouble (divDouble 2 3) 100 = 2345624805922133 / 2 ^ 45 := by
  have h₁ : divDouble 2 3 = (6004799503160661 : Int) * 2 ^ (-53 : Int) := by
    unfold divDouble
    refine roundDouble_eq (by norm_num) (by norm_num) (by norm_num) ?_
    rw [abs_lt]; constructor <;> norm_num
  have h₂ : roundDouble ((6004799503160661 : Int) * 2 ^ (-53 : Int) * 100) =
      (4691249611844266 : Int) * 2 ^ (-46 : Int) := by
    refine roundDouble_eq (by norm_num) (by norm_num) (by norm_num) ?_
    rw [abs_lt]; constructor <;> norm_num
  rw [h₁]
  unfold mulDouble
  rw [h₂]; norm_num

theorem percentage_2_2 : mulDouble (divDouble 2 2) 100 = 100 := by
  have h₁ : divDouble 2 2 = 1 := by
    unfold divDouble
    rw [show (2 : ℚ) / 2 = 1 by norm_num]
    exact roundDouble_of_isDouble (by simpa using isDouble_natCast 1 (by norm_num))
  rw [h₁]
  unfold mulDouble
  rw [one_mul]
  exact roundDouble_of_isDouble (by simpa using isDouble_natCast 100 (by norm_num))

/-- C10 (as stated, refuted): with every expert following the account `x`,
the list `["a", "a", "b"]` yields the fraction "2/3" and the percentage
`(2 / 3) * 100`, the double 66.66666666666666; its deduplicated list
`["a", "b"]` yields the fraction "2/2" and the percentage 100. -/
theorem analyzeExperts_duplicates_counted :
    dedupUsernames duplicateUsernames = ["a", "b"] ∧
    (analyzeExperts duplicateUsernames (duplicateUsernames.map followsX)).map
      (List.map (fun r => (r.overlap_count, r.overlap_fraction, r.experts_following))) =
      Except.ok [(2, "2/3", ["a", "b"])] ∧
    (analyzeExperts ["a", "b"] (["a", "b"].map followsX)).map
      (List.map (fun r => (r.overlap_count, r.overlap_fraction, r.experts_following))) =
      Except.ok [(2, "2/2", ["a", "b"])] ∧
    (analyzeExperts duplicateUsernames (duplicateUsernames.map followsX)).map
      (List.map (fun r => r.overlap_percentage)) =
      Except.ok [2345624805922133 / 2 ^ 45] ∧
    (analyzeExperts ["a", "b"] (["a", "b"].map followsX)).map
      (List.map (fun r => r.overlap_percentage)) = Except.ok [100] := by
  refine ⟨by decide, rfl, rfl, ?_, ?_⟩
  · have h : analyzeExperts duplicateUsernames (duplicateUsernames.map followsX) =
        Except.ok [mkResult 3 "x" ["a", "b"] (some (plainAccount "x"))] := rfl
    rw [h]
    show Except.ok [mulDouble (divDouble ((2 : Nat) : ℚ) ((3 : Nat) : ℚ)) 100] = _
    rw [← percentage_2_3]
    norm_num
  · have h : analyzeExperts ["a", "b"] (["a", "b"].map followsX) =
        Except.ok [mkResult 2 "x" ["a", "b"] (some (plainAccount "x"))] := rfl
    rw [h]
    show Except.ok [mulDouble (divDouble ((2 : Nat) : ℚ) ((2 : Nat) : ℚ)) 100] = _
    have e : ((2 : Nat) : ℚ) = 2 := by norm_num
    rw [e, percentage_2_2]

/-- C10 (amended): duplicates are not removed and `totalExperts` counts them.
With one following list per username, a list of usernames builds the same
`followsMap` and `accountDetails` as the list without its later repeats, and
whenever both lengths give the same `minOverlap`, `analyzeExperts` returns for
both the records with the same `username`, `overlap_count`,
`experts_following` and profile fields, in the same order. -/
theorem analyzeExperts_duplicates_absorbed (usernames : List String) (f : String → Settled) :
    processResults usernames (usernames.map f) =
      processResults (dedupUsernames usernames) ((dedupUsernames usernames).map f) ∧
    (minOverlap usernames.length = minOverlap (dedupUsernames usernames).length →
      (analyzeExperts usernames (usernames.map f)).map (List.map coreFields) =
        (analyzeExperts (dedupUsernames usernames)
          ((dedupUsernames usernames).map f)).map (List.map coreFields)) := by
  refine ⟨processResults_dedup f usernames, ?_⟩
  intro hmin
  cases usernames with
  | nil => rfl
  | cons u us =>
    have hd : dedupUsernames (u :: us) ≠ [] := by simp [dedupUsernames]
    rw [analyzeExperts_ok _ _ (List.cons_ne_nil u us), analyzeExperts_ok _ _ hd,
      ← processResults_dedup f (u :: us)]
    simp only [Except.map]
    rw [map_coreFields_sort_convert _ _ _ hmin]

theorem analyzeExperts_duplicates_absorbed_witness :
    minOverlap duplicateUsernames.length =
      minOverlap (dedupUsernames duplicateUsernames).length ∧
    (analyzeExperts duplicateUsernames (duplicateUsernames.map followsX)).map
        (List.map coreFields) =
      (analyzeExperts (dedupUsernames duplicateUsernames)
        ((dedupUsernames duplicateUsernames).map followsX)).map (List.map coreFields) :=
  ⟨by decide, (analyzeExperts_duplicates_absorbed duplicateUsernames followsX).2 (by decide)⟩

theorem cacheKey_injective (u v : String) : cacheKey u = cacheKey v ↔ u = v := by
  constructor
  · intro h
    have h' := congrArg String.data h
    simp only [cacheKey, String.data_append] at h'
    exact String.ext (List.append_cancel_left h')
  · intro h; rw [h]

theorem outcomes_succ (responses : Nat → HttpOutcome) (base m : Nat) :
    outcomes responses base (m + 1) =
      outcomes responses base m ++ [fetchFollowingPage (responses (base + m))] := by
  simp [outcomes, List.range_succ]

theorem length_outcomes (responses : Nat → HttpOutcome) (base m : Nat) :
    (outcomes responses base m).length = m := by
  simp [outcomes]

theorem accumulated_snoc (outs : List (Except FetchError Page)) (o : Except FetchError Page) :
    accumulated (outs ++ [o]) = accumulated outs ++
      (match o with
       | Except.ok pg => pg.accounts
       | Except.error _ => []) := by
  simp [accumulated, List.flatMap_append]

theorem okCount_snoc (outs : List (Except FetchError Page)) (o : Except FetchError Page) :
    okCount (outs ++ [o]) = okCount outs +
      (match o with
       | Except.ok _ => 1
       | Except.error _ => 0) := by
  cases o <;> simp [okCount, List.countP_append]

theorem rateLimitedCount_snoc (outs : List (Except FetchError Page))
    (o : Except FetchError Page) :
    rateLimitedCount (outs ++ [o]) = rateLimitedCount outs +
      (match o with
       | Except.ok _ => 0
       | Except.error e => if e.status = some 429 then 1 else 0) := by
  cases o with
  | ok pg => simp [rateLimitedCount, List.countP_append]
  | error e =>
    by_cases h : e.status = some 429 <;> simp [rateLimitedCount, List.countP_append, h]

theorem cursorAfter_snoc (outs : List (Except FetchError Page)) (o : Except FetchError Page) :
    cursorAfter (outs ++ [o]) =
      (match o with
       | Except.ok pg => pg.nextCursor
       | Except.error _ => cursorAfter outs) := by
  cases o <;> simp [cursorAfter, List.foldl_append]

theorem collectLoop_succ (responses : Nat → HttpOutcome) (username : String) (n : Nat)
    (st : LoopState) :
    collectLoop responses username (n + 1) st =
      collectStep responses username (collectLoop responses username n st) := by
  unfold collectLoop
  exact Function.iterate_succ_apply' _ _ _

theorem loopInv_init (responses : Nat → HttpOutcome) (username : String) (w : World) :
    LoopInv responses username w.fetched 0 (LoopState.init w) 0 where
  calls_le := le_refl 0
  fetched_eq := by simp [LoopState.init]
  all_eq := by simp [LoopState.init, outcomes, accumulated]
  earlier_continue := fun i h => absurd h (by omega)
  before_call := fun i h => absurd h (by omega)
  ok_le := by simp [outcomes, okCount]
  running := fun _ => ⟨rfl, by simp [LoopState.init, outcomes, okCount],
    by simp [LoopState.init, outcomes, cursorAfter],
    by simp [outcomes, accumulated, maxFollowing], fun i h => absurd h (by omega)⟩
  left := fun h => by simp [LoopState.init] at h

theorem collectStep_done (responses : Nat → HttpOutcome) (username : String) (st : LoopState)
    (hd : st.done = true) : collectStep responses username st = st := by
  simp [collectStep, hd]

theorem collectStep_exhausted (responses : Nat → HttpOutcome) (username : String)
    (st : LoopState) (hd : st.done = false) (hp : ¬ st.page < maxPages) :
    collectStep responses username st = { st with done := true } := by
  simp [collectStep, hd, hp]

theorem collectStep_fetch (responses : Nat → HttpOutcome) (username : String)
    (st : LoopState) (hd : st.done = false) (hp : st.page < maxPages) :
    collectStep responses username st =
      match fetchFollowingPage (responses st.fetched.length) with
      | Except.ok pg =>
        if pg.accounts.length = 0 then
          { st with fetched := st.fetched ++ [(username, st.cursor)], done := true }
        else if cursorStops pg.nextCursor ||
            decide (maxFollowing ≤ (st.allFollowing ++ pg.accounts).length) then
          { st with allFollowing := st.allFollowing ++ pg.accounts,
                    fetched := st.fetched ++ [(username, st.cursor)], done := true }
        else
          { st with allFollowing := st.allFollowing ++ pg.accounts,
                    fetched := st.fetched ++ [(username, st.cursor)],
                    cursor := pg.nextCursor, page := st.page + 1 }
      | Except.error error =>
        if error.status = some 429 then
          { st with fetched := st.fetched ++ [(username, st.cursor)],
                    page := (st.page - 1) + 1 }
        else
          { st with fetched := st.fetched ++ [(username, st.cursor)], done := true } := by
  simp only [collectStep, hd, hp, if_true, Bool.false_eq_true, if_false]

theorem loopInv_step (responses : Nat → HttpOutcome) (username : String)
    (fetched₀ : List (String × Option String)) (n : Nat) (st : LoopState) (m : Nat)
    (h : LoopInv responses username fetched₀ n st m) :
    ∃ m', LoopInv responses username fetched₀ (n + 1) (collectStep responses username st) m' := by
  by_cases hd : st.done = true
  · rw [collectStep_done _ _ _ hd]
    exact ⟨m, { h with
      calls_le := Nat.le_succ_of_le h.calls_le
      running := fun hf => absurd hd (by simp [hf]) }⟩
  · have hd' : st.done = false := by simpa using hd
    obtain ⟨hmn, hpage, hcur, hacc, hcont⟩ := h.running hd'
    by_cases hp : st.page < maxPages
    · have hlen : st.fetched.length = fetched₀.length + m := by
        rw [h.fetched_eq]; simp
      have hok5 : okCount (outcomes responses fetched₀.length m) < 5 := by
        have : ((okCount (outcomes responses fetched₀.length m) : Nat) : Int) < 5 := by
          rw [← hpage]; exact hp
        exact_mod_cast this
      have hfetched : st.fetched ++ [(username, st.cursor)] =
          fetched₀ ++ (List.range (m + 1)).map (fun i =>
            (username, cursorAfter (outcomes responses fetched₀.length i))) := by
        rw [h.fetched_eq, List.range_succ, List.map_append, List.append_assoc, hcur]
        rfl
      have hearlier : ∀ i, i + 1 < m + 1 →
          continues (accumulated (outcomes responses fetched₀.length i))
            (fetchFollowingPage (responses (fetched₀.length + i))) = true :=
        fun i hi => hcont i (by omega)
      have hbefore : ∀ i, i < m + 1 → okCount (outcomes responses fetched₀.length i) < 5 ∧
          (accumulated (outcomes responses fetched₀.length i)).length < maxFollowing := by
        intro i hi
        rcases Nat.lt_succ_iff_lt_or_eq.1 hi with hi | rfl
        · exact h.before_call i hi
        · exact ⟨hok5, hacc⟩
      have hokle : okCount (outcomes responses fetched₀.length (m + 1)) ≤ 5 := by
        rw [outcomes_succ, okCount_snoc]
        cases fetchFollowingPage (responses (fetched₀.length + m)) <;> simp <;> omega
      refine ⟨m + 1, ?_⟩
      rw [collectStep_fetch _ _ _ hd' hp, hlen]
      cases ho : fetchFollowingPage (responses (fetched₀.length + m)) with
      | ok pg =>
        simp only []
        by_cases hempty : pg.accounts.length = 0
        · rw [if_pos hempty]
          exact
            { calls_le := by omega
              fetched_eq := hfetched
              all_eq := by
                rw [outcomes_succ, accumulated_snoc, ho]
                simp [h.all_eq, List.length_eq_zero.1 hempty]
              earlier_continue := hearlier
              before_call := hbefore
              ok_le := hokle
              running := fun hf => by simp at hf
              left := fun _ => Or.inl ⟨m, rfl, by rw [ho]; simp [continues, hempty]⟩ }
        · rw [if_neg hempty]
          by_cases hstop : (cursorStops pg.nextCursor ||
              decide (maxFollowing ≤ (st.allFollowing ++ pg.accounts).length)) = true
          · rw [if_pos hstop]
            exact
              { calls_le := by omega
                fetched_eq := hfetched
                all_eq := by
                  rw [outcomes_succ, accumulated_snoc, ho]
                  simp [h.all_eq]
                earlier_continue := hearlier
                before_call := hbefore
                ok_le := hokle
                running := fun hf => by simp at hf
                left := fun _ => Or.inl ⟨m, rfl, by
                  rw [ho, ← h.all_eq]
                  simp only [continues]
                  simp only [Bool.or_eq_true, decide_eq_true_eq] at hstop
                  rcases hstop with hs | hs
                  · simp [hs]
                  · rw [List.length_append] at hs
                    simp [hs]⟩ }
          · rw [if_neg hstop]
            have hstop' : cursorStops pg.nextCursor = false ∧
                ¬ maxFollowing ≤ (st.allFollowing ++ pg.accounts).length := by
              simpa using hstop
            exact
              { calls_le := by omega
                fetched_eq := hfetched
                all_eq := by
                  rw [outcomes_succ, accumulated_snoc, ho]
                  simp [h.all_eq]
                earlier_continue := hearlier
                before_call := hbefore
                ok_le := hokle
                running := fun _ => ⟨by omega, by
                    rw [outcomes_succ, okCount_snoc, ho]
                    simp [hpage], by
                    rw [outcomes_succ, cursorAfter_snoc, ho], by
                    rw [outcomes_succ, accumulated_snoc, ho, ← h.all_eq]
                    exact Nat.lt_of_not_le hstop'.2, by
                    intro i hi
                    rcases Nat.lt_succ_iff_lt_or_eq.1 hi with hi | rfl
                    · exact hcont i hi
                    · rw [ho, ← h.all_eq]
                      have hlt := hstop'.2
                      rw [List.length_append] at hlt
                      simp [continues, hempty, hstop'.1, hlt]⟩
                left := fun hf => by simp [hd'] at hf }
      | error e =>
        simp only []
        by_cases h429 : e.status = some 429
        · rw [if_pos h429]
          exact
            { calls_le := by omega
              fetched_eq := hfetched
              all_eq := by
                rw [outcomes_succ, accumulated_snoc, ho]
                simp [h.all_eq]
              earlier_continue := hearlier
              before_call := hbefore
              ok_le := hokle
              running := fun _ => ⟨by omega, by
                  rw [outcomes_succ, okCount_snoc, ho]
                  simp [hpage], by
                  rw [outcomes_succ, cursorAfter_snoc, ho]
                  exact hcur, by
                  rw [outcomes_succ, accumulated_snoc, ho]
                  simpa using hacc, by
                  intro i hi
                  rcases Nat.lt_succ_iff_lt_or_eq.1 hi with hi | rfl
                  · exact hcont i hi
                  · rw [ho]
                    simp [continues, h429]⟩
              left := fun hf => by simp [hd'] at hf }
        · rw [if_neg h429]
          exact
            { calls_le := by omega
              fetched_eq := hfetched
              all_eq := by
                rw [outcomes_succ, accumulated_snoc, ho]
                simp [h.all_eq]
              earlier_continue := hearlier
              before_call := hbefore
              ok_le := hokle
              running := fun hf => by simp at hf
              left := fun _ => Or.inl ⟨m, rfl, by rw [ho]; simp [continues, h429]⟩ }
    · rw [collectStep_exhausted _ _ _ hd' hp]
      refine ⟨m, { h with
        calls_le := Nat.le_succ_of_le h.calls_le
        fetched_eq := h.fetched_eq
        all_eq := h.all_eq
        running := fun hf => by simp at hf
        left := fun _ => Or.inr ?_ }⟩
      have h5 : (5 : Int) ≤ (okCount (outcomes responses fetched₀.length m) : Int) := by
        rw [← hpage]; exact not_lt.1 hp
      have h5' : 5 ≤ okCount (outcomes responses fetched₀.length m) := by exact_mod_cast h5
      exact le_antisymm h.ok_le h5'

theorem loopInv_collectLoop (responses : Nat → HttpOutcome) (username : String) (w : World)
    (n : Nat) :
    ∃ m, LoopInv responses username w.fetched n
      (collectLoop responses username n (LoopState.init w)) m := by
  induction n with
  | zero => exact ⟨0, loopInv_init responses username w⟩
  | succ n ih =>
    obtain ⟨m, hm⟩ := ih
    rw [collectLoop_succ]
    exact loopInv_step _ _ _ _ _ _ hm

theorem loopInv_length (responses : Nat → HttpOutcome) (username : String)
    (fetched₀ : List (String × Option String)) (n : Nat) (st : LoopState) (m : Nat)
    (h : LoopInv responses username fetched₀ n st m) :
    st.fetched.length = fetched₀.length + m := by
  rw [h.fetched_eq]; simp

/-- The invariant of the loop, at the number of calls it has made. -/
theorem collectLoop_inv (responses : Nat → HttpOutcome) (username : String) (w : World)
    (n : Nat) :
    LoopInv responses username w.fetched n
      (collectLoop responses username n (LoopState.init w))
      (callsMade w (collectLoop responses username n (LoopState.init w))) := by
  obtain ⟨m, hm⟩ := loopInv_collectLoop responses username w n
  have hlen := loopInv_length _ _ _ _ _ _ hm
  have : callsMade w (collectLoop responses username n (LoopState.init w)) = m := by
    unfold callsMade; omega
  rw [this]; exact hm

/-- A call whose result does not let the loop go on is the last one, and the
loop has been left. -/
theorem last_call_of_not_continues (responses : Nat → HttpOutcome) (username : String)
    (w : World) (n i : Nat)
    (hi : i < callsMade w (collectLoop responses username n (LoopState.init w)))
    (hc : continues (accumulated (outcomes responses w.fetched.length i))
      (fetchFollowingPage (responses (w.fetched.length + i))) = false) :
    callsMade w (collectLoop responses username n (LoopState.init w)) = i + 1 ∧
    (collectLoop responses username n (LoopState.init w)).done = true ∧
    (collectLoop responses username n (LoopState.init w)).allFollowing =
      accumulated (outcomes responses w.fetched.length (i + 1)) := by
  have h := collectLoop_inv responses username w n
  have hm : callsMade w (collectLoop responses username n (LoopState.init w)) = i + 1 := by
    by_contra hne
    have := h.earlier_continue i (by omega)
    rw [hc] at this
    exact absurd this (by simp)
  refine ⟨hm, ?_, ?_⟩
  · by_contra hd
    have hd' : (collectLoop responses username n (LoopState.init w)).done = false := by
      simpa using hd
    have := (h.running hd').2.2.2.2 i hi
    rw [hc] at this
    exact absurd this (by simp)
  · rw [h.all_eq, hm]

/-- Calls that all let the loop go on are pages fetched or rate-limit errors. -/
theorem length_le_of_continues (responses : Nat → HttpOutcome) (base m : Nat)
    (h : ∀ i, i < m → continues (accumulated (outcomes responses base i))
      (fetchFollowingPage (responses (base + i))) = true) :
    m = okCount (outcomes responses base m) + rateLimitedCount (outcomes responses base m) := by
  induction m with
  | zero => simp [outcomes, okCount, rateLimitedCount]
  | succ m ih =>
    have ih' := ih (fun i hi => h i (by omega))
    have hm := h m (by omega)
    rw [outcomes_succ, okCount_snoc, rateLimitedCount_snoc]
    cases ho : fetchFollowingPage (responses (base + m)) with
    | ok pg => simp only []; omega
    | error e =>
      rw [ho] at hm
      simp only [continues, decide_eq_true_eq] at hm
      simp only [hm, if_true]; omega

/-- The calls made are at most five more than the rate-limit errors among them. -/
theorem callsMade_le (responses : Nat → HttpOutcome) (username : String) (w : World)
    (n : Nat) :
    callsMade w (collectLoop responses username n (LoopState.init w)) ≤
      5 + rateLimitedCount (outcomes responses w.fetched.length
        (callsMade w (collectLoop responses username n (LoopState.init w)))) := by
  have h := collectLoop_inv responses username w n
  generalize callsMade w (collectLoop responses username n (LoopState.init w)) = m at h
  cases m with
  | zero => omega
  | succ k =>
    have hk := length_le_of_continues responses w.fetched.length k
      (fun i hi => h.earlier_continue i (by omega))
    have hb := (h.before_call k (by omega)).1
    rw [outcomes_succ, rateLimitedCount_snoc]
    omega

/-- With at most `r` rate-limit errors the loop is left within `6 + r` turns. -/
theorem collectLoop_done (responses : Nat → HttpOutcome) (username : String) (w : World)
    (r n : Nat)
    (hr : ∀ k, rateLimitedCount (outcomes responses w.fetched.length k) ≤ r)
    (hn : 6 + r ≤ n) :
    (collectLoop responses username n (LoopState.init w)).done = true := by
  have h := collectLoop_inv responses username w n
  by_contra hd
  have hd' : (collectLoop responses username n (LoopState.init w)).done = false := by
    simpa using hd
  obtain ⟨hmn, -, -, -, hcont⟩ := h.running hd'
  have hlen := length_le_of_continues responses w.fetched.length _ hcont
  have hok := h.ok_le
  have hr' := hr (callsMade w (collectLoop responses username n (LoopState.init w)))
  omega

/-- Once the loop has been left, further turns change nothing. -/
theorem collectLoop_stable (responses : Nat → HttpOutcome) (username : String)
    (st : LoopState) (n k : Nat)
    (hd : (collectLoop responses username n st).done = true) :
    collectLoop responses username (n + k) st = collectLoop responses username n st := by
  induction k with
  | zero => rfl
  | succ k ih =>
    rw [← Nat.add_assoc, collectLoop_succ, ih, collectStep_done _ _ _ hd]

theorem getExpertFollowing_hit (responses : Nat → HttpOutcome) (fuel : Nat) (w : World)
    (username : String) (cached : List Account)
    (h : mapGet w.cache (cacheKey username) = some cached) :
    getExpertFollowing responses fuel w username = some (cached, w) := by
  simp [getExpertFollowing, h]

theorem getExpertFollowing_miss (responses : Nat → HttpOutcome) (fuel : Nat) (w : World)
    (username : String) (h : mapGet w.cache (cacheKey username) = none) :
    getExpertFollowing responses fuel w username =
      if (collectLoop responses username fuel (LoopState.init w)).done then
        some ((collectLoop responses username fuel (LoopState.init w)).allFollowing.take
            maxFollowing,
          { cache := mapSet w.cache (cacheKey username)
              ((collectLoop responses username fuel (LoopState.init w)).allFollowing.take
                maxFollowing)
            fetched := (collectLoop responses username fuel (LoopState.init w)).fetched })
      else none := by
  simp [getExpertFollowing, h]

/-- With at most `r` rate-limit errors `getExpertFollowing` returns within
`6 + r` turns of the loop. -/
theorem getExpertFollowing_returns (responses : Nat → HttpOutcome) (username : String)
    (w : World) (r fuel : Nat)
    (hr : ∀ k, rateLimitedCount (outcomes responses w.fetched.length k) ≤ r)
    (hn : 6 + r ≤ fuel) :
    ∃ snapshot w', getExpertFollowing responses fuel w username = some (snapshot, w') := by
  cases hc : mapGet w.cache (cacheKey username) with
  | some cached => exact ⟨cached, w, getExpertFollowing_hit _ _ _ _ _ hc⟩
  | none =>
    rw [getExpertFollowing_miss _ _ _ _ hc,
      if_pos (collectLoop_done responses username w r fuel hr hn)]
    exact ⟨_, _, rfl⟩

theorem processResult_rejected (st : AggState) (u reason : String) :
    processResult st u (Settled.rejected reason) =
      processResult st u (Settled.fulfilled []) := rfl

theorem processResults_rejected (usernames : List String) (pre post : List Settled)
    (reason : String) :
    processResults usernames (pre ++ Settled.rejected reason :: post) =
      processResults usernames (pre ++ Settled.fulfilled [] :: post) := by
  unfold processResults
  generalize AggState.empty = st
  induction usernames generalizing pre st with
  | nil => simp
  | cons u us ih =>
    cases pre with
    | nil =>
      simp only [List.nil_append, List.zip_cons_cons, List.foldl_cons, processResult_rejected]
    | cons r pre =>
      simp only [List.cons_append, List.zip_cons_cons, List.foldl_cons]
      exact ih pre _

theorem processResults_all_rejected (usernames : List String) (results : List Settled)
    (h : ∀ r ∈ results, ∃ reason, r = Settled.rejected reason) :
    processResults usernames results = AggState.empty := by
  unfold processResults
  generalize AggState.empty = st
  induction usernames generalizing results with
  | nil => simp
  | cons u us ih =>
    cases results with
    | nil => simp
    | cons r rs =>
      obtain ⟨reason, rfl⟩ := h r (List.mem_cons_self _ _)
      simp only [List.zip_cons_cons, List.foldl_cons, processResult]
      exact ih rs (fun r hr => h r (List.mem_cons_of_mem _ hr))

theorem getExpertFollowing_cached (responses : Nat → HttpOutcome) (fuel : Nat) (w w' : World)
    (username : String) (snapshot : List Account)
    (h : getExpertFollowing responses fuel w username = some (snapshot, w')) :
    mapGet w'.cache (cacheKey username) = some snapshot := by
  cases hc : mapGet w.cache (cacheKey username) with
  | some cached =>
    rw [getExpertFollowing_hit _ _ _ _ _ hc] at h
    simp only [Option.some.injEq, Prod.mk.injEq] at h
    obtain ⟨rfl, rfl⟩ := h
    exact hc
  | none =>
    rw [getExpertFollowing_miss _ _ _ _ hc] at h
    split at h
    · simp only [Option.some.injEq, Prod.mk.injEq] at h
      obtain ⟨rfl, rfl⟩ := h
      simp [mapGet_mapSet]
    · simp at h

theorem getExpertFollowing_cache_mono (responses : Nat → HttpOutcome) (fuel : Nat)
    (w w' : World) (username : String) (snapshot : List Account)
    (h : getExpertFollowing responses fuel w username = some (snapshot, w'))
    (k : String) (v : List Account) (hk : mapGet w.cache k = some v) :
    mapGet w'.cache k = some v := by
  cases hc : mapGet w.cache (cacheKey username) with
  | some cached =>
    rw [getExpertFollowing_hit _ _ _ _ _ hc] at h
    simp only [Option.some.injEq, Prod.mk.injEq] at h
    obtain ⟨-, rfl⟩ := h
    exact hk
  | none =>
    rw [getExpertFollowing_miss _ _ _ _ hc] at h
    split at h
    · simp only [Option.some.injEq, Prod.mk.injEq] at h
      obtain ⟨-, rfl⟩ := h
      have hne : k ≠ cacheKey username := by
        intro he; rw [he, hc] at hk; simp at hk
      simp [mapGet_mapSet, hne, hk]
    · simp at h

theorem mapHas_mapSet {β : Type} (m : List (String × β)) (k k' : String) (v : β) :
    mapHas (mapSet m k v) k' = (decide (k' = k) || mapHas m k') := by
  rw [mapHas_eq_isSome, mapHas_eq_isSome, mapGet_mapSet]
  by_cases h : k' = k <;> simp [h]

theorem cacheView_none (sched : Schedule) (w₀ : World) (started : List (String × List Account))
    (username : String) (h : cacheView sched w₀ started username = none) :
    mapGet w₀.cache (cacheKey username) = none := by
  unfold cacheView at h
  cases hc : mapGet w₀.cache (cacheKey username) with
  | none => rfl
  | some c => rw [hc] at h; simp at h

theorem cacheView_some (sched : Schedule) (w₀ : World) (started : List (String × List Account))
    (username : String) (c : List Account) (h : cacheView sched w₀ started username = some c) :
    mapGet w₀.cache (cacheKey username) = some c ∨
      (mapGet w₀.cache (cacheKey username) = none ∧ (username, c) ∈ started) := by
  unfold cacheView at h
  cases hc : mapGet w₀.cache (cacheKey username) with
  | some c' =>
    rw [hc] at h
    simp only [Option.some.injEq] at h
    exact Or.inl (by rw [h])
  | none =>
    right
    refine ⟨rfl, ?_⟩
    rw [hc] at h
    simp only at h
    cases hs : sched.sees started.length with
    | none => rw [hs] at h; simp at h
    | some j =>
      rw [hs] at h
      simp only at h
      cases hg : started.get? j with
      | none => rw [hg] at h; simp at h
      | some p =>
        obtain ⟨u, snapshot⟩ := p
        rw [hg] at h
        simp only at h
        by_cases hu : u = username
        · rw [if_pos hu] at h
          simp only [Option.some.injEq] at h
          rw [← hu, ← h]
          exact List.get?_mem hg
        · rw [if_neg hu] at h; simp at h

theorem cacheView_of_cached (sched : Schedule) (w₀ : World)
    (started : List (String × List Account)) (username : String) (c : List Account)
    (h : mapGet w₀.cache (cacheKey username) = some c) :
    cacheView sched w₀ started username = some c := by
  unfold cacheView
  rw [h]

theorem fetchAllFrom_cons_hit (responses : Nat → HttpOutcome) (fuel : Nat) (sched : Schedule)
    (w₀ : World) (started : List (String × List Account)) (w : World) (username : String)
    (rest : List String) (cached : List Account)
    (h : cacheView sched w₀ started username = some cached) :
    fetchAllFrom responses fuel sched w₀ started w (username :: rest) =
      match fetchAllFrom responses fuel sched w₀ (started ++ [(username, cached)]) w rest with
      | none => none
      | some (snapshots, w₂) => some (cached :: snapshots, w₂) := by
  simp only [fetchAllFrom, h]
  rw [getExpertFollowing_hit responses fuel _ username cached (by simp [mapGet])]
  rfl

theorem fetchAllFrom_cons_miss (responses : Nat → HttpOutcome) (fuel : Nat) (sched : Schedule)
    (w₀ : World) (started : List (String × List Account)) (w : World) (username : String)
    (rest : List String) (h : cacheView sched w₀ started username = none) :
    fetchAllFrom responses fuel sched w₀ started w (username :: rest) =
      match getExpertFollowing responses fuel ⟨[], w.fetched⟩ username with
      | none => none
      | some (following, w₁) =>
        match fetchAllFrom responses fuel sched w₀ (started ++ [(username, following)])
          { cache :=
              if mapHas w.cache (cacheKey username) && !sched.lands started.length then w.cache
              else mapSet w.cache (cacheKey username) following
            fetched := w₁.fetched } rest with
        | none => none
        | some (snapshots, w₂) => some (following :: snapshots, w₂) := by
  simp only [fetchAllFrom, h]
  rfl

/-- The cache after the calls of a request: the entries held before the
request are still there, no key is lost, and every username has an entry. -/
theorem fetchAllFrom_cache (responses : Nat → HttpOutcome) (fuel : Nat) (sched : Schedule)
    (w₀ : World) (usernames : List String) (started : List (String × List Account))
    (w w' : World) (snapshots : List (List Account))
    (h : fetchAllFrom responses fuel sched w₀ started w usernames = some (snapshots, w'))
    (h₁ : ∀ k v, mapGet w₀.cache k = some v → mapGet w.cache k = some v)
    (h₃ : ∀ p ∈ started, mapHas w.cache (cacheKey p.1) = true) :
    (∀ k v, mapGet w₀.cache k = some v → mapGet w'.cache k = some v) ∧
    (∀ k, mapHas w.cache k = true → mapHas w'.cache k = true) ∧
    (∀ u ∈ usernames, mapHas w'.cache (cacheKey u) = true) ∧
    snapshots.length = usernames.length := by
  induction usernames generalizing started w snapshots with
  | nil =>
    simp only [fetchAllFrom, Option.some.injEq, Prod.mk.injEq] at h
    obtain ⟨rfl, rfl⟩ := h
    exact ⟨h₁, fun _ hk => hk, by simp, rfl⟩
  | cons u us ih =>
    cases hv : cacheView sched w₀ started u with
    | some cached =>
      rw [fetchAllFrom_cons_hit _ _ _ _ _ _ _ _ _ hv] at h
      cases hf : fetchAllFrom responses fuel sched w₀ (started ++ [(u, cached)]) w us with
      | none => rw [hf] at h; simp at h
      | some q =>
        obtain ⟨ss, w₂⟩ := q
        rw [hf] at h
        simp only [Option.some.injEq, Prod.mk.injEq] at h
        obtain ⟨rfl, rfl⟩ := h
        have hu : mapHas w.cache (cacheKey u) = true := by
          rcases cacheView_some _ _ _ _ _ hv with hc | ⟨-, hm⟩
          · rw [mapHas_eq_isSome, h₁ _ _ hc]; rfl
          · exact h₃ _ hm
        have h₃' : ∀ p ∈ started ++ [(u, cached)], mapHas w.cache (cacheKey p.1) = true := by
          intro p hp
          rcases List.mem_append.1 hp with hp | hp
          · exact h₃ p hp
          · simp only [List.mem_singleton] at hp
            rw [hp]; exact hu
        obtain ⟨i₁, i₂, i₃, i₄⟩ := ih _ _ _ hf h₁ h₃'
        refine ⟨i₁, i₂, ?_, by simp [i₄]⟩
        intro v hv'
        rcases List.mem_cons.1 hv' with rfl | hv'
        · exact i₂ _ hu
        · exact i₃ v hv'
    | none =>
      rw [fetchAllFrom_cons_miss _ _ _ _ _ _ _ _ hv] at h
      cases hg : getExpertFollowing responses fuel ⟨[], w.fetched⟩ u with
      | none => rw [hg] at h; simp at h
      | some p =>
        obtain ⟨following, w₁⟩ := p
        rw [hg] at h
        simp only at h
        generalize hc₁ : (if mapHas w.cache (cacheKey u) && !sched.lands started.length
          then w.cache else mapSet w.cache (cacheKey u) following) = cache₁ at h
        cases hf : fetchAllFrom responses fuel sched w₀ (started ++ [(u, following)])
            { cache := cache₁, fetched := w₁.fetched } us with
        | none => rw [hf] at h; simp at h
        | some q =>
          obtain ⟨ss, w₂⟩ := q
          rw [hf] at h
          simp only [Option.some.injEq, Prod.mk.injEq] at h
          obtain ⟨rfl, rfl⟩ := h
          have hmiss := cacheView_none _ _ _ _ hv
          have hmono : ∀ k, mapHas w.cache k = true → mapHas cache₁ k = true := by
            intro k hk
            rw [← hc₁]
            split
            · exact hk
            · rw [mapHas_mapSet, hk]; simp
          have hu : mapHas cache₁ (cacheKey u) = true := by
            rw [← hc₁]
            split
            · rename_i hcond
              simp only [Bool.and_eq_true] at hcond
              exact hcond.1
            · rw [mapHas_mapSet]; simp
          have h₁' : ∀ k v, mapGet w₀.cache k = some v → mapGet cache₁ k = some v := by
            intro k v hk
            rw [← hc₁]
            split
            · exact h₁ k v hk
            · have hne : k ≠ cacheKey u := by
                intro he; rw [he, hmiss] at hk; simp at hk
              rw [mapGet_mapSet, if_neg hne]
              exact h₁ k v hk
          have h₃' : ∀ p ∈ started ++ [(u, following)],
              mapHas cache₁ (cacheKey p.1) = true := by
            intro p hp
            rcases List.mem_append.1 hp with hp | hp
            · exact hmono _ (h₃ p hp)
            · simp only [List.mem_singleton] at hp
              rw [hp]; exact hu
          obtain ⟨i₁, i₂, i₃, i₄⟩ := ih (started ++ [(u, following)])
            { cache := cache₁, fetched := w₁.fetched } _ hf h₁' h₃'
          refine ⟨i₁, fun k hk => i₂ k (hmono k hk), ?_, by simp [i₄]⟩
          intro v hv'
          rcases List.mem_cons.1 hv' with rfl | hv'
          · exact i₂ _ hu
          · exact i₃ v hv'

/-- With every username cached before the request, the calls return the
cached snapshots and leave the world as it is, whatever the schedule. -/
theorem fetchAllFrom_of_cached (responses : Nat → HttpOutcome) (fuel : Nat) (sched : Schedule)
    (w₀ : World) (usernames : List String) (started : List (String × List Account))
    (w : World)
    (h : ∀ u ∈ usernames, ∃ c, mapGet w₀.cache (cacheKey u) = some c) :
    fetchAllFrom responses fuel sched w₀ started w usernames =
      some (usernames.map (fun u => (mapGet w₀.cache (cacheKey u)).getD []), w) := by
  induction usernames generalizing started with
  | nil => rfl
  | cons u us ih =>
    obtain ⟨c, hc⟩ := h u (List.mem_cons_self _ _)
    rw [fetchAllFrom_cons_hit _ _ _ _ _ _ _ _ _ (cacheView_of_cached sched w₀ started u c hc),
      ih _ (fun v hv => h v (List.mem_cons_of_mem _ hv))]
    simp [hc]

/-- The calls of a request change no cache entry of another username. -/
theorem fetchAllFrom_other_keys (responses : Nat → HttpOutcome) (fuel : Nat) (sched : Schedule)
    (w₀ : World) (usernames : List String) (started : List (String × List Account))
    (w w' : World) (snapshots : List (List Account))
    (h : fetchAllFrom responses fuel sched w₀ started w usernames = some (snapshots, w'))
    (k : String) (hk : ∀ u ∈ usernames, k ≠ cacheKey u) :
    mapGet w'.cache k = mapGet w.cache k := by
  induction usernames generalizing started w snapshots with
  | nil =>
    simp only [fetchAllFrom, Option.some.injEq, Prod.mk.injEq] at h
    obtain ⟨-, rfl⟩ := h
    rfl
  | cons u us ih =>
    have hk' : ∀ v ∈ us, k ≠ cacheKey v := fun v hv => hk v (List.mem_cons_of_mem _ hv)
    cases hv : cacheView sched w₀ started u with
    | some cached =>
      rw [fetchAllFrom_cons_hit _ _ _ _ _ _ _ _ _ hv] at h
      cases hf : fetchAllFrom responses fuel sched w₀ (started ++ [(u, cached)]) w us with
      | none => rw [hf] at h; simp at h
      | some q =>
        obtain ⟨ss, w₂⟩ := q
        rw [hf] at h
        simp only [Option.some.injEq, Prod.mk.injEq] at h
        obtain ⟨-, rfl⟩ := h
        exact ih _ _ _ hf hk'
    | none =>
      rw [fetchAllFrom_cons_miss _ _ _ _ _ _ _ _ hv] at h
      cases hg : getExpertFollowing responses fuel ⟨[], w.fetched⟩ u with
      | none => rw [hg] at h; simp at h
      | some p =>
        obtain ⟨following, w₁⟩ := p
        rw [hg] at h
        simp only at h
        generalize hc₁ : (if mapHas w.cache (cacheKey u) && !sched.lands started.length
          then w.cache else mapSet w.cache (cacheKey u) following) = cache₁ at h
        cases hf : fetchAllFrom responses fuel sched w₀ (started ++ [(u, following)])
            { cache := cache₁, fetched := w₁.fetched } us with
        | none => rw [hf] at h; simp at h
        | some q =>
          obtain ⟨ss, w₂⟩ := q
          rw [hf] at h
          simp only [Option.some.injEq, Prod.mk.injEq] at h
          obtain ⟨-, rfl⟩ := h
          rw [ih _ _ _ hf hk']
          show mapGet cache₁ k = mapGet w.cache k
          rw [← hc₁]
          split
          · rfl
          · rw [mapGet_mapSet, if_neg (hk u (List.mem_cons_self _ _))]

/-- For usernames without repeats, none of them called before in the request,
the cache holds after the calls the snapshot returned for each. -/
theorem fetchAllFrom_nodup (responses : Nat → HttpOutcome) (fuel : Nat) (sched : Schedule)
    (w₀ : World) (usernames : List String) (started : List (String × List Account))
    (w w' : World) (snapshots : List (List Account))
    (h : fetchAllFrom responses fuel sched w₀ started w usernames = some (snapshots, w'))
    (hnd : usernames.Nodup) (hnew : ∀ u ∈ usernames, ∀ p ∈ started, p.1 ≠ u)
    (h₁ : ∀ k v, mapGet w₀.cache k = some v → mapGet w.cache k = some v)
    (h₂ : ∀ k, mapHas w.cache k = true →
      mapHas w₀.cache k = true ∨ ∃ p ∈ started, k = cacheKey p.1) :
    List.Forall₂ (fun u s => mapGet w'.cache (cacheKey u) = some s) usernames snapshots := by
  induction usernames generalizing started w snapshots with
  | nil =>
    simp only [fetchAllFrom, Option.some.injEq, Prod.mk.injEq] at h
    obtain ⟨rfl, rfl⟩ := h
    exact List.Forall₂.nil
  | cons u us ih =>
    obtain ⟨hu, hnd'⟩ := List.nodup_cons.1 hnd
    have hother : ∀ v ∈ us, cacheKey u ≠ cacheKey v := by
      intro v hv he
      exact hu ((cacheKey_injective u v).1 he ▸ hv)
    have hnotstarted : ∀ c, (u, c) ∉ started :=
      fun c hm => hnew u (List.mem_cons_self _ _) _ hm rfl
    cases hv : cacheView sched w₀ started u with
    | some cached =>
      rw [fetchAllFrom_cons_hit _ _ _ _ _ _ _ _ _ hv] at h
      cases hf : fetchAllFrom responses fuel sched w₀ (started ++ [(u, cached)]) w us with
      | none => rw [hf] at h; simp at h
      | some q =>
        obtain ⟨ss, w₂⟩ := q
        rw [hf] at h
        simp only [Option.some.injEq, Prod.mk.injEq] at h
        obtain ⟨rfl, rfl⟩ := h
        have hc : mapGet w₀.cache (cacheKey u) = some cached := by
          rcases cacheView_some _ _ _ _ _ hv with hc | ⟨-, hm⟩
          · exact hc
          · exact absurd hm (hnotstarted cached)
        have hnew' : ∀ v ∈ us, ∀ p ∈ started ++ [(u, cached)], p.1 ≠ v := by
          intro v hv' p hp
          rcases List.mem_append.1 hp with hp | hp
          · exact hnew v (List.mem_cons_of_mem _ hv') p hp
          · simp only [List.mem_singleton] at hp
            rw [hp]
            intro he
            have he' : u = v := he
            exact hu (he' ▸ hv')
        have h₂' : ∀ k, mapHas w.cache k = true →
            mapHas w₀.cache k = true ∨ ∃ p ∈ started ++ [(u, cached)], k = cacheKey p.1 := by
          intro k hk
          rcases h₂ k hk with h' | ⟨p, hp, hpk⟩
          · exact Or.inl h'
          · exact Or.inr ⟨p, List.mem_append_left _ hp, hpk⟩
        refine List.Forall₂.cons ?_ (ih _ _ _ hf hnd' hnew' h₁ h₂')
        rw [fetchAllFrom_other_keys _ _ _ _ _ _ _ _ _ hf _ hother]
        exact h₁ _ _ hc
    | none =>
      rw [fetchAllFrom_cons_miss _ _ _ _ _ _ _ _ hv] at h
      cases hg : getExpertFollowing responses fuel ⟨[], w.fetched⟩ u with
      | none => rw [hg] at h; simp at h
      | some p =>
        obtain ⟨following, w₁⟩ := p
        rw [hg] at h
        simp only at h
        have hmiss := cacheView_none _ _ _ _ hv
        have hnot : mapHas w.cache (cacheKey u) = false := by
          cases hh : mapHas w.cache (cacheKey u) with
          | false => rfl
          | true =>
            rcases h₂ _ hh with h' | ⟨p, hp, hpk⟩
            · rw [mapHas_eq_isSome, hmiss] at h'; simp at h'
            · have : p.1 = u := ((cacheKey_injective u p.1).1 hpk).symm
              exact absurd this (hnew u (List.mem_cons_self _ _) p hp)
        rw [hnot] at h
        simp only [Bool.false_and, Bool.false_eq_true, if_false] at h
        cases hf : fetchAllFrom responses fuel sched w₀ (started ++ [(u, following)])
            { cache := mapSet w.cache (cacheKey u) following, fetched := w₁.fetched } us with
        | none => rw [hf] at h; simp at h
        | some q =>
          obtain ⟨ss, w₂⟩ := q
          rw [hf] at h
          simp only [Option.some.injEq, Prod.mk.injEq] at h
          obtain ⟨rfl, rfl⟩ := h
          have hnew' : ∀ v ∈ us, ∀ p ∈ started ++ [(u, following)], p.1 ≠ v := by
            intro v hv' p hp
            rcases List.mem_append.1 hp with hp | hp
            · exact hnew v (List.mem_cons_of_mem _ hv') p hp
            · simp only [List.mem_singleton] at hp
              rw [hp]
              intro he
              have he' : u = v := he
              exact hu (he' ▸ hv')
          have h₁' : ∀ k v, mapGet w₀.cache k = some v →
              mapGet (mapSet w.cache (cacheKey u) following) k = some v := by
            intro k v hk
            have hne : k ≠ cacheKey u := by
              intro he; rw [he, hmiss] at hk; simp at hk
            rw [mapGet_mapSet, if_neg hne]
            exact h₁ k v hk
          have h₂' : ∀ k, mapHas (mapSet w.cache (cacheKey u) following) k = true →
              mapHas w₀.cache k = true ∨
                ∃ p ∈ started ++ [(u, following)], k = cacheKey p.1 := by
            intro k hk
            rw [mapHas_mapSet] at hk
            by_cases hku : k = cacheKey u
            · exact Or.inr ⟨(u, following), by simp, hku⟩
            · simp only [hku, decide_False, Bool.false_or] at hk
              rcases h₂ k hk with h' | ⟨p, hp, hpk⟩
              · exact Or.inl h'
              · exact Or.inr ⟨p, List.mem_append_left _ hp, hpk⟩
          refine List.Forall₂.cons ?_ (ih (started ++ [(u, following)])
            { cache := mapSet w.cache (cacheKey u) following, fetched := w₁.fetched } _ hf
            hnd' hnew' h₁' h₂')
          rw [fetchAllFrom_other_keys _ _ _ _ _ _ _ _ _ hf _ hother]
          show mapGet (mapSet w.cache (cacheKey u) following) (cacheKey u) = some following
          rw [mapGet_mapSet, if_pos rfl]

theorem forall₂_cached_eq (cache : List (String × List Account)) (usernames : List String)
    (snapshots : List (List Account))
    (h : List.Forall₂ (fun u s => mapGet cache (cacheKey u) = some s) usernames snapshots) :
    usernames.map (fun u => (mapGet cache (cacheKey u)).getD []) = snapshots := by
  induction h with
  | nil => rfl
  | cons hus _ ih => simp [hus, ih]

/-- C13: whenever the cache holds a snapshot for an expert,
`getExpertFollowing` returns that snapshot and leaves the world unchanged, so
it makes no call of `fetchFollowingPage`; and a second `analyzeExperts` over
the same usernames, run in the world left by the first, again leaves the
world unchanged (zero page fetches), whatever the upstream would answer and
however the calls are interleaved; it returns the result of the first when no
username is repeated. -/
theorem getExpertFollowing_cache_hit_no_fetch (responses : Nat → HttpOutcome) (fuel : Nat)
    (w : World) :
    (∀ username cached, mapGet w.cache (cacheKey username) = some cached →
      getExpertFollowing responses fuel w username = some (cached, w)) ∧
    (∀ sched usernames out w₁,
      analyzeExpertsIn responses fuel sched w usernames = some (out, w₁) →
      ∀ responses' fuel' sched', ∃ out',
        analyzeExpertsIn responses' fuel' sched' w₁ usernames = some (out', w₁) ∧
        (usernames.Nodup → out' = out)) := by
  refine ⟨fun username cached h => getExpertFollowing_hit _ _ _ _ _ h, ?_⟩
  intro sched usernames out w₁ h responses' fuel' sched'
  unfold analyzeExpertsIn at h ⊢
  by_cases hlen : usernames.length = 0
  · simp only [hlen, if_true, Option.some.injEq, Prod.mk.injEq] at h
    obtain ⟨rfl, rfl⟩ := h
    simp only [hlen, if_true]
    exact ⟨_, rfl, fun _ => rfl⟩
  · simp only [hlen, if_false] at h ⊢
    unfold fetchAll at h ⊢
    cases hf : fetchAllFrom responses fuel sched w [] w usernames with
    | none => simp [hf] at h
    | some q =>
      obtain ⟨ss, w₂⟩ := q
      simp only [hf, Option.some.injEq, Prod.mk.injEq] at h
      obtain ⟨rfl, rfl⟩ := h
      obtain ⟨-, -, hkeys, -⟩ := fetchAllFrom_cache _ _ _ _ _ _ _ _ _ hf
        (fun _ _ hk => hk) (by simp)
      have hcached : ∀ u ∈ usernames, ∃ c, mapGet w₂.cache (cacheKey u) = some c := by
        intro u hu
        have := hkeys u hu
        rw [mapHas_eq_isSome] at this
        exact Option.isSome_iff_exists.1 this
      rw [fetchAllFrom_of_cached responses' fuel' sched' w₂ usernames [] w₂ hcached]
      refine ⟨_, rfl, ?_⟩
      intro hnd
      have hall := fetchAllFrom_nodup _ _ _ _ _ _ _ _ _ hf hnd (by simp) (fun _ _ hk => hk)
        (fun k hk => Or.inl hk)
      rw [forall₂_cached_eq _ _ _ hall]

theorem getExpertFollowing_cache_hit_no_fetch_witness :
    analyzeExpertsIn onePage 6 Schedule.together World.fresh ["a", "b"] =
      some (analyzeExperts ["a", "b"]
        [Settled.fulfilled pageAccounts, Settled.fulfilled pageAccounts], cachedWorld) ∧
    ∃ out', analyzeExpertsIn alwaysError 0 Schedule.together cachedWorld ["a", "b"] =
        some (out', cachedWorld) ∧
      (["a", "b"].Nodup → out' = analyzeExperts ["a", "b"]
        [Settled.fulfilled pageAccounts, Settled.fulfilled pageAccounts]) :=
  ⟨rfl, (getExpertFollowing_cache_hit_no_fetch onePage 6 World.fresh).2 Schedule.together
    ["a", "b"] _ _ rfl alwaysError 0 Schedule.together⟩

/-- A repeated username is fetched twice when both calls read the cache
before either writes it, and not on the second analysis. -/
theorem analyzeExpertsIn_repeated_username :
    (analyzeExpertsIn onePage 6 Schedule.together World.fresh ["a", "a"]).map
        (fun p => p.2.fetched) = some [("a", none), ("a", none)] ∧
    (analyzeExpertsIn onePage 6 ⟨fun _ => some 0, fun _ => true⟩ World.fresh ["a", "a"]).map
        (fun p => p.2.fetched) = some [("a", none)] :=
  ⟨rfl, rfl⟩

/-- C14 (as stated, refuted): the first page of expert `a` fails with status
500; `getExpertFollowing` returns the empty snapshot and the cache then holds
it under `following_a`, so the next call returns it without any fetch. -/
theorem getExpertFollowing_caches_failure :
    fetchFollowingPage (alwaysError 0) = Except.error ⟨some 500⟩ ∧
    getExpertFollowing alwaysError 1 World.fresh "a" =
      some ([], ⟨[("following_a", [])], [("a", none)]⟩) ∧
    mapGet (⟨[("following_a", [])], [("a", none)]⟩ : World).cache (cacheKey "a") = some [] ∧
    getExpertFollowing onePage 6 ⟨[("following_a", [])], [("a", none)]⟩ "a" =
      some ([], ⟨[("following_a", [])], [("a", none)]⟩) :=
  ⟨rfl, rfl, rfl, rfl⟩

/-- C14 (amended): whenever `getExpertFollowing` returns, also after a page
error stopped the collection, the cache holds the snapshot it returned under
the key of the expert, and a later call for that expert returns this snapshot
without any fetch. -/
theorem getExpertFollowing_always_caches (responses : Nat → HttpOutcome) (fuel : Nat)
    (w w' : World) (username : String) (snapshot : List Account)
    (h : getExpertFollowing responses fuel w username = some (snapshot, w')) :
    mapGet w'.cache (cacheKey username) = some snapshot ∧
    ∀ responses' fuel',
      getExpertFollowing responses' fuel' w' username = some (snapshot, w') := by
  have hc := getExpertFollowing_cached _ _ _ _ _ _ h
  exact ⟨hc, fun responses' fuel' => getExpertFollowing_hit responses' fuel' w' username _ hc⟩

theorem getExpertFollowing_always_caches_witness :
    getExpertFollowing alwaysError 1 World.fresh "a" =
      some ([], ⟨[("following_a", [])], [("a", none)]⟩) ∧
    mapGet (⟨[("following_a", [])], [("a", none)]⟩ : World).cache (cacheKey "a") = some [] ∧
    ∀ responses' fuel',
      getExpertFollowing responses' fuel' ⟨[("following_a", [])], [("a", none)]⟩ "a" =
        some ([], ⟨[("following_a", [])], [("a", none)]⟩) :=
  ⟨rfl, getExpertFollowing_always_caches alwaysError 1 World.fresh
    ⟨[("following_a", [])], [("a", none)]⟩ "a" [] rfl⟩

/-- The world, snapshot included, that `getExpertFollowing` returns once the
loop has been left after `m` calls. -/
theorem getExpertFollowing_of_done (responses : Nat → HttpOutcome) (username : String)
    (w : World) (n : Nat) (hmiss : mapGet w.cache (cacheKey username) = none)
    (hd : (collectLoop responses username n (LoopState.init w)).done = true) (k : Nat) :
    getExpertFollowing responses (n + k) w username =
      some ((accumulated (outcomes responses w.fetched.length
            (callsMade w (collectLoop responses username n (LoopState.init w))))).take
            maxFollowing,
        { cache := mapSet w.cache (cacheKey username)
            ((accumulated (outcomes responses w.fetched.length
              (callsMade w (collectLoop responses username n (LoopState.init w))))).take
              maxFollowing)
          fetched := w.fetched ++
            (List.range (callsMade w (collectLoop responses username n
              (LoopState.init w)))).map (fun i =>
                (username, cursorAfter (outcomes responses w.fetched.length i))) }) := by
  have h := collectLoop_inv responses username w n
  rw [getExpertFollowing_miss _ _ _ _ hmiss, collectLoop_stable _ _ _ n k hd, if_pos hd,
    h.all_eq, h.fetched_eq]

theorem take_accumulated_prefix (outs : List (Except FetchError Page)) :
    (accumulated outs).take maxFollowing <+: accumulated outs :=
  List.take_prefix _ _

/-- C15: with a cache whose snapshots respect the budget, every snapshot
returned by `getExpertFollowing` has at most 1000 accounts, is the one the
cache holds afterwards, and the cache still respects the budget; after a
cache miss the snapshot is the first 1000 accounts, hence a prefix, of the
concatenation of the pages fetched successfully. The call returns within
`6 + r` turns of the loop when at most `r` requests are rate limited. -/
theorem getExpertFollowing_snapshot_bounded (responses : Nat → HttpOutcome) (w : World)
    (username : String) (hw : CacheBounded w.cache) :
    (∀ fuel snapshot w', getExpertFollowing responses fuel w username = some (snapshot, w') →
      snapshot.length ≤ 1000 ∧
      mapGet w'.cache (cacheKey username) = some snapshot ∧
      CacheBounded w'.cache ∧
      (mapGet w.cache (cacheKey username) = none →
        snapshot = (accumulated (outcomes responses w.fetched.length
          (w'.fetched.length - w.fetched.length))).take 1000 ∧
        snapshot <+: accumulated (outcomes responses w.fetched.length
          (w'.fetched.length - w.fetched.length)))) ∧
    (∀ r fuel, (∀ k, rateLimitedCount (outcomes responses w.fetched.length k) ≤ r) →
      6 + r ≤ fuel →
      ∃ snapshot w', getExpertFollowing responses fuel w username = some (snapshot, w')) := by
  refine ⟨?_, fun r fuel hr hn => getExpertFollowing_returns responses username w r fuel hr hn⟩
  intro fuel snapshot w' h
  have hcached := getExpertFollowing_cached _ _ _ _ _ _ h
  cases hc : mapGet w.cache (cacheKey username) with
  | some cached =>
    rw [getExpertFollowing_hit _ _ _ _ _ hc] at h
    simp only [Option.some.injEq, Prod.mk.injEq] at h
    obtain ⟨rfl, rfl⟩ := h
    exact ⟨hw _ _ hc, hc, hw, fun hn => by simp at hn⟩
  | none =>
    have hinv := collectLoop_inv responses username w fuel
    rw [getExpertFollowing_miss _ _ _ _ hc] at h
    split at h
    · simp only [Option.some.injEq, Prod.mk.injEq] at h
      obtain ⟨rfl, rfl⟩ := h
      have hlen : ((collectLoop responses username fuel (LoopState.init w)).allFollowing.take
          maxFollowing).length ≤ 1000 := by
        rw [List.length_take]; exact Nat.min_le_left _ _
      refine ⟨hlen, hcached, ?_, fun _ => ?_⟩
      · intro k v hk
        simp only [mapGet_mapSet] at hk
        split at hk
        · simp only [Option.some.injEq] at hk
          rw [← hk]; exact hlen
        · exact hw k v hk
      · have hm : (collectLoop responses username fuel (LoopState.init w)).fetched.length -
            w.fetched.length =
            callsMade w (collectLoop responses username fuel (LoopState.init w)) := rfl
        simp only [hm, ← hinv.all_eq]
        exact ⟨rfl, List.take_prefix _ _⟩
    · simp at h

theorem getExpertFollowing_snapshot_bounded_witness :
    CacheBounded World.fresh.cache ∧
    (∀ fuel snapshot w', getExpertFollowing onePage fuel World.fresh "a" = some (snapshot, w') →
      snapshot.length ≤ 1000 ∧
      mapGet w'.cache (cacheKey "a") = some snapshot ∧
      CacheBounded w'.cache ∧
      (mapGet World.fresh.cache (cacheKey "a") = none →
        snapshot = (accumulated (outcomes onePage World.fresh.fetched.length
          (w'.fetched.length - World.fresh.fetched.length))).take 1000 ∧
        snapshot <+: accumulated (outcomes onePage World.fresh.fetched.length
          (w'.fetched.length - World.fresh.fetched.length)))) ∧
    (∀ r fuel, (∀ k, rateLimitedCount (outcomes onePage World.fresh.fetched.length k) ≤ r) →
      6 + r ≤ fuel →
      ∃ snapshot w', getExpertFollowing onePage fuel World.fresh "a" = some (snapshot, w')) :=
  ⟨fun _ _ h => by simp [World.fresh, mapGet] at h,
    getExpertFollowing_snapshot_bounded onePage World.fresh "a"
      (fun _ _ h => by simp [World.fresh, mapGet] at h)⟩

/-- C16: at any turn of the loop at most 5 pages have been fetched
successfully and every call was made with fewer than 1000 accounts
accumulated; and once 5 pages have been fetched or 1000 accounts accumulated,
`getExpertFollowing` returns, one turn later at most, the first 1000 accounts
accumulated, without any further call. -/
theorem getExpertFollowing_stops_at_ceiling (responses : Nat → HttpOutcome) (username : String)
    (w : World) (n : Nat) :
    okCount (outcomes responses w.fetched.length
      (callsMade w (collectLoop responses username n (LoopState.init w)))) ≤ 5 ∧
    (∀ i, i < callsMade w (collectLoop responses username n (LoopState.init w)) →
      (accumulated (outcomes responses w.fetched.length i)).length < 1000) ∧
    (okCount (outcomes responses w.fetched.length
        (callsMade w (collectLoop responses username n (LoopState.init w)))) = 5 ∨
      1000 ≤ (accumulated (outcomes responses w.fetched.length
        (callsMade w (collectLoop responses username n (LoopState.init w))))).length →
      mapGet w.cache (cacheKey username) = none →
      getExpertFollowing responses (n + 1) w username =
        some ((accumulated (outcomes responses w.fetched.length
            (callsMade w (collectLoop responses username n (LoopState.init w))))).take 1000,
          { cache := mapSet w.cache (cacheKey username)
              ((accumulated (outcomes responses w.fetched.length
                (callsMade w (collectLoop responses username n (LoopState.init w))))).take
                1000)
            fetched := (collectLoop responses username n (LoopState.init w)).fetched })) := by
  have h := collectLoop_inv responses username w n
  refine ⟨h.ok_le, fun i hi => (h.before_call i hi).2, ?_⟩
  intro hreach hmiss
  by_cases hd : (collectLoop responses username n (LoopState.init w)).done = true
  · rw [getExpertFollowing_of_done responses username w n hmiss hd 1, h.fetched_eq]
    rfl
  · have hd' : (collectLoop responses username n (LoopState.init w)).done = false := by
      simpa using hd
    obtain ⟨-, hpage, -, hacc, -⟩ := h.running hd'
    rcases hreach with h5 | h1000
    · have hp : ¬ (collectLoop responses username n (LoopState.init w)).page < maxPages := by
        rw [hpage, h5]; decide
      rw [getExpertFollowing_miss _ _ _ _ hmiss, collectLoop_succ,
        collectStep_exhausted _ _ _ hd' hp]
      simp only [if_true, h.all_eq]
      rfl
    · exact absurd h1000 (Nat.not_le.2 hacc)

theorem getExpertFollowing_stops_at_ceiling_witness :
    okCount (outcomes fivePages World.fresh.fetched.length
      (callsMade World.fresh (collectLoop fivePages "a" 5 (LoopState.init World.fresh)))) = 5 ∧
    getExpertFollowing fivePages 6 World.fresh "a" =
      some ((accumulated (outcomes fivePages World.fresh.fetched.length
          (callsMade World.fresh
            (collectLoop fivePages "a" 5 (LoopState.init World.fresh))))).take 1000,
        { cache := mapSet World.fresh.cache (cacheKey "a")
            ((accumulated (outcomes fivePages World.fresh.fetched.length
              (callsMade World.fresh
                (collectLoop fivePages "a" 5 (LoopState.init World.fresh))))).take 1000)
          fetched := (collectLoop fivePages "a" 5 (LoopState.init World.fresh)).fetched }) :=
  ⟨by decide, (getExpertFollowing_stops_at_ceiling fivePages "a" World.fresh 5).2.2
    (Or.inl (by decide)) (by decide)⟩

theorem collectLoop_alwaysRateLimited (n : Nat) :
    collectLoop alwaysRateLimited "a" n (LoopState.init World.fresh) =
      { page := 0, cursor := none, allFollowing := [],
        fetched := List.replicate n ("a", none), done := false } := by
  induction n with
  | zero => rfl
  | succ n ih =>
    rw [collectLoop_succ, ih]
    simp [collectStep, fetchFollowingPage, alwaysRateLimited, maxPages,
      List.replicate_succ']

/-- C17 (as stated, refuted): when the upstream answers 429 to every request,
the first page of expert `a` is fetched 11 times in 11 turns, always with the
cursor `null`, and whatever the number of turns `getExpertFollowing` has not
returned and has made as many calls as turns. -/
theorem getExpertFollowing_rate_limited_forever :
    (collectLoop alwaysRateLimited "a" 11 (LoopState.init World.fresh)).fetched =
      List.replicate 11 ("a", none) ∧
    (∀ fuel, getExpertFollowing alwaysRateLimited fuel World.fresh "a" = none ∧
      callsMade World.fresh
        (collectLoop alwaysRateLimited "a" fuel (LoopState.init World.fresh)) = fuel) := by
  refine ⟨by rw [collectLoop_alwaysRateLimited], fun fuel => ⟨?_, ?_⟩⟩
  · rw [getExpertFollowing_miss alwaysRateLimited fuel World.fresh "a" rfl,
      collectLoop_alwaysRateLimited]
    rfl
  · rw [collectLoop_alwaysRateLimited]
    simp [callsMade, World.fresh]

/-- C17 (amended): on a 429 answer the loop stays on the same page and the
next call is made with the same cursor, each time the answer is 429, without
a limit on the retries; the calls made for one expert are at most 5 more than
the 429 answers among them, and `getExpertFollowing` returns within `6 + r`
turns of the loop when at most `r` requests are answered 429. -/
theorem getExpertFollowing_retries_rate_limited (responses : Nat → HttpOutcome)
    (username : String) (w : World) (n : Nat) :
    (∀ st e, st.done = false → st.page < maxPages →
      fetchFollowingPage (responses st.fetched.length) = Except.error e →
      e.status = some 429 →
      collectStep responses username st =
        { st with fetched := st.fetched ++ [(username, st.cursor)] }) ∧
    (∀ i e, i + 1 < callsMade w (collectLoop responses username n (LoopState.init w)) →
      fetchFollowingPage (responses (w.fetched.length + i)) = Except.error e →
      e.status = some 429 ∧
      (collectLoop responses username n (LoopState.init w)).fetched[w.fetched.length + i + 1]? =
        (collectLoop responses username n (LoopState.init w)).fetched[w.fetched.length + i]?) ∧
    callsMade w (collectLoop responses username n (LoopState.init w)) ≤
      5 + rateLimitedCount (outcomes responses w.fetched.length
        (callsMade w (collectLoop responses username n (LoopState.init w)))) ∧
    (∀ r fuel, (∀ k, rateLimitedCount (outcomes responses w.fetched.length k) ≤ r) →
      6 + r ≤ fuel →
      ∃ snapshot w', getExpertFollowing responses fuel w username = some (snapshot, w')) := by
  refine ⟨?_, ?_, callsMade_le responses username w n,
    fun r fuel hr hn => getExpertFollowing_returns responses username w r fuel hr hn⟩
  · intro st e hd hp he h429
    rw [collectStep_fetch _ _ _ hd hp, he]
    simp only [h429, if_true]
    have : st.page - 1 + 1 = st.page := by omega
    rw [this]
  · intro i e hi he
    have h := collectLoop_inv responses username w n
    have hc := h.earlier_continue i hi
    rw [he] at hc
    have h429 : e.status = some 429 := by simpa [continues] using hc
    refine ⟨h429, ?_⟩
    rw [h.fetched_eq]
    have h1 : w.fetched.length + i + 1 = w.fetched.length + (i + 1) := by omega
    rw [h1, List.getElem?_append_right (by omega), List.getElem?_append_right (by omega)]
    simp only [Nat.add_sub_cancel_left, List.getElem?_map]
    rw [List.getElem?_range (by omega), List.getElem?_range (by omega)]
    simp only [Option.map_some']
    rw [outcomes_succ, cursorAfter_snoc, he]

theorem rateLimitedOnce_count (k : Nat) :
    rateLimitedCount (outcomes rateLimitedOnce World.fresh.fetched.length k) ≤ 1 := by
  induction k with
  | zero => decide
  | succ k ih =>
    rw [outcomes_succ, rateLimitedCount_snoc]
    cases k with
    | zero => decide
    | succ j =>
      have : fetchFollowingPage (rateLimitedOnce (World.fresh.fetched.length + (j + 1))) =
          Except.ok ⟨[⟨some "x", "", 0, 0, "", false, 0⟩], none⟩ := by
        simp [rateLimitedOnce, World.fresh, fetchFollowingPage, transformUser, orEmpty,
          orZero, orFalse]
      rw [this]
      exact ih

theorem getExpertFollowing_retries_rate_limited_witness :
    (∀ k, rateLimitedCount (outcomes rateLimitedOnce World.fresh.fetched.length k) ≤ 1) ∧
    6 + 1 ≤ 7 ∧
    ∃ snapshot w', getExpertFollowing rateLimitedOnce 7 World.fresh "a" =
      some (snapshot, w') :=
  ⟨rateLimitedOnce_count, by decide,
    (getExpertFollowing_retries_rate_limited rateLimitedOnce "a" World.fresh 7).2.2.2 1 7
      rateLimitedOnce_count (by decide)⟩

/-- When the call numbered `i` does not let the loop go on and adds nothing,
`getExpertFollowing` returns what was accumulated before it, with that call
as the last one, however many turns are allowed beyond. -/
theorem getExpertFollowing_stops_at (responses : Nat → HttpOutcome) (username : String)
    (w : World) (n i : Nat) (hmiss : mapGet w.cache (cacheKey username) = none)
    (hi : i < callsMade w (collectLoop responses username n (LoopState.init w)))
    (hc : continues (accumulated (outcomes responses w.fetched.length i))
      (fetchFollowingPage (responses (w.fetched.length + i))) = false)
    (hadd : accumulated (outcomes responses w.fetched.length (i + 1)) =
      accumulated (outcomes responses w.fetched.length i)) (k : Nat) :
    getExpertFollowing responses (n + k) w username =
      some (accumulated (outcomes responses w.fetched.length i),
        { cache := mapSet w.cache (cacheKey username)
            (accumulated (outcomes responses w.fetched.length i))
          fetched := w.fetched ++ (List.range (i + 1)).map (fun j =>
            (username, cursorAfter (outcomes responses w.fetched.length j))) }) := by
  obtain ⟨hm, hd, -⟩ := last_call_of_not_continues responses username w n i hi hc
  have hlt := ((collectLoop_inv responses username w n).before_call i hi).2
  rw [getExpertFollowing_of_done responses username w n hmiss hd k, hm, hadd,
    List.take_of_length_le (Nat.le_of_lt hlt)]

/-- C18: when a call of `fetchFollowingPage` fails with an error other than a
rate limit, that call is the last one, and `getExpertFollowing` returns,
whatever number of further turns is allowed, exactly the accounts of the
pages fetched successfully before it (fewer than 1000, so that the truncation
keeps them all), and stores them in the cache; when the first call fails the
snapshot is empty. -/
theorem getExpertFollowing_stops_on_error (responses : Nat → HttpOutcome) (username : String)
    (w : World) (n i : Nat) (e : FetchError)
    (hmiss : mapGet w.cache (cacheKey username) = none)
    (hi : i < callsMade w (collectLoop responses username n (LoopState.init w)))
    (he : fetchFollowingPage (responses (w.fetched.length + i)) = Except.error e)
    (h429 : e.status ≠ some 429) :
    callsMade w (collectLoop responses username n (LoopState.init w)) = i + 1 ∧
    (∀ k, getExpertFollowing responses (n + k) w username =
      some (accumulated (outcomes responses w.fetched.length i),
        { cache := mapSet w.cache (cacheKey username)
            (accumulated (outcomes responses w.fetched.length i))
          fetched := w.fetched ++ (List.range (i + 1)).map (fun j =>
            (username, cursorAfter (outcomes responses w.fetched.length j))) })) ∧
    (accumulated (outcomes responses w.fetched.length i)).take 1000 =
      accumulated (outcomes responses w.fetched.length i) ∧
    (i = 0 → accumulated (outcomes responses w.fetched.length i) = []) := by
  have hc : continues (accumulated (outcomes responses w.fetched.length i))
      (fetchFollowingPage (responses (w.fetched.length + i))) = false := by
    rw [he]; simp [continues, h429]
  have hadd : accumulated (outcomes responses w.fetched.length (i + 1)) =
      accumulated (outcomes responses w.fetched.length i) := by
    rw [outcomes_succ, accumulated_snoc, he]; simp
  have hlt := ((collectLoop_inv responses username w n).before_call i hi).2
  refine ⟨(last_call_of_not_continues responses username w n i hi hc).1,
    fun k => getExpertFollowing_stops_at responses username w n i hmiss hi hc hadd k,
    List.take_of_length_le (Nat.le_of_lt hlt), ?_⟩
  rintro rfl
  rfl

theorem getExpertFollowing_stops_on_error_witness :
    mapGet World.fresh.cache (cacheKey "a") = none ∧
    1 < callsMade World.fresh (collectLoop pageThenError "a" 3 (LoopState.init World.fresh)) ∧
    fetchFollowingPage (pageThenError (World.fresh.fetched.length + 1)) =
      Except.error ⟨some 500⟩ ∧
    (⟨some 500⟩ : FetchError).status ≠ some 429 ∧
    callsMade World.fresh (collectLoop pageThenError "a" 3 (LoopState.init World.fresh)) =
      1 + 1 ∧
    (∀ k, getExpertFollowing pageThenError (3 + k) World.fresh "a" =
      some (accumulated (outcomes pageThenError World.fresh.fetched.length 1),
        { cache := mapSet World.fresh.cache (cacheKey "a")
            (accumulated (outcomes pageThenError World.fresh.fetched.length 1))
          fetched := World.fresh.fetched ++ (List.range (1 + 1)).map (fun j =>
            ("a", cursorAfter (outcomes pageThenError World.fresh.fetched.length j))) })) ∧
    (accumulated (outcomes pageThenError World.fresh.fetched.length 1)).take 1000 =
      accumulated (outcomes pageThenError World.fresh.fetched.length 1) ∧
    ((1 : Nat) = 0 → accumulated (outcomes pageThenError World.fresh.fetched.length 1) = []) :=
  ⟨by decide, by decide, rfl, by decide,
    getExpertFollowing_stops_on_error pageThenError "a" World.fresh 3 1 ⟨some 500⟩
      (by decide) (by decide) rfl (by decide)⟩

theorem getExpertFollowing_pageThenError :
    getExpertFollowing pageThenError 3 World.fresh "a" =
      some ([⟨some "x", "", 0, 0, "", false, 0⟩],
        ⟨[("following_a", [⟨some "x", "", 0, 0, "", false, 0⟩])],
          [("a", none), ("a", some "c1")]⟩) := by
  rfl

theorem pageAt_of_ok (responses : Nat → HttpOutcome) (base i : Nat) (pg : Page)
    (h : fetchFollowingPage (responses (base + i)) = Except.ok pg) :
    pageAt responses base i = pg := by
  simp [pageAt, h]

theorem pagesUpTo_succ (responses : Nat → HttpOutcome) (base i : Nat) :
    pagesUpTo responses base (i + 1) =
      pagesUpTo responses base i ++ (pageAt responses base i).accounts := by
  simp [pagesUpTo, List.range_succ, List.flatMap_append]

/-- While every call succeeds, the results of the first `i` calls are the
pages `0` to `i - 1`. -/
theorem outcomes_all_ok (responses : Nat → HttpOutcome) (base N : Nat)
    (hok : ∀ i, i < N → ∃ pg, fetchFollowingPage (responses (base + i)) = Except.ok pg)
    (i : Nat) (hi : i ≤ N) :
    accumulated (outcomes responses base i) = pagesUpTo responses base i ∧
    okCount (outcomes responses base i) = i ∧
    cursorAfter (outcomes responses base i) = cursorFor responses base i := by
  induction i with
  | zero => simp [outcomes, accumulated, pagesUpTo, okCount, cursorAfter, cursorFor]
  | succ i ih =>
    obtain ⟨h₁, h₂, -⟩ := ih (by omega)
    obtain ⟨pg, hpg⟩ := hok i (by omega)
    rw [outcomes_succ, accumulated_snoc, okCount_snoc, cursorAfter_snoc, hpg, h₁, h₂,
      pagesUpTo_succ, pageAt_of_ok _ _ _ _ hpg]
    refine ⟨rfl, rfl, ?_⟩
    simp [cursorFor, pageAt_of_ok _ _ _ _ hpg]

theorem continues_of_not_stopsAt (responses : Nat → HttpOutcome) (base N j : Nat)
    (hok : ∀ i, i < N → ∃ pg, fetchFollowingPage (responses (base + i)) = Except.ok pg)
    (hj : j < N) (hs : stopsAt responses base j = false) :
    continues (accumulated (outcomes responses base j))
      (fetchFollowingPage (responses (base + j))) = true := by
  obtain ⟨pg, hpg⟩ := hok j hj
  have hacc := (outcomes_all_ok responses base N hok j (by omega)).1
  simp only [stopsAt, Bool.or_eq_false_iff, decide_eq_false_iff_not,
    pagesUpTo_succ, pageAt_of_ok _ _ _ _ hpg] at hs
  obtain ⟨⟨⟨ha, hb⟩, hc⟩, -⟩ := hs
  rw [hpg, hacc]
  simp only [continues, maxFollowing, ha, hb, hc, decide_False, Bool.not_false, Bool.and_self]

theorem stopsAt_of_not_continues (responses : Nat → HttpOutcome) (base N j : Nat)
    (hok : ∀ i, i < N → ∃ pg, fetchFollowingPage (responses (base + i)) = Except.ok pg)
    (hj : j < N)
    (hc : continues (accumulated (outcomes responses base j))
      (fetchFollowingPage (responses (base + j))) = false) :
    stopsAt responses base j = true := by
  by_contra hs
  have hs' : stopsAt responses base j = false := by simpa using hs
  rw [continues_of_not_stopsAt responses base N j hok hj hs'] at hc
  exact absurd hc (by simp)

theorem okCount_le_length (outs : List (Except FetchError Page)) :
    okCount outs ≤ outs.length := List.countP_le_length _

/-- C19: when the first five calls of `fetchFollowingPage` cannot fail, there
is a first page index `k <= 4` at which (a) the page has no account, (b) its
`nextCursor` is null, empty or `'-1'`, (c) the accumulated count is at least
1000, or (d) `k = 4`; `getExpertFollowing` makes exactly the calls for the
pages `0` to `k`, the first with the cursor `null` and each next one with the
`nextCursor` of the page before, and returns (and caches) the first 1000
accounts of the concatenation of the pages `0` to `k`. -/
theorem getExpertFollowing_follows_cursors (responses : Nat → HttpOutcome) (username : String)
    (w : World) (hmiss : mapGet w.cache (cacheKey username) = none)
    (hok : ∀ i, i < 5 → ∃ pg, fetchFollowingPage (responses (w.fetched.length + i)) =
      Except.ok pg) :
    ∃ k, k ≤ 4 ∧ stopsAt responses w.fetched.length k = true ∧
      (∀ j, j < k → stopsAt responses w.fetched.length j = false) ∧
      ∀ fuel, 6 ≤ fuel →
        getExpertFollowing responses fuel w username =
          some ((pagesUpTo responses w.fetched.length (k + 1)).take 1000,
            { cache := mapSet w.cache (cacheKey username)
                ((pagesUpTo responses w.fetched.length (k + 1)).take 1000)
              fetched := w.fetched ++ (List.range (k + 1)).map (fun i =>
                (username, cursorFor responses w.fetched.length i)) }) := by
  have h4 : ∃ k, stopsAt responses w.fetched.length k = true := ⟨4, by simp [stopsAt]⟩
  have hk4 : Nat.find h4 ≤ 4 := Nat.find_min' h4 (by simp [stopsAt])
  have hstop := Nat.find_spec h4
  have hfirst : ∀ j, j < Nat.find h4 → stopsAt responses w.fetched.length j = false :=
    fun j hj => by simpa using Nat.find_min h4 hj
  refine ⟨Nat.find h4, hk4, hstop, hfirst, ?_⟩
  generalize Nat.find h4 = k at hk4 hstop hfirst
  intro fuel hfuel
  have h := collectLoop_inv responses username w fuel
  have hok5 := (outcomes_all_ok responses w.fetched.length 5 hok 5 (le_refl 5)).2.1
  have hm5 : callsMade w (collectLoop responses username fuel (LoopState.init w)) ≤ 5 := by
    by_contra hgt
    have := (h.before_call 5 (by omega)).1
    omega
  have hd : (collectLoop responses username fuel (LoopState.init w)).done = true := by
    by_contra hd
    have hd' : (collectLoop responses username fuel (LoopState.init w)).done = false := by
      simpa using hd
    have := (h.running hd').1
    omega
  have hle : callsMade w (collectLoop responses username fuel (LoopState.init w)) ≤ k + 1 := by
    by_contra hgt
    have hc := h.earlier_continue k (by omega)
    by_cases hk : k = 4
    · omega
    · have hs : stopsAt responses w.fetched.length k = false := by
        obtain ⟨pg, hpg⟩ := hok k (by omega)
        have hacc := (outcomes_all_ok responses w.fetched.length 5 hok k (by omega)).1
        rw [hpg, hacc] at hc
        simp only [continues, maxFollowing, Bool.and_eq_true, Bool.not_eq_true',
          decide_eq_false_iff_not] at hc
        obtain ⟨⟨ha, hb⟩, hc⟩ := hc
        simp only [stopsAt, pagesUpTo_succ, pageAt_of_ok _ _ _ _ hpg, ha, hb, hc, hk,
          decide_False, Bool.or_self]
      rw [hs] at hstop
      exact absurd hstop (by simp)
  have hge : k + 1 ≤ callsMade w (collectLoop responses username fuel (LoopState.init w)) := by
    by_contra hlt
    rcases h.left hd with ⟨j, hj, hc⟩ | h5
    · have hs := stopsAt_of_not_continues responses w.fetched.length 5 j hok (by omega) hc
      rw [hfirst j (by omega)] at hs
      exact absurd hs (by simp)
    · have := okCount_le_length (outcomes responses w.fetched.length
        (callsMade w (collectLoop responses username fuel (LoopState.init w))))
      rw [length_outcomes] at this
      omega
  have hm : callsMade w (collectLoop responses username fuel (LoopState.init w)) = k + 1 :=
    le_antisymm hle hge
  have hres := getExpertFollowing_of_done responses username w fuel hmiss hd 0
  rw [Nat.add_zero, hm,
    (outcomes_all_ok responses w.fetched.length 5 hok (k + 1) (by omega)).1] at hres
  rw [hres]
  have hmap : (List.range (k + 1)).map (fun i =>
      (username, cursorAfter (outcomes responses w.fetched.length i))) =
      (List.range (k + 1)).map (fun i => (username, cursorFor responses w.fetched.length i)) := by
    apply List.map_congr_left
    intro i hi
    rw [List.mem_range] at hi
    rw [(outcomes_all_ok responses w.fetched.length 5 hok i (by omega)).2.2]
  rw [hmap]
  rfl

theorem getExpertFollowing_follows_cursors_witness :
    mapGet World.fresh.cache (cacheKey "a") = none ∧
    (∀ i, i < 5 → ∃ pg, fetchFollowingPage (fivePages (World.fresh.fetched.length + i)) =
      Except.ok pg) ∧
    ∃ k, k ≤ 4 ∧ stopsAt fivePages World.fresh.fetched.length k = true ∧
      (∀ j, j < k → stopsAt fivePages World.fresh.fetched.length j = false) ∧
      ∀ fuel, 6 ≤ fuel →
        getExpertFollowing fivePages fuel World.fresh "a" =
          some ((pagesUpTo fivePages World.fresh.fetched.length (k + 1)).take 1000,
            { cache := mapSet World.fresh.cache (cacheKey "a")
                ((pagesUpTo fivePages World.fresh.fetched.length (k + 1)).take 1000)
              fetched := World.fresh.fetched ++ (List.range (k + 1)).map (fun i =>
                ("a", cursorFor fivePages World.fresh.fetched.length i)) }) :=
  ⟨rfl, fun _ _ => ⟨_, rfl⟩,
    getExpertFollowing_follows_cursors fivePages "a" World.fresh rfl (fun _ _ => ⟨_, rfl⟩)⟩

theorem getExpertFollowing_fivePages :
    (getExpertFollowing fivePages 6 World.fresh "a").map
      (fun p => (p.1.map (fun a => a.screen_name), p.2.fetched)) =
      some ([some "0", some "1", some "2", some "3", some "4"],
        [("a", none), ("a", some "1"), ("a", some "2"), ("a", some "3"), ("a", some "4")]) := by
  decide

/-- C20 (as stated, refuted): for a response body whose `users` field is a
truthy value that is not an array, `fetchFollowingPage` does not return an
empty page: it throws (a `TypeError` without `response`). -/
theorem fetchFollowingPage_throws_on_non_array :
    fetchFollowingPage (HttpOutcome.response ⟨UsersField.nonArray true, some "c"⟩) =
      Except.error ⟨none⟩ :=
  rfl

/-- C20 (amended): for every response body whose `users` field is missing or
falsy, `fetchFollowingPage` returns `accounts = []` without throwing; and for
every response body whose `users` field is not an array, the call that
receives it is the last one: `getExpertFollowing` returns what it has
accumulated before and stores it in the cache. -/
theorem fetchFollowingPage_without_users (responses : Nat → HttpOutcome) (username : String)
    (w : World) (n i : Nat) (users : UsersField) (c : Option String) :
    fetchFollowingPage (HttpOutcome.response ⟨UsersField.absent, c⟩) = Except.ok ⟨[], c⟩ ∧
    fetchFollowingPage (HttpOutcome.response ⟨UsersField.nonArray false, c⟩) =
      Except.ok ⟨[], c⟩ ∧
    (mapGet w.cache (cacheKey username) = none →
      i < callsMade w (collectLoop responses username n (LoopState.init w)) →
      responses (w.fetched.length + i) = HttpOutcome.response ⟨users, c⟩ →
      (∀ l, users ≠ UsersField.array l) →
      callsMade w (collectLoop responses username n (LoopState.init w)) = i + 1 ∧
      ∀ k, getExpertFollowing responses (n + k) w username =
        some (accumulated (outcomes responses w.fetched.length i),
          { cache := mapSet w.cache (cacheKey username)
              (accumulated (outcomes responses w.fetched.length i))
            fetched := w.fetched ++ (List.range (i + 1)).map (fun j =>
              (username, cursorAfter (outcomes responses w.fetched.length j))) })) := by
  refine ⟨rfl, rfl, ?_⟩
  intro hmiss hi hresp hna
  have hcases : (∃ pg, fetchFollowingPage (responses (w.fetched.length + i)) = Except.ok pg ∧
      pg.accounts = []) ∨
      fetchFollowingPage (responses (w.fetched.length + i)) = Except.error ⟨none⟩ := by
    rw [hresp]
    cases users with
    | absent => exact Or.inl ⟨_, rfl, rfl⟩
    | nonArray truthy =>
      cases truthy with
      | false => exact Or.inl ⟨_, rfl, rfl⟩
      | true => exact Or.inr rfl
    | array l => exact absurd rfl (hna l)
  have hc : continues (accumulated (outcomes responses w.fetched.length i))
      (fetchFollowingPage (responses (w.fetched.length + i))) = false := by
    rcases hcases with ⟨pg, hpg, hempty⟩ | herr
    · rw [hpg]; simp [continues, hempty]
    · rw [herr]; simp [continues]
  have hadd : accumulated (outcomes responses w.fetched.length (i + 1)) =
      accumulated (outcomes responses w.fetched.length i) := by
    rw [outcomes_succ, accumulated_snoc]
    rcases hcases with ⟨pg, hpg, hempty⟩ | herr
    · rw [hpg]; simp [hempty]
    · rw [herr]; simp
  exact ⟨(last_call_of_not_continues responses username w n i hi hc).1,
    fun k => getExpertFollowing_stops_at responses username w n i hmiss hi hc hadd k⟩

theorem fetchFollowingPage_without_users_witness :
    mapGet World.fresh.cache (cacheKey "a") = none ∧
    1 < callsMade World.fresh (collectLoop pageThenNoUsers "a" 3 (LoopState.init World.fresh)) ∧
    pageThenNoUsers (World.fresh.fetched.length + 1) =
      HttpOutcome.response ⟨UsersField.absent, some "c2"⟩ ∧
    (∀ l, UsersField.absent ≠ UsersField.array l) ∧
    callsMade World.fresh (collectLoop pageThenNoUsers "a" 3 (LoopState.init World.fresh)) =
      1 + 1 ∧
    ∀ k, getExpertFollowing pageThenNoUsers (3 + k) World.fresh "a" =
      some (accumulated (outcomes pageThenNoUsers World.fresh.fetched.length 1),
        { cache := mapSet World.fresh.cache (cacheKey "a")
            (accumulated (outcomes pageThenNoUsers World.fresh.fetched.length 1))
          fetched := World.fresh.fetched ++ (List.range (1 + 1)).map (fun j =>
            ("a", cursorAfter (outcomes pageThenNoUsers World.fresh.fetched.length j))) }) :=
  ⟨rfl, by decide, rfl, (fun _ h => UsersField.noConfusion h),
    (fetchFollowingPage_without_users pageThenNoUsers "a" World.fresh 3 1 UsersField.absent
      (some "c2")).2.2 rfl (by decide) rfl (fun _ h => UsersField.noConfusion h)⟩

/-- C22 (as stated, refuted): the expert IDs `Naval` and `naval` differ only
in letter case, yet they have different cache keys and both are counted in
`experts_following`; and the followed accounts `X` and `x` give two records. -/
theorem analyzeExperts_case_sensitive :
    lowerCase "Naval" = lowerCase "naval" ∧
    cacheKey "Naval" ≠ cacheKey "naval" ∧
    (analyzeExperts ["Naval", "naval"]
        [Settled.fulfilled [plainAccount "x"], Settled.fulfilled [plainAccount "x"]]).map
      (List.map (fun r => (r.username, r.overlap_count, r.experts_following))) =
      Except.ok [("x", 2, ["Naval", "naval"])] ∧
    lowerCase "X" = lowerCase "x" ∧
    (analyzeExperts ["a", "b"]
        [Settled.fulfilled [plainAccount "X", plainAccount "x"],
          Settled.fulfilled [plainAccount "X", plainAccount "x"]]).map
      (List.map (fun r => (r.username, r.overlap_count))) =
      Except.ok [("X", 2), ("x", 2)] :=
  ⟨by decide, by decide, rfl, by decide, rfl⟩

/-- C22 (amended): handles are identity keys as they are given, without case
normalization: two expert IDs have the same cache key exactly when they are
the same string, and every record returned by `analyzeExperts` lists in
`experts_following`, once each, exactly the usernames whose fulfilled list
holds an account with exactly the record's `username` as `screen_name`. -/
theorem analyzeExperts_exact_handles (usernames : List String) (results : List Settled)
    (hne : usernames ≠ []) :
    (∀ u v, cacheKey u = cacheKey v ↔ u = v) ∧
    ∃ recs, analyzeExperts usernames results = Except.ok recs ∧
      (recs.map (fun r => r.username)).Nodup ∧
      ∀ r ∈ recs, r.experts_following.Nodup ∧
        ∀ e, e ∈ r.experts_following ↔ e ∈ followersOf usernames results r.username := by
  refine ⟨cacheKey_injective, _, analyzeExperts_ok usernames results hne,
    usernames_nodup usernames results, ?_⟩
  intro r hr
  rw [mem_sortResults, record_facts] at hr
  obtain ⟨-, -, -, hr⟩ := hr
  obtain ⟨hnd, hmem, -, -⟩ := followSet_facts usernames results r.username
  have hexp : r.experts_following =
      (occurrences (events usernames results) r.username).foldl setAdd [] := by
    rw [hr]; rfl
  rw [hexp]
  exact ⟨hnd, hmem⟩

theorem analyzeExperts_exact_handles_witness :
    ["Naval", "naval"] ≠ [] ∧
    (∀ u v, cacheKey u = cacheKey v ↔ u = v) ∧
    ∃ recs, analyzeExperts ["Naval", "naval"]
        [Settled.fulfilled [plainAccount "x"], Settled.fulfilled [plainAccount "x"]] =
        Except.ok recs ∧
      (recs.map (fun r => r.username)).Nodup ∧
      ∀ r ∈ recs, r.experts_following.Nodup ∧
        ∀ e, e ∈ r.experts_following ↔ e ∈ followersOf ["Naval", "naval"]
          [Settled.fulfilled [plainAccount "x"], Settled.fulfilled [plainAccount "x"]]
          r.username :=
  ⟨by decide, analyzeExperts_exact_handles ["Naval", "naval"]
    [Settled.fulfilled [plainAccount "x"], Settled.fulfilled [plainAccount "x"]] (by decide)⟩

/-- C23 (as stated, refuted): an array of two empty strings, and an array of
two values that are not strings, are forwarded to `analyzeExperts`. -/
theorem postAnalyze_forwards_empty_strings :
    postAnalyze (BodyField.array [JsonItem.string "", JsonItem.string ""]) =
      RouteOutcome.forwarded [JsonItem.string "", JsonItem.string ""] ∧
    postAnalyze (BodyField.array [JsonItem.other, JsonItem.other]) =
      RouteOutcome.forwarded [JsonItem.other, JsonItem.other] :=
  ⟨rfl, rfl⟩

/-- C23 (amended): the route forwards the request to `analyzeExperts` if and
only if `body.usernames` is an array of between 2 and 100 elements, whatever
the elements are, and answers 400 otherwise, without calling the service. -/
theorem postAnalyze_forwards_iff (usernames : BodyField) :
    ((∃ items, postAnalyze usernames = RouteOutcome.forwarded items) ↔
      ∃ items, usernames = BodyField.array items ∧ 2 ≤ items.length ∧ items.length ≤ 100) ∧
    ((∃ error, postAnalyze usernames = RouteOutcome.badRequest error) ↔
      ¬ ∃ items, usernames = BodyField.array items ∧ 2 ≤ items.length ∧ items.length ≤ 100) ∧
    (∀ items, postAnalyze usernames = RouteOutcome.forwarded items →
      usernames = BodyField.array items) := by
  cases usernames with
  | absent => simp [postAnalyze]
  | nonArray truthy => simp [postAnalyze]
  | array items =>
    by_cases h : items.length < 2 ∨ items.length > 100
    · have h' : ¬ (2 ≤ items.length ∧ items.length ≤ 100) := by omega
      simp [postAnalyze, h, h']
    · have h' : 2 ≤ items.length ∧ items.length ≤ 100 := by omega
      simp [postAnalyze, h, h']

/-- C26: for a response whose `users` is an array, `fetchFollowingPage`
returns one account per raw record, in the same order, with `screen_name`
passed through unchanged, `name` and `description` defaulting to `''`,
`followers_count`, `friends_count` and `statuses_count` defaulting to `0`,
`verified` defaulting to `false`, and `nextCursor` equal to the
`next_cursor_str` of the response. -/
theorem fetchFollowingPage_normalizes (users : List RawUser) (next : Option String) :
    ∃ pg, fetchFollowingPage (HttpOutcome.response ⟨UsersField.array users, next⟩) =
        Except.ok pg ∧
      pg.nextCursor = next ∧
      pg.accounts.length = users.length ∧
      ∀ (i : Nat) (user : RawUser), users[i]? = some user →
        pg.accounts[i]? = some
          ({ screen_name := user.screen_name
             name := user.name.getD ""
             followers_count := user.followers_count.getD 0
             friends_count := user.friends_count.getD 0
             description := user.description.getD ""
             verified := user.verified.getD false
             statuses_count := user.statuses_count.getD 0 } : Account) := by
  refine ⟨⟨users.map transformUser, next⟩, rfl, rfl, by simp, ?_⟩
  intro i user hi
  have hE : ∀ x : Option String, orEmpty x = x.getD "" := by
    intro x
    cases x with
    | none => rfl
    | some s => by_cases hs : s = "" <;> simp [orEmpty, hs]
  have hZ : ∀ x : Option Int, orZero x = x.getD 0 := by
    intro x
    cases x with
    | none => rfl
    | some n => by_cases hn : n = 0 <;> simp [orZero, hn]
  have hF : ∀ x : Option Bool, orFalse x = x.getD false := by
    intro x
    cases x with
    | none => rfl
    | some b => cases b <;> rfl
  simp only [List.getElem?_map, hi, Option.map_some', transformUser, hE, hZ, hF]

theorem parseUsernames_example :
    parseUsernames (some "@naval, paulg\n@naval  sama,") = ["naval", "paulg", "sama"] := by
  decide

theorem splitTokens_example :
    splitTokens ",a,, b ".data [] false = [[], ['a'], ['b'], []] := by
  decide

theorem mem_splitTokens (cs cur : List Char) (afterSep : Bool) (t : List Char)
    (ht : t ∈ splitTokens cs cur afterSep) (c : Char) (hc : c ∈ t) :
    c ∈ cur ∨ (c ∈ cs ∧ isSeparator c = false) := by
  induction cs generalizing cur afterSep with
  | nil =>
    simp only [splitTokens, List.mem_singleton] at ht
    subst ht
    exact Or.inl (List.mem_reverse.1 hc)
  | cons d rest ih =>
    simp only [splitTokens] at ht
    by_cases hd : isSeparator d = true
    · simp only [hd, if_true] at ht
      have hrest : t ∈ splitTokens rest [] true → c ∈ cur ∨ (c ∈ d :: rest ∧ isSeparator c = false) := by
        intro h
        rcases ih [] true h with h' | ⟨h', hs⟩
        · simp at h'
        · exact Or.inr ⟨List.mem_cons_of_mem _ h', hs⟩
      cases afterSep with
      | true => exact hrest (by simpa using ht)
      | false =>
        simp only [Bool.false_eq_true, if_false, List.mem_cons] at ht
        rcases ht with rfl | ht
        · exact Or.inl (List.mem_reverse.1 hc)
        · exact hrest ht
    · have hd' : isSeparator d = false := by simpa using hd
      simp only [hd', Bool.false_eq_true, if_false] at ht
      rcases ih (d :: cur) false ht with h' | ⟨h', hs⟩
      · rcases List.mem_cons.1 h' with rfl | h''
        · exact Or.inr ⟨List.mem_cons_self _ _, hd'⟩
        · exact Or.inl h''
      · exact Or.inr ⟨List.mem_cons_of_mem _ h', hs⟩

theorem mem_trimChars (cs : List Char) (c : Char) (hc : c ∈ trimChars cs) : c ∈ cs := by
  unfold trimChars at hc
  rw [List.mem_reverse] at hc
  have h₁ := (List.dropWhile_sublist isJsSpace).subset hc
  rw [List.mem_reverse] at h₁
  exact (List.dropWhile_sublist isJsSpace).subset h₁

/-- C24: for every input, `parseUsernames` returns a list without duplicate
entries in which no entry is empty and no entry contains `@`, a comma or a
white-space character; for an absent or empty input it returns the empty
list. -/
theorem parseUsernames_clean (input : Option String) :
    (parseUsernames input).Nodup ∧
    (∀ u ∈ parseUsernames input, u ≠ "" ∧
      ∀ c ∈ u.data, c ≠ '@' ∧ c ≠ ',' ∧ isJsSpace c = false) ∧
    parseUsernames none = [] ∧ parseUsernames (some "") = [] := by
  refine ⟨?_, ?_, rfl, rfl⟩
  · cases input with
    | none => simp [parseUsernames]
    | some s =>
      unfold parseUsernames
      by_cases hs : s = ""
      · simp [hs]
      · simp only [hs, if_false]
        exact nodup_dedupUsernames _
  · intro u hu
    cases input with
    | none => simp [parseUsernames] at hu
    | some s =>
      unfold parseUsernames at hu
      by_cases hs : s = ""
      · simp [hs] at hu
      · simp only [hs, if_false, mem_dedupUsernames, List.mem_filterMap] at hu
        obtain ⟨token, htoken, hsome⟩ := hu
        by_cases hlen : (trimChars token).length > 0
        · simp only [hlen, if_true, Option.some.injEq] at hsome
          subst hsome
          refine ⟨?_, ?_⟩
          · intro hu
            have hdata : trimChars token = [] := congrArg String.data hu
            rw [hdata] at hlen
            simp at hlen
          · intro c hc
            have hc' : c ∈ token := mem_trimChars token c hc
            rcases mem_splitTokens _ _ _ token htoken c hc' with h | ⟨hmem, hsep⟩
            · simp at h
            · simp only [List.mem_filter, decide_eq_true_eq] at hmem
              simp only [isSeparator, Bool.or_eq_false_iff, decide_eq_false_iff_not] at hsep
              exact ⟨hmem.2, hsep.1.2, hsep.2⟩
        · simp [hlen] at hsome

theorem dedupUsernames_snoc (l : List String) (x : String) :
    dedupUsernames (l ++ [x]) =
      if x ∈ l then dedupUsernames l else dedupUsernames l ++ [x] := by
  induction l with
  | nil => simp [dedupUsernames]
  | cons u l ih =>
    rw [List.cons_append, dedupUsernames, ih]
    by_cases hx : x ∈ l
    · simp [hx, dedupUsernames]
    · by_cases hu : x = u
      · subst hu
        simp [hx, dedupUsernames, List.filter_append]
      · simp [hx, hu, dedupUsernames, List.filter_append]

theorem processAccount_keys (e : String) (st : AggState) (a : Account) :
    mapKeys (processAccount e st a).followsMap =
      match validName a with
      | none => mapKeys st.followsMap
      | some h => if h ∈ mapKeys st.followsMap then mapKeys st.followsMap
                  else mapKeys st.followsMap ++ [h] := by
  unfold processAccount validName
  cases hs : a.screen_name with
  | none => rfl
  | some u =>
    by_cases hu : u = ""
    · simp [hu]
    · simp only [hu, if_false]
      cases hg : mapGet st.followsMap u with
      | none =>
        have hh : mapHas st.followsMap u = false := by simp [mapHas_eq_isSome, hg]
        have hk : u ∉ mapKeys st.followsMap := (mapGet_eq_none_iff _ _).1 hg
        simp [hh, hk, mapGet_mapSet, mapKeys_mapSet]
      | some s =>
        have hh : mapHas st.followsMap u = true := by simp [mapHas_eq_isSome, hg]
        have hk : u ∈ mapKeys st.followsMap := by
          by_contra hn
          rw [(mapGet_eq_none_iff _ _).2 hn] at hg
          simp at hg
        simp [hh, hk, hg, mapKeys_mapSet]

/-- The keys of `followsMap` are the screen names in order of first encounter. -/
theorem mapKeys_runEvents (evs : List (String × Account)) :
    mapKeys (runEvents AggState.empty evs).followsMap =
      dedupUsernames ((evs.map Prod.snd).filterMap validName) := by
  induction evs using List.reverseRecOn with
  | nil => simp [runEvents, AggState.empty, mapKeys, dedupUsernames]
  | append_singleton evs ea ih =>
    rw [runEvents_snoc, processAccount_keys, ih, List.map_append, List.filterMap_append]
    cases hv : validName ea.2 with
    | none => simp [hv]
    | some h =>
      simp only [List.map_cons, List.map_nil, List.filterMap_cons, hv, List.filterMap_nil,
        dedupUsernames_snoc, mem_dedupUsernames]

theorem mapKeys_processResults (usernames : List String) (results : List Settled) :
    mapKeys (processResults usernames results).followsMap =
      encounterOrder usernames results := by
  rw [processResults_eq_runEvents, mapKeys_runEvents, map_snd_events]
  rfl

/-- A stable sort leaves the records of one `overlap_count` in their order. -/
theorem filter_sortResults (rs : List AnalysisResult) (c : Nat) :
    (sortResults rs).filter (fun r => decide (r.overlap_count = c)) =
      rs.filter (fun r => decide (r.overlap_count = c)) := by
  unfold sortResults
  induction rs with
  | nil => rfl
  | cons a rs ih =>
    have hsplit := List.takeWhile_append_dropWhile (fun b => decide ¬byOverlapDesc a b)
      (List.insertionSort byOverlapDesc rs)
    have hrs : rs.filter (fun r => decide (r.overlap_count = c)) =
        (List.takeWhile (fun b => decide ¬byOverlapDesc a b)
          (List.insertionSort byOverlapDesc rs)).filter
          (fun r => decide (r.overlap_count = c)) ++
        (List.dropWhile (fun b => decide ¬byOverlapDesc a b)
          (List.insertionSort byOverlapDesc rs)).filter
          (fun r => decide (r.overlap_count = c)) := by
      rw [← ih, ← List.filter_append, hsplit]
    rw [List.insertionSort, List.orderedInsert_eq_take_drop, List.filter_append]
    by_cases hac : a.overlap_count = c
    · have htake : (List.takeWhile (fun b => decide ¬byOverlapDesc a b)
          (List.insertionSort byOverlapDesc rs)).filter
          (fun r => decide (r.overlap_count = c)) = [] := by
        simp only [List.filter_eq_nil_iff, decide_eq_true_eq]
        intro b hb
        have := List.mem_takeWhile_imp hb
        simp only [byOverlapDesc, decide_eq_true_eq] at this
        omega
      simp only [List.filter_cons, hac, decide_True, if_true, hrs, htake, List.nil_append]
    · simp only [List.filter_cons, hac, decide_False, Bool.false_eq_true, if_false, hrs]

theorem map_username_filter_convertResults (n c : Nat) (st : AggState) :
    (((convertResults n st).filter (fun r => decide (r.overlap_count = c))).map
      (fun r => r.username)).Sublist (mapKeys st.followsMap) := by
  have h₁ : (((convertResults n st).filter (fun r => decide (r.overlap_count = c))).map
      (fun r => r.username)).Sublist ((convertResults n st).map (fun r => r.username)) :=
    List.Sublist.map _ (List.filter_sublist _)
  rw [map_username_convertResults] at h₁
  exact h₁.trans (List.Sublist.map _ (List.filter_sublist _))

theorem pair_sublist_or {α : Type} (l : List α) (x y : α) (hx : x ∈ l) (hy : y ∈ l)
    (hxy : x ≠ y) : [x, y].Sublist l ∨ [y, x].Sublist l := by
  induction l with
  | nil => simp at hx
  | cons a t ih =>
    rcases List.mem_cons.1 hx with rfl | hx'
    · rcases List.mem_cons.1 hy with rfl | hy'
      · exact absurd rfl hxy
      · exact Or.inl (List.Sublist.cons₂ _ (List.singleton_sublist.2 hy'))
    · rcases List.mem_cons.1 hy with rfl | hy'
      · exact Or.inr (List.Sublist.cons₂ _ (List.singleton_sublist.2 hx'))
      · rcases ih hx' hy' with h | h
        · exact Or.inl (List.Sublist.cons _ h)
        · exact Or.inr (List.Sublist.cons _ h)

theorem pair_sublist_mem {α : Type} (l : List α) (x y : α) (h : [x, y].Sublist l) :
    x ∈ l ∧ y ∈ l :=
  ⟨h.subset (by simp), h.subset (by simp)⟩

theorem pair_sublist_asymm {α : Type} (l : List α) (x y : α) (hnd : l.Nodup)
    (h₁ : [x, y].Sublist l) (h₂ : [y, x].Sublist l) : False := by
  induction l with
  | nil => simp at h₁
  | cons a t ih =>
    obtain ⟨hat, hndt⟩ := List.nodup_cons.1 hnd
    rcases List.sublist_cons_iff.1 h₁ with h₁' | ⟨r, hr, h₁'⟩
    · rcases List.sublist_cons_iff.1 h₂ with h₂' | ⟨r', hr', h₂'⟩
      · exact ih hndt h₁' h₂'
      · simp only [List.cons.injEq] at hr'
        obtain ⟨rfl, -⟩ := hr'
        exact hat (pair_sublist_mem t x y h₁').2
    · simp only [List.cons.injEq] at hr
      obtain ⟨rfl, rfl⟩ := hr
      rcases List.sublist_cons_iff.1 h₂ with h₂' | ⟨r', hr', h₂'⟩
      · exact hat (pair_sublist_mem t y x h₂').2
      · simp only [List.cons.injEq] at hr'
        obtain ⟨rfl, rfl⟩ := hr'
        exact hat (List.singleton_sublist.1 h₁')

theorem nodup_encounterOrder (usernames : List String) (results : List Settled) :
    (encounterOrder usernames results).Nodup :=
  nodup_dedupUsernames _

/-- C25: among the records returned by `analyzeExperts` that have the same
`overlap_count`, the usernames follow the order of first encounter (experts
in input order, accounts in list order): of two such records, the one whose
screen name was met first comes first in the output. -/
theorem analyzeExperts_ties_in_encounter_order (usernames : List String)
    (results : List Settled) (hne : usernames ≠ []) :
    ∃ recs, analyzeExperts usernames results = Except.ok recs ∧
      (∀ c, (((recs.filter (fun r => decide (r.overlap_count = c))).map
        (fun r => r.username)).Sublist (encounterOrder usernames results))) ∧
      ∀ r₁ r₂, r₁ ∈ recs → r₂ ∈ recs → r₁.overlap_count = r₂.overlap_count →
        [r₁.username, r₂.username].Sublist (encounterOrder usernames results) →
        [r₁, r₂].Sublist recs := by
  have hsub : ∀ c, (((sortResults (convertResults usernames.length
      (processResults usernames results))).filter
      (fun r => decide (r.overlap_count = c))).map (fun r => r.username)).Sublist
      (encounterOrder usernames results) := by
    intro c
    rw [filter_sortResults, ← mapKeys_processResults]
    exact map_username_filter_convertResults _ _ _
  refine ⟨_, analyzeExperts_ok usernames results hne, hsub, ?_⟩
  intro r₁ r₂ h₁ h₂ hc horder
  have hE := nodup_encounterOrder usernames results
  have hnd := usernames_nodup usernames results
  have hne12 : r₁.username ≠ r₂.username := by
    intro he
    rw [he] at horder
    have := (List.nodup_cons.1 (horder.nodup hE)).1
    simp at this
  have hr12 : r₁ ≠ r₂ := fun he => hne12 (by rw [he])
  have hf₁ : r₁ ∈ (sortResults (convertResults usernames.length
      (processResults usernames results))).filter
      (fun r => decide (r.overlap_count = r₂.overlap_count)) := by
    simp [List.mem_filter, h₁, hc]
  have hf₂ : r₂ ∈ (sortResults (convertResults usernames.length
      (processResults usernames results))).filter
      (fun r => decide (r.overlap_count = r₂.overlap_count)) := by
    simp [List.mem_filter, h₂]
  rcases pair_sublist_or _ r₁ r₂ hf₁ hf₂ hr12 with h | h
  · exact h.trans (List.filter_sublist _)
  · exfalso
    have hmap : [r₂.username, r₁.username].Sublist
        (((sortResults (convertResults usernames.length
          (processResults usernames results))).filter
          (fun r => decide (r.overlap_count = r₂.overlap_count))).map
          (fun r => r.username)) :=
      List.Sublist.map (fun r : AnalysisResult => r.username) h
    exact pair_sublist_asymm _ _ _ hE horder (hmap.trans (hsub r₂.overlap_count))

theorem analyzeExperts_ties_in_encounter_order_witness :
    ["a", "b"] ≠ [] ∧
    ∃ recs, analyzeExperts ["a", "b"] tieResults = Except.ok recs ∧
      (∀ c, (((recs.filter (fun r => decide (r.overlap_count = c))).map
        (fun r => r.username)).Sublist (encounterOrder ["a", "b"] tieResults))) ∧
      ∀ r₁ r₂, r₁ ∈ recs → r₂ ∈ recs → r₁.overlap_count = r₂.overlap_count →
        [r₁.username, r₂.username].Sublist (encounterOrder ["a", "b"] tieResults) →
        [r₁, r₂].Sublist recs :=
  ⟨by decide, analyzeExperts_ties_in_encounter_order ["a", "b"] tieResults (by decide)⟩

theorem analyzeExperts_tie_example :
    encounterOrder ["a", "b"] tieResults = ["y", "x"] ∧
    (analyzeExperts ["a", "b"] tieResults).map
      (List.map (fun r => (r.username, r.overlap_count))) =
      Except.ok [("y", 2), ("x", 2)] :=
  ⟨by decide, rfl⟩

theorem zip_map_fst_snd (ps : List (String × Settled)) :
    (ps.map Prod.fst).zip (ps.map Prod.snd) = ps := by
  induction ps with
  | nil => rfl
  | cons p ps ih => simp [ih]

theorem followersOf_pairs (ps : List (String × Settled)) (h : String) :
    followersOf (ps.map Prod.fst) (ps.map Prod.snd) h =
      (ps.filter (fun p =>
        match p.2 with
        | Settled.fulfilled following => following.any (fun a => decide (a.screen_name = some h))
        | Settled.rejected _ => false)).map Prod.fst := by
  unfold followersOf
  rw [zip_map_fst_snd]

theorem followersOf_perm (ps ps' : List (String × Settled)) (hp : ps.Perm ps') (h : String) :
    (followersOf (ps.map Prod.fst) (ps.map Prod.snd) h).Perm
      (followersOf (ps'.map Prod.fst) (ps'.map Prod.snd) h) := by
  rw [followersOf_pairs, followersOf_pairs]
  exact (hp.filter _).map _

theorem overlapOf_perm (ps ps' : List (String × Settled)) (hp : ps.Perm ps') (h : String) :
    overlapOf (ps.map Prod.fst) (ps.map Prod.snd) h =
      overlapOf (ps'.map Prod.fst) (ps'.map Prod.snd) h :=
  (followersOf_perm ps ps' hp h).dedup.length_eq

/-- The overlap statistics returned: one triple for each non-empty screen
name followed by at least `minOverlap` distinct usernames. -/
theorem mem_overlapTriples (usernames : List String) (results : List Settled)
    (t : String × Nat × ℚ) :
    t ∈ (sortResults (convertResults usernames.length
        (processResults usernames results))).map overlapTriple ↔
      t.1 ≠ "" ∧ minOverlap usernames.length ≤ overlapOf usernames results t.1 ∧
      t.2.1 = overlapOf usernames results t.1 ∧
      t.2.2 = mulDouble (divDouble (overlapOf usernames results t.1 : ℚ)
        (usernames.length : ℚ)) 100 := by
  obtain ⟨h, c, p⟩ := t
  simp only [List.mem_map, mem_sortResults, record_facts]
  constructor
  · rintro ⟨r, ⟨hu, -, hmin, hr⟩, ht⟩
    obtain ⟨-, -, hlen, -⟩ := followSet_facts usernames results r.username
    have h₁ : r.username = h := congrArg Prod.fst ht
    have h₂ : r.overlap_count = c := congrArg (fun x => x.2.1) ht
    have h₃ : r.overlap_percentage = p := congrArg (fun x => x.2.2) ht
    have hcnt : r.overlap_count = overlapOf usernames results r.username := by
      rw [hr]; exact hlen
    have hpct : r.overlap_percentage =
        mulDouble (divDouble (overlapOf usernames results r.username : ℚ)
          (usernames.length : ℚ)) 100 := by
      rw [hr]
      show mulDouble (divDouble
        (((occurrences (events usernames results) r.username).foldl setAdd []).length : ℚ)
        (usernames.length : ℚ)) 100 = _
      rw [hlen]; rfl
    subst h₁
    refine ⟨hu, ?_, ?_, ?_⟩
    · unfold overlapOf; rw [← hlen]; exact hmin
    · rw [← h₂]; exact hcnt
    · rw [← h₃]; exact hpct
  · rintro ⟨hu, hmin, hc, hp⟩
    obtain ⟨-, -, hlen, -⟩ := followSet_facts usernames results h
    have hmin' : minOverlap usernames.length ≤
        ((occurrences (events usernames results) h).foldl setAdd []).length := by
      rw [hlen]; exact hmin
    have hocc : occurrences (events usernames results) h ≠ [] := by
      intro hcontra
      rw [hcontra] at hmin'
      have h2 : 2 ≤ minOverlap usernames.length := le_max_left _ _
      simp at hmin'
      omega
    refine ⟨mkResult usernames.length h
      ((occurrences (events usernames results) h).foldl setAdd [])
      ((encountered usernames results).find? (fun a => decide (a.screen_name = some h))),
      ⟨hu, hocc, hmin', rfl⟩, ?_⟩
    show (h, ((occurrences (events usernames results) h).foldl setAdd []).length,
      mulDouble (divDouble
        (((occurrences (events usernames results) h).foldl setAdd []).length : ℚ)
        (usernames.length : ℚ)) 100) = (h, c, p)
    rw [hlen, hc, hp]
    rfl

theorem nodup_overlapTriples (usernames : List String) (results : List Settled) :
    ((sortResults (convertResults usernames.length
      (processResults usernames results))).map overlapTriple).Nodup := by
  apply List.Nodup.of_map Prod.fst
  rw [List.map_map]
  exact usernames_nodup usernames results

theorem mem_experts_following (usernames : List String) (results : List Settled)
    (r : AnalysisResult)
    (hr : r ∈ sortResults (convertResults usernames.length
      (processResults usernames results))) (e : String) :
    e ∈ r.experts_following ↔ e ∈ followersOf usernames results r.username := by
  rw [mem_sortResults, record_facts] at hr
  obtain ⟨-, -, -, hr⟩ := hr
  have hexp : r.experts_following =
      (occurrences (events usernames results) r.username).foldl setAdd [] := by
    rw [hr]; rfl
  rw [hexp]
  exact (followSet_facts usernames results r.username).2.1 e

/-- C27: a list of experts, each with its own following list, and any
permutation of it give lists of records with the same triples (username,
overlap_count, overlap_percentage), each once, and for every username the
same set of `experts_following`. -/
theorem analyzeExperts_order_independent (ps ps' : List (String × Settled))
    (hp : ps.Perm ps') (hne : ps ≠ []) :
    ∃ recs recs',
      analyzeExperts (ps.map Prod.fst) (ps.map Prod.snd) = Except.ok recs ∧
      analyzeExperts (ps'.map Prod.fst) (ps'.map Prod.snd) = Except.ok recs' ∧
      (∀ t, t ∈ recs.map overlapTriple ↔ t ∈ recs'.map overlapTriple) ∧
      (recs.map overlapTriple).Perm (recs'.map overlapTriple) ∧
      ∀ r ∈ recs, ∀ r' ∈ recs', r.username = r'.username →
        ∀ e, e ∈ r.experts_following ↔ e ∈ r'.experts_following := by
  have hne₁ : ps.map Prod.fst ≠ [] := by simpa using hne
  have hne₂ : ps'.map Prod.fst ≠ [] := by
    intro h
    have h' : ps' = [] := by simpa using h
    rw [h'] at hp
    exact hne hp.eq_nil
  have hlen : (ps.map Prod.fst).length = (ps'.map Prod.fst).length := by
    simp [hp.length_eq]
  have hiff : ∀ t, t ∈ (sortResults (convertResults (ps.map Prod.fst).length
      (processResults (ps.map Prod.fst) (ps.map Prod.snd)))).map overlapTriple ↔
      t ∈ (sortResults (convertResults (ps'.map Prod.fst).length
      (processResults (ps'.map Prod.fst) (ps'.map Prod.snd)))).map overlapTriple := by
    intro t
    rw [mem_overlapTriples, mem_overlapTriples, hlen, overlapOf_perm ps ps' hp]
  refine ⟨_, _, analyzeExperts_ok _ _ hne₁, analyzeExperts_ok _ _ hne₂, hiff, ?_, ?_⟩
  · exact (List.perm_ext_iff_of_nodup (nodup_overlapTriples _ _)
      (nodup_overlapTriples _ _)).2 hiff
  · intro r hr r' hr' hu e
    rw [mem_experts_following _ _ r hr, mem_experts_following _ _ r' hr', hu]
    exact (followersOf_perm ps ps' hp r'.username).mem_iff

theorem analyzeExperts_order_independent_witness :
    (List.zip exampleUsernames exampleResults).Perm permutedExample ∧
    List.zip exampleUsernames exampleResults ≠ [] ∧
    ∃ recs recs',
      analyzeExperts ((List.zip exampleUsernames exampleResults).map Prod.fst)
        ((List.zip exampleUsernames exampleResults).map Prod.snd) = Except.ok recs ∧
      analyzeExperts (permutedExample.map Prod.fst) (permutedExample.map Prod.snd) =
        Except.ok recs' ∧
      (∀ t, t ∈ recs.map overlapTriple ↔ t ∈ recs'.map overlapTriple) ∧
      (recs.map overlapTriple).Perm (recs'.map overlapTriple) ∧
      ∀ r ∈ recs, ∀ r' ∈ recs', r.username = r'.username →
        ∀ e, e ∈ r.experts_following ↔ e ∈ r'.experts_following :=
  ⟨by decide, by decide,
    analyzeExperts_order_independent (List.zip exampleUsernames exampleResults)
      permutedExample (by decide) (by decide)⟩

theorem analyzeExperts_permuted_example :
    (analyzeExperts (permutedExample.map Prod.fst) (permutedExample.map Prod.snd)).map
      (List.map (fun r => (r.username, r.overlap_count, r.experts_following))) =
      Except.ok [("x", 3, ["c", "a", "b"]), ("y", 2, ["c", "a"])] :=
  rfl

theorem runLimiter_burst :
    (runLimiter ⟨2, 1000, []⟩ burstCalls).2 =
      [("ip", 0, true), ("ip", 10, true), ("ip", 20, false), ("ip", 1500, true)] ∧
    (runLimiter ⟨2, 1000, []⟩ burstCalls).1.requests = [("ip", [1500])] ∧
    (checkLimit ⟨2, 1000, [("ip", [0, 10])]⟩ "ip" 20).1 =
      Except.error ⟨some 980, "Rate limit exceeded. Please wait 1 seconds."⟩ := by
  refine ⟨by decide, by decide, rfl⟩

theorem checkLimit_of_full (rl : RateLimiter) (key : String) (now : Int)
    (h : rl.maxRequests ≤ (recentRequests rl key now).length) :
    (checkLimit rl key now).2 = rl ∧ wasAccepted (checkLimit rl key now) = false := by
  simp [checkLimit, wasAccepted, h]

theorem checkLimit_of_room (rl : RateLimiter) (key : String) (now : Int)
    (h : ¬ rl.maxRequests ≤ (recentRequests rl key now).length) :
    (checkLimit rl key now).2 =
      { rl with requests := mapSet rl.requests key (recentRequests rl key now ++ [now]) } ∧
    wasAccepted (checkLimit rl key now) = true := by
  simp [checkLimit, wasAccepted, h]

theorem runLimiter_snoc (rl : RateLimiter) (calls : List (String × Int)) (c : String × Int) :
    runLimiter rl (calls ++ [c]) =
      ((checkLimit (runLimiter rl calls).1 c.1 c.2).2,
        (runLimiter rl calls).2 ++
          [(c.1, c.2, wasAccepted (checkLimit (runLimiter rl calls).1 c.1 c.2))]) := by
  simp [runLimiter, List.foldl_append]

theorem acceptedTimes_snoc (key : String) (log : List (String × Int × Bool)) (k : String)
    (t : Int) (b : Bool) :
    acceptedTimes key (log ++ [(k, t, b)]) =
      acceptedTimes key log ++ (if b = true ∧ k = key then [t] else []) := by
  by_cases hb : b = true <;> by_cases hk : k = key <;>
    simp [acceptedTimes, List.filter_append, hb, hk]

theorem filter_recent_mono (l : List Int) (W now now' : Int) (h : now ≤ now') :
    (l.filter (fun time => decide (time > now - W))).filter
      (fun time => decide (time > now' - W)) =
      l.filter (fun time => decide (time > now' - W)) := by
  rw [List.filter_filter]
  apply List.filter_congr
  intro a _
  by_cases ha : a > now' - W
  · have : a > now - W := by omega
    simp [ha, this]
  · simp [ha]

theorem limiterInv_step (M : Nat) (W : Int) (calls : List (String × Int))
    (s : RateLimiter × List (String × Int × Bool)) (k : String) (now : Int)
    (h : LimiterInv M W calls s) (hle : ∀ c ∈ calls, c.2 ≤ now) :
    LimiterInv M W (calls ++ [(k, now)])
      ((checkLimit s.1 k now).2, s.2 ++ [(k, now, wasAccepted (checkLimit s.1 k now))]) := by
  have hrecent : recentRequests s.1 k now =
      (acceptedTimes k s.2).filter (fun time => decide (time > now - W)) := by
    unfold recentRequests
    rw [h.window_eq]
    exact h.stored_recent k now hle
  have hmem : ∀ c ∈ calls, c ∈ calls ++ [(k, now)] := fun c hc => List.mem_append_left _ hc
  by_cases hfull : s.1.maxRequests ≤ (recentRequests s.1 k now).length
  · obtain ⟨hst, hacc⟩ := checkLimit_of_full s.1 k now hfull
    have hat : ∀ key, acceptedTimes key (s.2 ++ [(k, now, false)]) = acceptedTimes key s.2 := by
      intro key; rw [acceptedTimes_snoc]; simp
    rw [hst, hacc]
    exact
      { max_eq := h.max_eq
        window_eq := h.window_eq
        stored_recent := fun key now' hn => by
          rw [hat]; exact h.stored_recent key now' (fun c hc => hn c (hmem c hc))
        stored_past := fun key l hl a ha => by
          obtain ⟨c, hc, hca⟩ := h.stored_past key l hl a ha
          exact ⟨c, hmem c hc, hca⟩
        accepted_past := fun key a ha => by
          rw [hat] at ha
          obtain ⟨c, hc, hca⟩ := h.accepted_past key a ha
          exact ⟨c, hmem c hc, hca⟩
        window_bound := fun key t => by rw [hat]; exact h.window_bound key t }
  · obtain ⟨hst, hacc⟩ := checkLimit_of_room s.1 k now hfull
    have hroom : ((acceptedTimes k s.2).filter
        (fun time => decide (time > now - W))).length < M := by
      rw [← hrecent, ← h.max_eq]; omega
    rw [hst, hacc]
    exact
      { max_eq := h.max_eq
        window_eq := h.window_eq
        stored_recent := fun key now' hn => by
          have hnow : now ≤ now' := hn (k, now) (by simp)
          have hn' : ∀ c ∈ calls, c.2 ≤ now' := fun c hc => hn c (hmem c hc)
          rw [acceptedTimes_snoc]
          simp only [mapGet_mapSet]
          by_cases hk : key = k
          · subst hk
            simp only [if_true, Option.getD_some, and_self, List.filter_append, hrecent]
            rw [filter_recent_mono _ _ _ _ hnow]
          · have hk' : ¬ k = key := fun he => hk he.symm
            simp only [hk, hk', if_false, and_false, List.append_nil]
            exact h.stored_recent key now' hn'
        stored_past := fun key l hl a ha => by
          simp only [mapGet_mapSet] at hl
          by_cases hk : key = k
          · simp only [hk, if_true, Option.some.injEq] at hl
            subst hl
            rcases List.mem_append.1 ha with ha' | ha'
            · have ha'' : a ∈ acceptedTimes k s.2 := by
                rw [hrecent] at ha'
                exact (List.mem_filter.1 ha').1
              obtain ⟨c, hc, hca⟩ := h.accepted_past k a ha''
              exact ⟨c, hmem c hc, hca⟩
            · exact ⟨(k, now), by simp, (List.mem_singleton.1 ha').symm⟩
          · simp only [hk, if_false] at hl
            obtain ⟨c, hc, hca⟩ := h.stored_past key l hl a ha
            exact ⟨c, hmem c hc, hca⟩
        accepted_past := fun key a ha => by
          rw [acceptedTimes_snoc] at ha
          rcases List.mem_append.1 ha with ha' | ha'
          · obtain ⟨c, hc, hca⟩ := h.accepted_past key a ha'
            exact ⟨c, hmem c hc, hca⟩
          · by_cases hk : k = key
            · simp only [hk, and_self, if_true, List.mem_singleton] at ha'
              exact ⟨(k, now), by simp, ha'.symm⟩
            · simp [hk] at ha'
        window_bound := fun key t => by
          rw [acceptedTimes_snoc]
          by_cases hk : k = key
          · subst hk
            simp only [and_self, if_true, List.filter_append, List.length_append]
            by_cases hin : t - W < now ∧ now ≤ t
            · have hsub := List.monotone_filter_right (acceptedTimes k s.2)
                (p := fun a => decide (t - W < a) && decide (a ≤ t))
                (q := fun time => decide (time > now - W))
                (fun a ha => by
                  simp only [Bool.and_eq_true, decide_eq_true_eq] at ha ⊢
                  omega)
              have hlen := hsub.length_le
              simp only [List.filter_cons, hin.1, hin.2, decide_True, Bool.and_self, if_true,
                List.filter_nil, List.length_singleton]
              omega
            · have : (decide (t - W < now) && decide (now ≤ t)) = false := by
                simpa using hin
              simp only [List.filter_cons, this, Bool.false_eq_true, if_false,
                List.filter_nil, List.length_nil, Nat.add_zero]
              exact h.window_bound k t
          · simp only [hk, and_false, if_false, List.append_nil]
            exact h.window_bound key t }

theorem limiterInv_runLimiter (M : Nat) (W : Int) (calls : List (String × Int))
    (hsorted : calls.Pairwise (fun a b => a.2 ≤ b.2)) :
    LimiterInv M W calls (runLimiter ⟨M, W, []⟩ calls) := by
  induction calls using List.reverseRecOn with
  | nil =>
    exact
      { max_eq := rfl
        window_eq := rfl
        stored_recent := fun k now _ => by simp [runLimiter, mapGet, acceptedTimes]
        stored_past := fun k l hl => by simp [runLimiter, mapGet] at hl
        accepted_past := fun k a ha => by simp [runLimiter, acceptedTimes] at ha
        window_bound := fun k t => by simp [runLimiter, acceptedTimes] }
  | append_singleton calls c ih =>
    rw [List.pairwise_append] at hsorted
    obtain ⟨hs, -, hle⟩ := hsorted
    rw [runLimiter_snoc]
    exact limiterInv_step M W calls _ c.1 c.2 (ih hs)
      (fun d hd => hle d hd c (List.mem_singleton_self c))

theorem wasAccepted_eq_false_iff (rl : RateLimiter) (key : String) (now : Int) :
    wasAccepted (checkLimit rl key now) = false ↔
      rl.maxRequests ≤ (recentRequests rl key now).length := by
  by_cases h : rl.maxRequests ≤ (recentRequests rl key now).length
  · simp [(checkLimit_of_full rl key now h).2, h]
  · simp [(checkLimit_of_room rl key now h).2, h]

/-- C28: for calls of `checkLimit` made with a non-decreasing clock on a fresh
limiter, the accepted calls of any key with a time in `(t - windowMs, t]` are
at most `maxRequests`, for every `t`; and a further call is rejected exactly
when `maxRequests` accepted calls of its key have a time above
`now - windowMs`. -/
theorem rateLimiter_sliding_window (M : Nat) (W : Int) (calls : List (String × Int))
    (hsorted : calls.Pairwise (fun a b => a.2 ≤ b.2)) :
    (∀ key t, ((acceptedTimes key (runLimiter ⟨M, W, []⟩ calls).2).filter
      (fun a => decide (t - W < a) && decide (a ≤ t))).length ≤ M) ∧
    (∀ key now, (∀ c ∈ calls, c.2 ≤ now) →
      (wasAccepted (checkLimit (runLimiter ⟨M, W, []⟩ calls).1 key now) = false ↔
        ((acceptedTimes key (runLimiter ⟨M, W, []⟩ calls).2).filter
          (fun a => decide (now - W < a))).length = M)) := by
  have h := limiterInv_runLimiter M W calls hsorted
  refine ⟨h.window_bound, ?_⟩
  intro key now hle
  have hrecent : recentRequests (runLimiter ⟨M, W, []⟩ calls).1 key now =
      (acceptedTimes key (runLimiter ⟨M, W, []⟩ calls).2).filter
        (fun a => decide (now - W < a)) := by
    unfold recentRequests
    rw [h.window_eq]
    exact h.stored_recent key now hle
  have hwin : (acceptedTimes key (runLimiter ⟨M, W, []⟩ calls).2).filter
      (fun a => decide (now - W < a)) =
      (acceptedTimes key (runLimiter ⟨M, W, []⟩ calls).2).filter
        (fun a => decide (now - W < a) && decide (a ≤ now)) := by
    apply List.filter_congr
    intro a ha
    obtain ⟨c, hc, hca⟩ := h.accepted_past key a ha
    have : a ≤ now := hca ▸ hle c hc
    simp [this]
  have hbound := h.window_bound key now
  rw [← hwin] at hbound
  rw [wasAccepted_eq_false_iff, hrecent, h.max_eq]
  omega

theorem rateLimiter_sliding_window_witness :
    burstCalls.Pairwise (fun a b => a.2 ≤ b.2) ∧
    (∀ key t, ((acceptedTimes key (runLimiter ⟨2, 1000, []⟩ burstCalls).2).filter
      (fun a => decide (t - 1000 < a) && decide (a ≤ t))).length ≤ 2) ∧
    (∀ key now, (∀ c ∈ burstCalls, c.2 ≤ now) →
      (wasAccepted (checkLimit (runLimiter ⟨2, 1000, []⟩ burstCalls).1 key now) = false ↔
        ((acceptedTimes key (runLimiter ⟨2, 1000, []⟩ burstCalls).2).filter
          (fun a => decide (now - 1000 < a))).length = 2)) :=
  ⟨by decide, rateLimiter_sliding_window 2 1000 burstCalls (by decide)⟩

/-- C29: a rejected call of `checkLimit` leaves the limiter as it is; an
accepted call changes the log of its own key only, to the entries newer than
`now - windowMs` followed by `now`; with `maxRequests >= 1` and no stored time
after `now`, the wait of a rejection is `windowMs - (now - oldest)` for the
oldest recent entry, above 0 and at most `windowMs`; and calls made with a
non-decreasing clock on a fresh limiter store no time after the clock. -/
theorem checkLimit_frame (rl : RateLimiter) (key : String) (now : Int) :
    (wasAccepted (checkLimit rl key now) = false → (checkLimit rl key now).2 = rl) ∧
    (wasAccepted (checkLimit rl key now) = true →
      (checkLimit rl key now).2.maxRequests = rl.maxRequests ∧
      (checkLimit rl key now).2.windowMs = rl.windowMs ∧
      ∀ k, mapGet (checkLimit rl key now).2.requests k =
        if k = key then
          some (((mapGet rl.requests key).getD []).filter
            (fun time => decide (time > now - rl.windowMs)) ++ [now])
        else mapGet rl.requests k) ∧
    (1 ≤ rl.maxRequests →
      (∀ k l, mapGet rl.requests k = some l → ∀ a ∈ l, a ≤ now) →
      ∀ e, (checkLimit rl key now).1 = Except.error e →
        ∃ oldest, (recentRequests rl key now).head? = some oldest ∧
          e.waitTime = some (rl.windowMs - (now - oldest)) ∧
          0 < rl.windowMs - (now - oldest) ∧
          rl.windowMs - (now - oldest) ≤ rl.windowMs) ∧
    (∀ (M : Nat) (W : Int) (calls : List (String × Int)),
      calls.Pairwise (fun a b => a.2 ≤ b.2) →
      ∀ t, (∀ c ∈ calls, c.2 ≤ t) →
        ∀ k l, mapGet (runLimiter ⟨M, W, []⟩ calls).1.requests k = some l →
          ∀ a ∈ l, a ≤ t) := by
  refine ⟨?_, ?_, ?_, ?_⟩
  · intro h
    exact (checkLimit_of_full rl key now ((wasAccepted_eq_false_iff rl key now).1 h)).1
  · intro h
    have hroom : ¬ rl.maxRequests ≤ (recentRequests rl key now).length := by
      intro hfull
      rw [(checkLimit_of_full rl key now hfull).2] at h
      exact absurd h (by simp)
    rw [(checkLimit_of_room rl key now hroom).1]
    refine ⟨rfl, rfl, ?_⟩
    intro k
    simp only [mapGet_mapSet, recentRequests]
  · intro hM hpast e he
    by_cases hfull : rl.maxRequests ≤ (recentRequests rl key now).length
    · cases hr : recentRequests rl key now with
      | nil =>
        rw [hr] at hfull
        simp at hfull
        omega
      | cons oldest rest =>
        have hmem : oldest ∈ recentRequests rl key now := by rw [hr]; simp
        unfold recentRequests at hmem
        rw [List.mem_filter] at hmem
        obtain ⟨hstored, hgt⟩ := hmem
        have hgt' : oldest > now - rl.windowMs := by simpa using hgt
        have hle : oldest ≤ now := by
          cases hg : mapGet rl.requests key with
          | none => rw [hg] at hstored; simp at hstored
          | some l =>
            rw [hg] at hstored
            exact hpast key l hg oldest (by simpa using hstored)
        have hval : (checkLimit rl key now).1 = Except.error
            ⟨some (rl.windowMs - (now - oldest)),
              "Rate limit exceeded. Please wait " ++
                waitSeconds (some (rl.windowMs - (now - oldest))) ++ " seconds."⟩ := by
          have hfull' : rl.maxRequests ≤ rest.length + 1 := by
            rw [hr] at hfull; simpa using hfull
          simp [checkLimit, hr, hfull']
        rw [hval] at he
        have he' := Except.error.inj he
        subst he'
        exact ⟨oldest, rfl, rfl, by omega, by omega⟩
    · have : (checkLimit rl key now).1 = Except.ok true := by
        simp [checkLimit, hfull]
      rw [this] at he
      exact absurd he (by simp)
  · intro M W calls hsorted t ht k l hl a ha
    obtain ⟨c, hc, hca⟩ := (limiterInv_runLimiter M W calls hsorted).stored_past k l hl a ha
    exact hca ▸ ht c hc

theorem checkLimit_frame_witness :
    1 ≤ (⟨2, 1000, [("ip", [0, 10])]⟩ : RateLimiter).maxRequests ∧
    (∀ k l, mapGet (⟨2, 1000, [("ip", [0, 10])]⟩ : RateLimiter).requests k = some l →
      ∀ a ∈ l, a ≤ 20) ∧
    (checkLimit ⟨2, 1000, [("ip", [0, 10])]⟩ "ip" 20).1 =
      Except.error ⟨some 980, "Rate limit exceeded. Please wait 1 seconds."⟩ ∧
    ∃ oldest, (recentRequests ⟨2, 1000, [("ip", [0, 10])]⟩ "ip" 20).head? = some oldest ∧
      (⟨some 980, "Rate limit exceeded. Please wait 1 seconds."⟩ : LimitError).waitTime =
        some ((⟨2, 1000, [("ip", [0, 10])]⟩ : RateLimiter).windowMs - (20 - oldest)) ∧
      0 < (⟨2, 1000, [("ip", [0, 10])]⟩ : RateLimiter).windowMs - (20 - oldest) ∧
      (⟨2, 1000, [("ip", [0, 10])]⟩ : RateLimiter).windowMs - (20 - oldest) ≤
        (⟨2, 1000, [("ip", [0, 10])]⟩ : RateLimiter).windowMs :=
  have hpast : ∀ k l, mapGet (⟨2, 1000, [("ip", [0, 10])]⟩ : RateLimiter).requests k = some l →
      ∀ a ∈ l, a ≤ 20 := by
    intro k l hl a ha
    by_cases hk : "ip" = k
    · simp only [mapGet, hk, if_true, Option.some.injEq] at hl
      subst hl
      simp at ha
      omega
    · simp [mapGet, hk] at hl
  ⟨by decide, hpast, rfl,
    (checkLimit_frame ⟨2, 1000, [("ip", [0, 10])]⟩ "ip" 20).2.2.1 (by decide) hpast _ rfl⟩

theorem roundDouble_le_dyadic (m n : Nat) {x y : ℚ} (hm : m < 2 ^ 53) (hn : n ≤ 1074)
    (hy : y = (m : ℚ) / 2 ^ n) (h : x ≤ y) : roundDouble x ≤ y := by
  subst hy
  exact roundDouble_le (isDouble_natCast_div_pow m n hm hn) (by positivity) h

theorem literal_bounds :
    (0 ≤ roundDouble (4 / 10) ∧ roundDouble (4 / 10) ≤ 410 / 2 ^ 10) ∧
    (0 ≤ roundDouble (3 / 10) ∧ roundDouble (3 / 10) ≤ 308 / 2 ^ 10) ∧
    (0 ≤ roundDouble (2 / 10) ∧ roundDouble (2 / 10) ≤ 205 / 2 ^ 10) ∧
    (0 ≤ roundDouble (1 / 10) ∧ roundDouble (1 / 10) ≤ 103 / 2 ^ 10) :=
  ⟨⟨roundDouble_nonneg (by norm_num),
      roundDouble_le_dyadic 410 10 (by norm_num) (by norm_num) (by norm_num) (by norm_num)⟩,
    ⟨roundDouble_nonneg (by norm_num),
      roundDouble_le_dyadic 308 10 (by norm_num) (by norm_num) (by norm_num) (by norm_num)⟩,
    ⟨roundDouble_nonneg (by norm_num),
      roundDouble_le_dyadic 205 10 (by norm_num) (by norm_num) (by norm_num) (by norm_num)⟩,
    ⟨roundDouble_nonneg (by norm_num),
      roundDouble_le_dyadic 103 10 (by norm_num) (by norm_num) (by norm_num) (by norm_num)⟩⟩

theorem followerRatio_nonneg (account : AnalysisResult) (hf : 0 ≤ account.followers_count) :
    0 ≤ followerRatio account := by
  unfold followerRatio divDouble
  have hmax : (0 : ℚ) < ((max account.following_count 1 : Int) : ℚ) := by
    have : (0 : Int) < max account.following_count 1 := by omega
    exact_mod_cast this
  have hfq : (0 : ℚ) ≤ (account.followers_count : ℚ) := by exact_mod_cast hf
  exact roundDouble_nonneg (div_nonneg hfq hmax.le)

theorem normalizedRatio_bounds (account : AnalysisResult) (hf : 0 ≤ account.followers_count) :
    0 ≤ normalizedRatio account ∧ normalizedRatio account ≤ 1 := by
  unfold normalizedRatio
  refine ⟨le_min ?_ (by norm_num), min_le_right _ _⟩
  unfold divDouble
  exact roundDouble_nonneg (div_nonneg (followerRatio_nonneg account hf) (by norm_num))

theorem overlapScore_bounds (account : AnalysisResult)
    (hp₀ : 0 ≤ account.overlap_percentage) (hp₁ : account.overlap_percentage ≤ 100) :
    0 ≤ overlapScore account ∧ overlapScore account ≤ 1 := by
  unfold overlapScore divDouble
  refine ⟨roundDouble_nonneg (div_nonneg hp₀ (by norm_num)), ?_⟩
  refine roundDouble_le_dyadic 1 0 (by norm_num) (by norm_num) (by norm_num) ?_
  rw [div_le_one (by norm_num)]
  exact hp₁

theorem hiddenBonus_bounds (account : AnalysisResult) :
    0 ≤ hiddenBonus account ∧ hiddenBonus account ≤ 308 / 2 ^ 10 := by
  obtain ⟨-, ⟨h3₀, h3₁⟩, ⟨h2₀, h2₁⟩, ⟨h1₀, h1₁⟩⟩ := literal_bounds
  unfold hiddenBonus
  split_ifs
  · exact ⟨h3₀, h3₁⟩
  · exact ⟨h2₀, le_trans h2₁ (by norm_num)⟩
  · exact ⟨h1₀, le_trans h1₁ (by norm_num)⟩
  · constructor <;> norm_num

theorem bioScore_bounds (account : AnalysisResult) :
    0 ≤ bioScore account ∧ bioScore account ≤ 103 / 2 ^ 10 := by
  obtain ⟨-, -, -, ⟨h1₀, h1₁⟩⟩ := literal_bounds
  unfold bioScore
  split_ifs
  · exact ⟨h1₀, h1₁⟩
  · constructor <;> norm_num

theorem mulDouble_bounds {a b A B : ℚ} (m n : Nat) (hm : m < 2 ^ 53) (hn : n ≤ 1074)
    (hAB : A * B = (m : ℚ) / 2 ^ n) (ha₀ : 0 ≤ a) (ha₁ : a ≤ A) (hb₀ : 0 ≤ b) (hb₁ : b ≤ B) :
    0 ≤ mulDouble a b ∧ mulDouble a b ≤ A * B := by
  unfold mulDouble
  refine ⟨roundDouble_nonneg (mul_nonneg ha₀ hb₀), ?_⟩
  exact roundDouble_le_dyadic m n hm hn hAB
    (mul_le_mul ha₁ hb₁ hb₀ (le_trans ha₀ ha₁))

theorem addDouble_bounds {a b A B : ℚ} (m n : Nat) (hm : m < 2 ^ 53) (hn : n ≤ 1074)
    (hAB : A + B = (m : ℚ) / 2 ^ n) (ha₀ : 0 ≤ a) (ha₁ : a ≤ A) (hb₀ : 0 ≤ b) (hb₁ : b ≤ B) :
    0 ≤ addDouble a b ∧ addDouble a b ≤ A + B := by
  unfold addDouble
  refine ⟨roundDouble_nonneg (add_nonneg ha₀ hb₀), ?_⟩
  exact roundDouble_le_dyadic m n hm hn hAB (add_le_add ha₁ hb₁)

theorem gemScoreValue_bounds (account : AnalysisResult) (hf : 0 ≤ account.followers_count)
    (hp₀ : 0 ≤ account.overlap_percentage) (hp₁ : account.overlap_percentage ≤ 100) :
    0 ≤ mulDouble (gemScoreValue account) 100 ∧
      mulDouble (gemScoreValue account) 100 ≤ 73523300 / 2 ^ 20 := by
  obtain ⟨hn₀, hn₁⟩ := normalizedRatio_bounds account hf
  obtain ⟨ho₀, ho₁⟩ := overlapScore_bounds account hp₀ hp₁
  obtain ⟨hh₀, hh₁⟩ := hiddenBonus_bounds account
  obtain ⟨hb₀, hb₁⟩ := bioScore_bounds account
  obtain ⟨⟨h4₀, h4₁⟩, ⟨h3₀, h3₁⟩, ⟨h2₀, h2₁⟩, ⟨h1₀, h1₁⟩⟩ := literal_bounds
  obtain ⟨t1₀, t1₁⟩ := mulDouble_bounds 410 10 (by norm_num) (by norm_num) (by norm_num)
    ho₀ ho₁ h4₀ h4₁
  obtain ⟨t2₀, t2₁⟩ := mulDouble_bounds 205 10 (by norm_num) (by norm_num) (by norm_num)
    hn₀ hn₁ h2₀ h2₁
  obtain ⟨t3₀, t3₁⟩ := mulDouble_bounds 94864 20 (by norm_num) (by norm_num) (by norm_num)
    hh₀ hh₁ h3₀ h3₁
  obtain ⟨t4₀, t4₁⟩ := mulDouble_bounds 10609 20 (by norm_num) (by norm_num) (by norm_num)
    hb₀ hb₁ h1₀ h1₁
  obtain ⟨s1₀, s1₁⟩ := addDouble_bounds 615 10 (by norm_num) (by norm_num) (by norm_num)
    t1₀ t1₁ t2₀ t2₁
  obtain ⟨s2₀, s2₁⟩ := addDouble_bounds 724624 20 (by norm_num) (by norm_num) (by norm_num)
    s1₀ s1₁ t3₀ t3₁
  obtain ⟨s3₀, s3₁⟩ := addDouble_bounds 735233 20 (by norm_num) (by norm_num) (by norm_num)
    s2₀ s2₁ t4₀ t4₁
  have hv := mulDouble_bounds (b := 100) (B := 100) 73523300 20 (by norm_num) (by norm_num)
    (by norm_num) s3₀ s3₁ (by norm_num) le_rfl
  unfold gemScoreValue
  refine ⟨hv.1, le_trans hv.2 (by norm_num)⟩

/-- C30: for every account with `followers_count >= 0`, `following_count >= 0`
and `0 <= overlap_percentage <= 100`, the follower ratio used by
`calculateGemScore` is normalized to the range 0 to 1, the score lies between
0 and 70, and `getGemTier` of that score is not the tier `S`. -/
theorem calculateGemScore_at_most_70 (account : AnalysisResult)
    (hf : 0 ≤ account.followers_count) (_hg : 0 ≤ account.following_count)
    (hp₀ : 0 ≤ account.overlap_percentage) (hp₁ : account.overlap_percentage ≤ 100) :
    0 ≤ normalizedRatio account ∧ normalizedRatio account ≤ 1 ∧
    0 ≤ (calculateGemScore account).score ∧ (calculateGemScore account).score ≤ 70 ∧
    (getGemTier (calculateGemScore account).score).tier ≠ "S" := by
  obtain ⟨hn₀, hn₁⟩ := normalizedRatio_bounds account hf
  obtain ⟨hs₀, hs₁⟩ := gemScoreValue_bounds account hf hp₀ hp₁
  have hlo : 0 ≤ (calculateGemScore account).score := by
    show (0 : Int) ≤ ⌊mulDouble (gemScoreValue account) 100 + 1 / 2⌋
    rw [Int.le_floor]
    push_cast
    linarith
  have hhi : (calculateGemScore account).score ≤ 70 := by
    show ⌊mulDouble (gemScoreValue account) 100 + 1 / 2⌋ ≤ (70 : Int)
    have h71 : (73523300 : ℚ) / 2 ^ 20 + 1 / 2 < 71 := by norm_num
    have : ⌊mulDouble (gemScoreValue account) 100 + 1 / 2⌋ < (71 : Int) := by
      rw [Int.floor_lt]
      push_cast
      linarith
    omega
  refine ⟨hn₀, hn₁, hlo, hhi, ?_⟩
  have h80 : ¬ (calculateGemScore account).score ≥ 80 := by omega
  unfold getGemTier
  rw [if_neg h80]
  split_ifs <;> decide

theorem calculateGemScore_at_most_70_witness :
    0 ≤ gemAccount.followers_count ∧ 0 ≤ gemAccount.following_count ∧
    0 ≤ gemAccount.overlap_percentage ∧ gemAccount.overlap_percentage ≤ 100 ∧
    0 ≤ normalizedRatio gemAccount ∧ normalizedRatio gemAccount ≤ 1 ∧
    0 ≤ (calculateGemScore gemAccount).score ∧ (calculateGemScore gemAccount).score ≤ 70 ∧
    (getGemTier (calculateGemScore gemAccount).score).tier ≠ "S" :=
  ⟨by decide, by decide, by norm_num [gemAccount], by norm_num [gemAccount],
    calculateGemScore_at_most_70 gemAccount (by decide) (by decide)
      (by norm_num [gemAccount]) (by norm_num [gemAccount])⟩

/-- The bound 70 is reached, and gives the tier `A`. -/
theorem calculateGemScore_reaches_70 :
    (calculateGemScore gemAccountBio).score = 70 ∧
    (getGemTier (calculateGemScore gemAccountBio).score).tier = "A" := by
  have hfr₀ : roundDouble (999 / 50) = 5623870034678907 / 2 ^ 48 :=
    roundDouble_eq_lit (5623870034678907) (-48) (by norm_num) (by norm_num) (by norm_num)
      (by rw [abs_lt]; constructor <;> norm_num) (by norm_num)
  have hfr : followerRatio gemAccountBio = 5623870034678907 / 2 ^ 48 := by
    show roundDouble (((999 : Int) : ℚ) / ((max (50 : Int) 1 : Int) : ℚ)) = _
    rw [show (((999 : Int) : ℚ) / ((max (50 : Int) 1 : Int) : ℚ)) = 999 / 50 by norm_num]
    exact hfr₀
  have hnr₀ : roundDouble ((5623870034678907 / 2 ^ 48) / 10) = 8998192055486251 / 2 ^ 52 :=
    roundDouble_eq_lit (8998192055486251) (-52) (by norm_num) (by norm_num) (by norm_num)
      (by rw [abs_lt]; constructor <;> norm_num) (by norm_num)
  have hnr : normalizedRatio gemAccountBio = 1 := by
    unfold normalizedRatio divDouble
    rw [hfr, hnr₀]
    exact min_eq_right (by norm_num)
  have hos₀ : roundDouble (100 / 100) = 1 :=
    roundDouble_eq_lit (4503599627370496) (-52) (by norm_num) (by norm_num) (by norm_num)
      (by rw [abs_lt]; constructor <;> norm_num) (by norm_num)
  have hos : overlapScore gemAccountBio = 1 := hos₀
  have hc1 : roundDouble (1 / 10) = 3602879701896397 / 2 ^ 55 :=
    roundDouble_eq_lit (7205759403792794) (-56) (by norm_num) (by norm_num) (by norm_num)
      (by rw [abs_lt]; constructor <;> norm_num) (by norm_num)
  have hc2 : roundDouble (2 / 10) = 3602879701896397 / 2 ^ 54 :=
    roundDouble_eq_lit (7205759403792794) (-55) (by norm_num) (by norm_num) (by norm_num)
      (by rw [abs_lt]; constructor <;> norm_num) (by norm_num)
  have hc3 : roundDouble (3 / 10) = 5404319552844595 / 2 ^ 54 :=
    roundDouble_eq_lit (5404319552844595) (-54) (by norm_num) (by norm_num) (by norm_num)
      (by rw [abs_lt]; constructor <;> norm_num) (by norm_num)
  have hc4 : roundDouble (4 / 10) = 3602879701896397 / 2 ^ 53 :=
    roundDouble_eq_lit (7205759403792794) (-54) (by norm_num) (by norm_num) (by norm_num)
      (by rw [abs_lt]; constructor <;> norm_num) (by norm_num)
  have hhb : hiddenBonus gemAccountBio = 5404319552844595 / 2 ^ 54 := by
    unfold hiddenBonus
    rw [if_pos (by decide), hc3]
  have hbio : bioScore gemAccountBio = 3602879701896397 / 2 ^ 55 := by
    unfold bioScore
    rw [if_pos (by decide), hc1]
  have ht1 : roundDouble (1 * (3602879701896397 / 2 ^ 53)) = 3602879701896397 / 2 ^ 53 :=
    roundDouble_eq_lit (7205759403792794) (-54) (by norm_num) (by norm_num) (by norm_num)
      (by rw [abs_lt]; constructor <;> norm_num) (by norm_num)
  have ht2 : roundDouble (1 * (3602879701896397 / 2 ^ 54)) = 3602879701896397 / 2 ^ 54 :=
    roundDouble_eq_lit (7205759403792794) (-55) (by norm_num) (by norm_num) (by norm_num)
      (by rw [abs_lt]; constructor <;> norm_num) (by norm_num)
  have ht3 : roundDouble ((5404319552844595 / 2 ^ 54) * (5404319552844595 / 2 ^ 54)) = 3242591731706757 / 2 ^ 55 :=
    roundDouble_eq_lit (6485183463413514) (-56) (by norm_num) (by norm_num) (by norm_num)
      (by rw [abs_lt]; constructor <;> norm_num) (by norm_num)
  have ht4 : roundDouble ((3602879701896397 / 2 ^ 55) * (3602879701896397 / 2 ^ 55)) = 1441151880758559 / 2 ^ 57 :=
    roundDouble_eq_lit (5764607523034236) (-59) (by norm_num) (by norm_num) (by norm_num)
      (by rw [abs_lt]; constructor <;> norm_num) (by norm_num)
  have hs1 : roundDouble ((3602879701896397 / 2 ^ 53) + (3602879701896397 / 2 ^ 54)) = 1351079888211149 / 2 ^ 51 :=
    roundDouble_eq_tie (5404319552844596) (-53) (by norm_num) (by norm_num) (by norm_num)
      (Or.inr (by norm_num)) (by decide) (by norm_num)
  have hs2 : roundDouble ((1351079888211149 / 2 ^ 51) + (3242591731706757 / 2 ^ 55)) = 6214967485771285 / 2 ^ 53 :=
    roundDouble_eq_lit (6214967485771285) (-53) (by norm_num) (by norm_num) (by norm_num)
      (by rw [abs_lt]; constructor <;> norm_num) (by norm_num)
  have hs3 : roundDouble ((6214967485771285 / 2 ^ 53) + (1441151880758559 / 2 ^ 57)) = 6305039478318695 / 2 ^ 53 :=
    roundDouble_eq_lit (6305039478318695) (-53) (by norm_num) (by norm_num) (by norm_num)
      (by rw [abs_lt]; constructor <;> norm_num) (by norm_num)
  have hv : roundDouble ((6305039478318695 / 2 ^ 53) * 100) = 70 :=
    roundDouble_eq_lit (4925812092436480) (-46) (by norm_num) (by norm_num) (by norm_num)
      (by rw [abs_lt]; constructor <;> norm_num) (by norm_num)
  have hg : mulDouble (gemScoreValue gemAccountBio) 100 = 70 := by
    unfold gemScoreValue addDouble mulDouble
    rw [hos, hnr, hhb, hbio, hc1, hc2, hc3, hc4, ht1, ht2, ht3, ht4, hs1, hs2, hs3, hv]
  have hs : (calculateGemScore gemAccountBio).score = 70 := by
    show ⌊mulDouble (gemScoreValue gemAccountBio) 100 + 1 / 2⌋ = 70
    rw [hg, Int.floor_eq_iff]
    norm_num
  refine ⟨hs, ?_⟩
  rw [hs]
  decide

/-- The score is rounded as the doubles are: half the experts, 29 followers
and 4 followed give `43.49999999999999` and the score 43, where the exact
sum `0.2 + 0.145 + 0.09` times 100 is `43.5`. -/
theorem calculateGemScore_rounds_doubles :
    (calculateGemScore gemAccountLow).score = 43 ∧
    jsRound (((50 : ℚ) / 100 * (4 / 10) + (29 / 4 / 10) * (2 / 10) + 3 / 10 * (3 / 10)) * 100)
      = 44 := by
  have hfr₀ : roundDouble (29 / 4) = 29 / 2 ^ 2 :=
    roundDouble_eq_lit (8162774324609024) (-50) (by norm_num) (by norm_num) (by norm_num)
      (by rw [abs_lt]; constructor <;> norm_num) (by norm_num)
  have hfr : followerRatio gemAccountLow = 29 / 2 ^ 2 := by
    show roundDouble (((29 : Int) : ℚ) / ((max (4 : Int) 1 : Int) : ℚ)) = _
    rw [show (((29 : Int) : ℚ) / ((max (4 : Int) 1 : Int) : ℚ)) = 29 / 4 by norm_num]
    exact hfr₀
  have hnr₀ : roundDouble ((29 / 2 ^ 2) / 10) = 6530219459687219 / 2 ^ 53 :=
    roundDouble_eq_lit (6530219459687219) (-53) (by norm_num) (by norm_num) (by norm_num)
      (by rw [abs_lt]; constructor <;> norm_num) (by norm_num)
  have hnr : normalizedRatio gemAccountLow = 6530219459687219 / 2 ^ 53 := by
    unfold normalizedRatio divDouble
    rw [hfr, hnr₀]
    exact min_eq_left (by norm_num)
  have hos₀ : roundDouble (50 / 100) = 1 / 2 ^ 1 :=
    roundDouble_eq_lit (4503599627370496) (-53) (by norm_num) (by norm_num) (by norm_num)
      (by rw [abs_lt]; constructor <;> norm_num) (by norm_num)
  have hos : overlapScore gemAccountLow = 1 / 2 ^ 1 := hos₀
  have hc1 : roundDouble (1 / 10) = 3602879701896397 / 2 ^ 55 :=
    roundDouble_eq_lit (7205759403792794) (-56) (by norm_num) (by norm_num) (by norm_num)
      (by rw [abs_lt]; constructor <;> norm_num) (by norm_num)
  have hc2 : roundDouble (2 / 10) = 3602879701896397 / 2 ^ 54 :=
    roundDouble_eq_lit (7205759403792794) (-55) (by norm_num) (by norm_num) (by norm_num)
      (by rw [abs_lt]; constructor <;> norm_num) (by norm_num)
  have hc3 : roundDouble (3 / 10) = 5404319552844595 / 2 ^ 54 :=
    roundDouble_eq_lit (5404319552844595) (-54) (by norm_num) (by norm_num) (by norm_num)
      (by rw [abs_lt]; constructor <;> norm_num) (by norm_num)
  have hc4 : roundDouble (4 / 10) = 3602879701896397 / 2 ^ 53 :=
    roundDouble_eq_lit (7205759403792794) (-54) (by norm_num) (by norm_num) (by norm_num)
      (by rw [abs_lt]; constructor <;> norm_num) (by norm_num)
  have hhb : hiddenBonus gemAccountLow = 5404319552844595 / 2 ^ 54 := by
    unfold hiddenBonus
    rw [if_pos (by decide), hc3]
  have hbio : bioScore gemAccountLow = 0 := by
    unfold bioScore
    rw [if_neg (by decide)]
  have ht1 : roundDouble ((1 / 2 ^ 1) * (3602879701896397 / 2 ^ 53)) = 3602879701896397 / 2 ^ 54 :=
    roundDouble_eq_lit (7205759403792794) (-55) (by norm_num) (by norm_num) (by norm_num)
      (by rw [abs_lt]; constructor <;> norm_num) (by norm_num)
  have ht2 : roundDouble ((6530219459687219 / 2 ^ 53) * (3602879701896397 / 2 ^ 54)) = 5224175567749775 / 2 ^ 55 :=
    roundDouble_eq_lit (5224175567749775) (-55) (by norm_num) (by norm_num) (by norm_num)
      (by rw [abs_lt]; constructor <;> norm_num) (by norm_num)
  have ht3 : roundDouble ((5404319552844595 / 2 ^ 54) * (5404319552844595 / 2 ^ 54)) = 3242591731706757 / 2 ^ 55 :=
    roundDouble_eq_lit (6485183463413514) (-56) (by norm_num) (by norm_num) (by norm_num)
      (by rw [abs_lt]; constructor <;> norm_num) (by norm_num)
  have ht4 : roundDouble (0 * (3602879701896397 / 2 ^ 55)) = 0 :=
    by
    rw [show (0 * (3602879701896397 / 2 ^ 55) : ℚ) = 0 by norm_num]
    exact roundDouble_zero
  have hs1 : roundDouble ((3602879701896397 / 2 ^ 54) + (5224175567749775 / 2 ^ 55)) = 1553741871442821 / 2 ^ 52 :=
    roundDouble_eq_tie (6214967485771284) (-54) (by norm_num) (by norm_num) (by norm_num)
      (Or.inl (by norm_num)) (by decide) (by norm_num)
  have hs2 : roundDouble ((1553741871442821 / 2 ^ 52) + (3242591731706757 / 2 ^ 55)) = 3918131675812331 / 2 ^ 53 :=
    roundDouble_eq_tie (7836263351624662) (-54) (by norm_num) (by norm_num) (by norm_num)
      (Or.inl (by norm_num)) (by decide) (by norm_num)
  have hs3 : roundDouble ((3918131675812331 / 2 ^ 53) + 0) = 3918131675812331 / 2 ^ 53 :=
    roundDouble_eq_lit (7836263351624662) (-54) (by norm_num) (by norm_num) (by norm_num)
      (by rw [abs_lt]; constructor <;> norm_num) (by norm_num)
  have hv : roundDouble ((3918131675812331 / 2 ^ 53) * 100) = 6122080743456767 / 2 ^ 47 :=
    roundDouble_eq_lit (6122080743456767) (-47) (by norm_num) (by norm_num) (by norm_num)
      (by rw [abs_lt]; constructor <;> norm_num) (by norm_num)
  have hg : mulDouble (gemScoreValue gemAccountLow) 100 = 6122080743456767 / 2 ^ 47 := by
    unfold gemScoreValue addDouble mulDouble
    rw [hos, hnr, hhb, hbio, hc1, hc2, hc3, hc4, ht1, ht2, ht3, ht4, hs1, hs2, hs3, hv]
  have hs : (calculateGemScore gemAccountLow).score = 43 := by
    show ⌊mulDouble (gemScoreValue gemAccountLow) 100 + 1 / 2⌋ = 43
    rw [hg, Int.floor_eq_iff]
    norm_num
  refine ⟨hs, ?_⟩
  unfold jsRound
  rw [Int.floor_eq_iff]
  norm_num

theorem rateLimitedCount_eq_zero (responses : Nat → HttpOutcome)
    (h : ∀ i e, fetchFollowingPage (responses i) = Except.error e → e.status ≠ some 429)
    (base k : Nat) : rateLimitedCount (outcomes responses base k) = 0 := by
  induction k with
  | zero => rfl
  | succ k ih =>
    rw [outcomes_succ, rateLimitedCount_snoc]
    cases hf : fetchFollowingPage (responses (base + k)) with
    | ok pg => simpa using ih
    | error e =>
      have := h _ _ hf
      simpa [this] using ih

theorem getExpertFollowing_first_fails (responses : Nat → HttpOutcome) (fuel : Nat) (w : World)
    (username : String) (e : FetchError)
    (hmiss : mapGet w.cache (cacheKey username) = none)
    (he : fetchFollowingPage (responses w.fetched.length) = Except.error e)
    (h429 : e.status ≠ some 429) (hfuel : 1 ≤ fuel) :
    getExpertFollowing responses fuel w username =
      some ([], { cache := mapSet w.cache (cacheKey username) [],
                  fetched := w.fetched ++ [(username, none)] }) := by
  have h1 : collectLoop responses username 1 (LoopState.init w) =
      { page := 0, cursor := none, allFollowing := [],
        fetched := w.fetched ++ [(username, none)], done := true } := by
    show collectStep responses username (LoopState.init w) = _
    simp [collectStep, LoopState.init, maxPages, he, h429]
  obtain ⟨k, rfl⟩ : ∃ k, fuel = 1 + k := ⟨fuel - 1, by omega⟩
  rw [getExpertFollowing_miss _ _ _ _ hmiss, collectLoop_stable _ _ _ 1 k (by rw [h1]), h1]
  rfl

theorem cacheView_eq_none (sched : Schedule) (w₀ : World)
    (started : List (String × List Account)) (username : String)
    (hmiss : mapGet w₀.cache (cacheKey username) = none)
    (hnew : ∀ p ∈ started, p.1 ≠ username) :
    cacheView sched w₀ started username = none := by
  cases hv : cacheView sched w₀ started username with
  | none => rfl
  | some c =>
    rcases cacheView_some _ _ _ _ _ hv with hc | ⟨-, hm⟩
    · rw [hmiss] at hc; simp at hc
    · exact absurd rfl (hnew _ hm)

/-- With at most `r` answers 429 from any call on, the calls of a request all
return within `6 + r` turns of the loop each. -/
theorem fetchAllFrom_returns (responses : Nat → HttpOutcome) (fuel : Nat) (sched : Schedule)
    (w₀ : World) (usernames : List String) (started : List (String × List Account))
    (w : World) (r : Nat)
    (hr : ∀ base k, rateLimitedCount (outcomes responses base k) ≤ r) (hn : 6 + r ≤ fuel) :
    ∃ snapshots w',
      fetchAllFrom responses fuel sched w₀ started w usernames = some (snapshots, w') := by
  induction usernames generalizing started w with
  | nil => exact ⟨[], w, rfl⟩
  | cons u us ih =>
    cases hv : cacheView sched w₀ started u with
    | some cached =>
      obtain ⟨ss, w', hf⟩ := ih (started ++ [(u, cached)]) w
      rw [fetchAllFrom_cons_hit _ _ _ _ _ _ _ _ _ hv, hf]
      exact ⟨_, _, rfl⟩
    | none =>
      obtain ⟨following, w₁, hg⟩ := getExpertFollowing_returns responses u ⟨[], w.fetched⟩ r fuel
        (fun k => hr _ k) hn
      rw [fetchAllFrom_cons_miss _ _ _ _ _ _ _ _ hv, hg]
      simp only
      obtain ⟨ss, w', hf⟩ := ih (started ++ [(u, following)])
        { cache :=
            if mapHas w.cache (cacheKey u) && !sched.lands started.length then w.cache
            else mapSet w.cache (cacheKey u) following
          fetched := w₁.fetched }
      rw [hf]
      exact ⟨_, _, rfl⟩

/-- When every fetch fails with an error other than 429, every call of a
request returns after one turn of the loop, with the snapshot cached before
the request or with the empty snapshot. -/
theorem fetchAllFrom_all_fail (responses : Nat → HttpOutcome) (fuel : Nat) (sched : Schedule)
    (w₀ : World) (usernames : List String) (started : List (String × List Account))
    (w : World)
    (hfail : ∀ i, ∃ e, fetchFollowingPage (responses i) = Except.error e ∧ e.status ≠ some 429)
    (hfuel : 1 ≤ fuel)
    (hs : ∀ p ∈ started, mapGet w₀.cache (cacheKey p.1) = none → p.2 = []) :
    ∃ snapshots w',
      fetchAllFrom responses fuel sched w₀ started w usernames = some (snapshots, w') ∧
      List.Forall₂ (fun u s => mapGet w₀.cache (cacheKey u) = some s ∨ s = [])
        usernames snapshots := by
  induction usernames generalizing started w with
  | nil => exact ⟨[], w, rfl, List.Forall₂.nil⟩
  | cons u us ih =>
    cases hv : cacheView sched w₀ started u with
    | some cached =>
      have hc : mapGet w₀.cache (cacheKey u) = some cached ∨ cached = [] := by
        rcases cacheView_some _ _ _ _ _ hv with hc | ⟨hnone, hm⟩
        · exact Or.inl hc
        · exact Or.inr (hs _ hm hnone)
      have hs' : ∀ p ∈ started ++ [(u, cached)],
          mapGet w₀.cache (cacheKey p.1) = none → p.2 = [] := by
        intro p hp hnone
        rcases List.mem_append.1 hp with hp | hp
        · exact hs p hp hnone
        · simp only [List.mem_singleton] at hp
          rw [hp] at hnone ⊢
          rcases hc with hc | hc
          · rw [hc] at hnone; simp at hnone
          · exact hc
      obtain ⟨ss, w', hf, hall⟩ := ih (started ++ [(u, cached)]) w hs'
      rw [fetchAllFrom_cons_hit _ _ _ _ _ _ _ _ _ hv, hf]
      exact ⟨_, _, rfl, List.Forall₂.cons hc hall⟩
    | none =>
      obtain ⟨e, he, h429⟩ := hfail w.fetched.length
      have hg := getExpertFollowing_first_fails responses fuel ⟨[], w.fetched⟩ u e rfl he h429
        hfuel
      rw [fetchAllFrom_cons_miss _ _ _ _ _ _ _ _ hv, hg]
      simp only
      have hs' : ∀ p ∈ started ++ [(u, ([] : List Account))],
          mapGet w₀.cache (cacheKey p.1) = none → p.2 = [] := by
        intro p hp hnone
        rcases List.mem_append.1 hp with hp | hp
        · exact hs p hp hnone
        · simp only [List.mem_singleton] at hp
          rw [hp]
      obtain ⟨ss, w', hf, hall⟩ := ih (started ++ [(u, [])])
        { cache :=
            if mapHas w.cache (cacheKey u) && !sched.lands started.length then w.cache
            else mapSet w.cache (cacheKey u) []
          fetched := (⟨[], w.fetched⟩ : World).fetched ++ [(u, none)] } hs'
      rw [hf]
      exact ⟨_, _, rfl, List.Forall₂.cons (Or.inr rfl) hall⟩

/-- The calls for a list of usernames are the calls for its first part
followed by the calls for the rest. -/
theorem fetchAllFrom_append (responses : Nat → HttpOutcome) (fuel : Nat) (sched : Schedule)
    (w₀ : World) (us₁ us₂ : List String) (started : List (String × List Account)) (w : World) :
    fetchAllFrom responses fuel sched w₀ started w (us₁ ++ us₂) =
      match fetchAllFrom responses fuel sched w₀ started w us₁ with
      | none => none
      | some (s₁, w₁) =>
        match fetchAllFrom responses fuel sched w₀ (started ++ us₁.zip s₁) w₁ us₂ with
        | none => none
        | some (s₂, w₂) => some (s₁ ++ s₂, w₂) := by
  induction us₁ generalizing started w with
  | nil =>
    simp only [List.nil_append, fetchAllFrom, List.zip_nil_left, List.append_nil]
    cases fetchAllFrom responses fuel sched w₀ started w us₂ with
    | none => rfl
    | some q => rfl
  | cons u us ih =>
    rw [List.cons_append]
    cases hv : cacheView sched w₀ started u with
    | some cached =>
      rw [fetchAllFrom_cons_hit _ _ _ _ _ _ _ _ _ hv, fetchAllFrom_cons_hit _ _ _ _ _ _ _ _ _ hv,
        ih]
      cases hf : fetchAllFrom responses fuel sched w₀ (started ++ [(u, cached)]) w us with
      | none => rfl
      | some q =>
        obtain ⟨s₁, w₁⟩ := q
        simp only [List.zip_cons_cons, List.append_assoc, List.singleton_append]
        cases fetchAllFrom responses fuel sched w₀ (started ++ (u, cached) :: us.zip s₁) w₁ us₂ with
        | none => rfl
        | some q => rfl
    | none =>
      rw [fetchAllFrom_cons_miss _ _ _ _ _ _ _ _ hv, fetchAllFrom_cons_miss _ _ _ _ _ _ _ _ hv]
      cases hg : getExpertFollowing responses fuel ⟨[], w.fetched⟩ u with
      | none => rfl
      | some p =>
        obtain ⟨following, w₁⟩ := p
        simp only
        rw [ih]
        cases hf : fetchAllFrom responses fuel sched w₀ (started ++ [(u, following)])
            { cache :=
                if mapHas w.cache (cacheKey u) && !sched.lands started.length then w.cache
                else mapSet w.cache (cacheKey u) following
              fetched := w₁.fetched } us with
        | none => rfl
        | some q =>
          obtain ⟨s₁, w₂⟩ := q
          simp only [List.zip_cons_cons, List.append_assoc, List.singleton_append]
          cases fetchAllFrom responses fuel sched w₀ (started ++ (u, following) :: us.zip s₁)
              w₂ us₂ with
          | none => rfl
          | some q => rfl

theorem fetchAll_eq_some (responses : Nat → HttpOutcome) (fuel : Nat) (sched : Schedule)
    (w : World) (usernames : List String) (results : List Settled) (w' : World) :
    fetchAll responses fuel sched w usernames = some (results, w') ↔
      ∃ snapshots, fetchAllFrom responses fuel sched w [] w usernames = some (snapshots, w') ∧
        results = snapshots.map Settled.fulfilled := by
  unfold fetchAll
  cases hf : fetchAllFrom responses fuel sched w [] w usernames with
  | none => simp
  | some q =>
    obtain ⟨ss, w₁⟩ := q
    simp only [Option.some.injEq, Prod.mk.injEq]
    constructor
    · rintro ⟨rfl, rfl⟩
      exact ⟨ss, ⟨rfl, rfl⟩, rfl⟩
    · rintro ⟨ss', ⟨rfl, rfl⟩, rfl⟩
      exact ⟨rfl, rfl⟩

theorem analyzeExpertsIn_of_fetchAll (responses : Nat → HttpOutcome) (fuel : Nat)
    (sched : Schedule) (w : World) (usernames : List String) (results : List Settled)
    (w' : World) (hne : usernames ≠ [])
    (h : fetchAll responses fuel sched w usernames = some (results, w')) :
    analyzeExpertsIn responses fuel sched w usernames =
      some (Except.ok (sortResults (convertResults usernames.length
        (processResults usernames results))), w') := by
  have hlen : usernames.length ≠ 0 := fun h0 => hne (List.length_eq_zero.1 h0)
  unfold analyzeExpertsIn
  rw [if_neg hlen, h]
  simp only
  rw [analyzeExperts_ok _ _ hne]

theorem analyzeExpertsIn_returns_list (responses : Nat → HttpOutcome) (fuel : Nat)
    (sched : Schedule) (w : World) (usernames : List String) (hne : usernames ≠ [])
    (out : Except String (List AnalysisResult)) (w' : World)
    (h : analyzeExpertsIn responses fuel sched w usernames = some (out, w')) :
    ∃ recs, out = Except.ok recs := by
  have hlen : usernames.length ≠ 0 := fun h0 => hne (List.length_eq_zero.1 h0)
  unfold analyzeExpertsIn at h
  rw [if_neg hlen] at h
  cases hf : fetchAll responses fuel sched w usernames with
  | none => rw [hf] at h; simp at h
  | some q =>
    obtain ⟨rs, w₁⟩ := q
    rw [hf] at h
    simp only [Option.some.injEq, Prod.mk.injEq] at h
    obtain ⟨rfl, -⟩ := h
    exact ⟨_, analyzeExperts_ok _ _ hne⟩

theorem onePage_no_error (i : Nat) (e : FetchError)
    (h : fetchFollowingPage (onePage i) = Except.error e) : e.status ≠ some 429 := by
  simp [onePage, fetchFollowingPage] at h

theorem secondFails_no_rate_limit (i : Nat) (e : FetchError)
    (h : fetchFollowingPage (secondFails i) = Except.error e) : e.status ≠ some 429 := by
  unfold secondFails at h
  by_cases hi : i = 1
  · rw [if_pos hi] at h
    simp only [fetchFollowingPage, Except.error.injEq] at h
    rw [← h]; decide
  · rw [if_neg hi] at h
    exact onePage_no_error i e h

theorem processResults_all_empty (usernames : List String) (results : List Settled)
    (h : ∀ r ∈ results, r = Settled.fulfilled []) :
    processResults usernames results = AggState.empty := by
  unfold processResults
  generalize AggState.empty = st
  induction usernames generalizing results with
  | nil => simp
  | cons u us ih =>
    cases results with
    | nil => simp
    | cons r rs =>
      have hr := h r (List.mem_cons_self _ _)
      subst hr
      simp only [List.zip_cons_cons, List.foldl_cons, processResult, List.foldl_nil]
      exact ih rs (fun r hr => h r (List.mem_cons_of_mem _ hr))

theorem followersOf_append (us₁ us₂ : List String) (r₁ r₂ : List Settled) (h : String)
    (hlen : r₁.length = us₁.length) :
    followersOf (us₁ ++ us₂) (r₁ ++ r₂) h = followersOf us₁ r₁ h ++ followersOf us₂ r₂ h := by
  unfold followersOf
  rw [List.zip_append hlen.symm, List.filter_append, List.map_append]

/-- An expert with an empty or a rejected following list follows nobody. -/
theorem followersOf_skip (us₁ us₂ : List String) (u : String) (r₁ r₂ : List Settled)
    (x : Settled) (h : String) (hlen : r₁.length = us₁.length)
    (hx : x = Settled.fulfilled [] ∨ ∃ reason, x = Settled.rejected reason) :
    followersOf (us₁ ++ u :: us₂) (r₁ ++ x :: r₂) h = followersOf (us₁ ++ us₂) (r₁ ++ r₂) h := by
  rw [followersOf_append _ _ _ _ _ hlen, followersOf_append _ _ _ _ _ hlen]
  congr 1
  rcases hx with rfl | ⟨reason, rfl⟩ <;> simp [followersOf]

theorem records_by_overlap (usernames : List String) (results : List Settled) :
    (∀ h, (∃ r ∈ sortResults (convertResults usernames.length
        (processResults usernames results)), r.username = h) ↔
      h ≠ "" ∧ minOverlap usernames.length ≤ overlapOf usernames results h) ∧
    (∀ r ∈ sortResults (convertResults usernames.length (processResults usernames results)),
      r.overlap_count = overlapOf usernames results r.username) := by
  constructor
  · intro h
    constructor
    · rintro ⟨r, hr, rfl⟩
      have ht := (mem_overlapTriples usernames results (overlapTriple r)).1
        (List.mem_map_of_mem _ hr)
      exact ⟨ht.1, ht.2.1⟩
    · rintro ⟨h₀, hmin⟩
      have ht := (mem_overlapTriples usernames results
        (h, overlapOf usernames results h,
          mulDouble (divDouble (overlapOf usernames results h : ℚ) (usernames.length : ℚ)) 100)).2
        ⟨h₀, hmin, rfl, rfl⟩
      obtain ⟨r, hr, hrt⟩ := List.mem_map.1 ht
      exact ⟨r, hr, congrArg Prod.fst hrt⟩
  · intro r hr
    have ht := (mem_overlapTriples usernames results (overlapTriple r)).1
      (List.mem_map_of_mem _ hr)
    exact ht.2.2.1

theorem analyzeExpertsIn_rate_limited_forever (fuel : Nat) (sched : Schedule) :
    analyzeExpertsIn alwaysRateLimited fuel sched World.fresh ["a", "b"] = none := by
  have hg : getExpertFollowing alwaysRateLimited fuel ⟨[], World.fresh.fetched⟩ "a" = none := by
    rw [getExpertFollowing_miss alwaysRateLimited fuel ⟨[], World.fresh.fetched⟩ "a" rfl]
    have := collectLoop_alwaysRateLimited fuel
    rw [show LoopState.init (⟨[], World.fresh.fetched⟩ : World) = LoopState.init World.fresh
      from rfl, this]
    rfl
  have hv : cacheView sched World.fresh [] "a" = none :=
    cacheView_eq_none sched World.fresh [] "a" rfl (by simp)
  unfold analyzeExpertsIn fetchAll
  rw [fetchAllFrom_cons_miss _ _ _ _ _ _ _ _ hv, hg]
  rfl

/-- C9 (amended): `analyzeExperts` fails, with "Invalid usernames provided",
exactly when the list of usernames is empty, and then before any fetch: the
world is left as it was. For a non-empty list, whatever its size and without
deduplication, it never fails: whenever it returns it returns a list of
records, and it returns when the upstream answers 429 to at most `r` requests
from any request on and every call of `getExpertFollowing` is given `6 + r`
turns of its loop. -/
theorem analyzeExpertsIn_fails_iff_empty (responses : Nat → HttpOutcome) (fuel : Nat)
    (sched : Schedule) (w : World) (usernames : List String) :
    (∀ results, analyzeExperts usernames results =
      Except.error "Invalid usernames provided" ↔ usernames = []) ∧
    (usernames = [] →
      analyzeExpertsIn responses fuel sched w usernames =
        some (Except.error "Invalid usernames provided", w)) ∧
    (usernames ≠ [] → ∀ out w',
      analyzeExpertsIn responses fuel sched w usernames = some (out, w') →
      ∃ recs, out = Except.ok recs) ∧
    (usernames ≠ [] → ∀ r, (∀ base k, rateLimitedCount (outcomes responses base k) ≤ r) →
      6 + r ≤ fuel →
      ∃ recs w', analyzeExpertsIn responses fuel sched w usernames =
        some (Except.ok recs, w')) := by
  refine ⟨?_, ?_, ?_, ?_⟩
  · intro results
    cases usernames with
    | nil => simp [analyzeExperts]
    | cons u us => simp [analyzeExperts]
  · rintro rfl
    rfl
  · intro hne out w' h
    exact analyzeExpertsIn_returns_list _ _ _ _ _ hne _ _ h
  · intro hne r hr hn
    obtain ⟨ss, w', hf⟩ := fetchAllFrom_returns responses fuel sched w usernames [] w r hr hn
    have hfa : fetchAll responses fuel sched w usernames =
        some (ss.map Settled.fulfilled, w') := (fetchAll_eq_some _ _ _ _ _ _ _).2 ⟨ss, hf, rfl⟩
    exact ⟨_, _, analyzeExpertsIn_of_fetchAll _ _ _ _ _ _ _ hne hfa⟩

theorem analyzeExpertsIn_fails_iff_empty_witness :
    ["a"] ≠ [] ∧
    (∀ base k, rateLimitedCount (outcomes onePage base k) ≤ 0) ∧
    6 + 0 ≤ 6 ∧
    ∃ recs w', analyzeExpertsIn onePage 6 Schedule.together World.fresh ["a"] =
      some (Except.ok recs, w') :=
  ⟨by decide, fun base k => (rateLimitedCount_eq_zero onePage onePage_no_error base k).le,
    by decide,
    (analyzeExpertsIn_fails_iff_empty onePage 6 Schedule.together World.fresh ["a"]).2.2.2
      (by decide) 0
      (fun base k => (rateLimitedCount_eq_zero onePage onePage_no_error base k).le)
      (by decide)⟩

/-- C11: when the first fetch for one expert, not cached and not called before
in the request, fails with an error other than 429, that call of
`getExpertFollowing` is fulfilled with an empty snapshot, and
`analyzeExperts` still returns a list (the upstream answering 429 to at most
`r` requests): the list returned when that expert contributes an empty
following list, and also when its call is rejected. Its records are exactly
the screen names followed by at least `minOverlap` of the remaining experts,
the threshold taken from the number of all usernames, each with the count
and the names of the remaining experts that follow it. -/
theorem analyzeExperts_survives_failed_expert (responses : Nat → HttpOutcome) (fuel : Nat)
    (sched : Schedule) (w : World) (us₁ : List String) (u : String) (us₂ : List String)
    (r₁ : List Settled) (w₁ : World) (e : FetchError) (r : Nat) (reason : String)
    (hmiss : mapGet w.cache (cacheKey u) = none) (hnew : u ∉ us₁)
    (h₁ : fetchAll responses fuel sched w us₁ = some (r₁, w₁))
    (hfail : fetchFollowingPage (responses w₁.fetched.length) = Except.error e)
    (h429 : e.status ≠ some 429)
    (hr : ∀ base k, rateLimitedCount (outcomes responses base k) ≤ r) (hn : 6 + r ≤ fuel) :
    ∃ r₂ w₃ recs,
      fetchAll responses fuel sched w (us₁ ++ u :: us₂) =
        some (r₁ ++ Settled.fulfilled [] :: r₂, w₃) ∧
      analyzeExpertsIn responses fuel sched w (us₁ ++ u :: us₂) = some (Except.ok recs, w₃) ∧
      analyzeExperts (us₁ ++ u :: us₂) (r₁ ++ Settled.fulfilled [] :: r₂) = Except.ok recs ∧
      analyzeExperts (us₁ ++ u :: us₂) (r₁ ++ Settled.rejected reason :: r₂) = Except.ok recs ∧
      (∀ h, (∃ rec ∈ recs, rec.username = h) ↔
        h ≠ "" ∧ minOverlap (us₁ ++ u :: us₂).length ≤ overlapOf (us₁ ++ us₂) (r₁ ++ r₂) h) ∧
      (∀ rec ∈ recs,
        rec.overlap_count = overlapOf (us₁ ++ us₂) (r₁ ++ r₂) rec.username ∧
        ∀ x, x ∈ rec.experts_following ↔
          x ∈ followersOf (us₁ ++ us₂) (r₁ ++ r₂) rec.username) := by
  obtain ⟨s₁, hs₁, rfl⟩ := (fetchAll_eq_some _ _ _ _ _ _ _).1 h₁
  have hlen₁ : s₁.length = us₁.length :=
    (fetchAllFrom_cache _ _ _ _ _ _ _ _ _ hs₁ (fun _ _ hk => hk) (by simp)).2.2.2
  have hview : cacheView sched w ([] ++ us₁.zip s₁) u = none := by
    apply cacheView_eq_none _ _ _ _ hmiss
    intro p hp he
    rw [List.nil_append] at hp
    have := (List.of_mem_zip hp).1
    rw [he] at this
    exact hnew this
  have hg := getExpertFollowing_first_fails responses fuel ⟨[], w₁.fetched⟩ u e rfl hfail h429
    (by omega)
  obtain ⟨s₂, w₃, hs₂⟩ := fetchAllFrom_returns responses fuel sched w us₂
    (([] ++ us₁.zip s₁) ++ [(u, [])])
    { cache :=
        if mapHas w₁.cache (cacheKey u) && !sched.lands ([] ++ us₁.zip s₁).length then w₁.cache
        else mapSet w₁.cache (cacheKey u) []
      fetched := (⟨[], w₁.fetched⟩ : World).fetched ++ [(u, none)] } r hr hn
  have hall : fetchAllFrom responses fuel sched w [] w (us₁ ++ u :: us₂) =
      some (s₁ ++ [] :: s₂, w₃) := by
    rw [fetchAllFrom_append, hs₁]
    simp only
    rw [fetchAllFrom_cons_miss _ _ _ _ _ _ _ _ hview, hg]
    simp only
    rw [hs₂]
  have hne : us₁ ++ u :: us₂ ≠ [] := by simp
  have hfa : fetchAll responses fuel sched w (us₁ ++ u :: us₂) =
      some (s₁.map Settled.fulfilled ++ Settled.fulfilled [] :: s₂.map Settled.fulfilled, w₃) :=
    (fetchAll_eq_some _ _ _ _ _ _ _).2 ⟨_, hall, by simp⟩
  have hlen₁' : (s₁.map Settled.fulfilled).length = us₁.length := by simp [hlen₁]
  have hfo : ∀ h, followersOf (us₁ ++ u :: us₂)
      (s₁.map Settled.fulfilled ++ Settled.fulfilled [] :: s₂.map Settled.fulfilled) h =
      followersOf (us₁ ++ us₂) (s₁.map Settled.fulfilled ++ s₂.map Settled.fulfilled) h :=
    fun h => followersOf_skip _ _ _ _ _ _ h hlen₁' (Or.inl rfl)
  obtain ⟨hnames, hcount⟩ := records_by_overlap (us₁ ++ u :: us₂)
    (s₁.map Settled.fulfilled ++ Settled.fulfilled [] :: s₂.map Settled.fulfilled)
  refine ⟨s₂.map Settled.fulfilled, w₃, _, hfa,
    analyzeExpertsIn_of_fetchAll _ _ _ _ _ _ _ hne hfa, analyzeExperts_ok _ _ hne, ?_, ?_, ?_⟩
  · rw [analyzeExperts_ok _ _ hne, processResults_rejected]
  · intro h
    rw [hnames h]
    unfold overlapOf
    rw [hfo h]
  · intro rec hrec
    refine ⟨?_, fun x => ?_⟩
    · rw [hcount rec hrec]
      unfold overlapOf
      rw [hfo]
    · rw [mem_experts_following _ _ rec hrec, hfo]

theorem analyzeExperts_survives_failed_expert_witness :
    mapGet World.fresh.cache (cacheKey "b") = none ∧ "b" ∉ ["a"] ∧
    fetchAll secondFails 6 Schedule.together World.fresh ["a"] =
      some ([Settled.fulfilled pageAccounts],
        ⟨[("following_a", pageAccounts)], [("a", none)]⟩) ∧
    fetchFollowingPage (secondFails 1) = Except.error ⟨some 500⟩ ∧
    (⟨some 500⟩ : FetchError).status ≠ some 429 ∧
    (∀ base k, rateLimitedCount (outcomes secondFails base k) ≤ 0) ∧ 6 + 0 ≤ 6 ∧
    ∃ r₂ w₃ recs,
      fetchAll secondFails 6 Schedule.together World.fresh (["a"] ++ "b" :: ["c"]) =
        some ([Settled.fulfilled pageAccounts] ++ Settled.fulfilled [] :: r₂, w₃) ∧
      analyzeExpertsIn secondFails 6 Schedule.together World.fresh (["a"] ++ "b" :: ["c"]) =
        some (Except.ok recs, w₃) ∧
      analyzeExperts (["a"] ++ "b" :: ["c"])
        ([Settled.fulfilled pageAccounts] ++ Settled.fulfilled [] :: r₂) = Except.ok recs ∧
      analyzeExperts (["a"] ++ "b" :: ["c"])
        ([Settled.fulfilled pageAccounts] ++ Settled.rejected "timeout" :: r₂) =
          Except.ok recs ∧
      (∀ h, (∃ rec ∈ recs, rec.username = h) ↔
        h ≠ "" ∧ minOverlap (["a"] ++ "b" :: ["c"]).length ≤
          overlapOf (["a"] ++ ["c"]) ([Settled.fulfilled pageAccounts] ++ r₂) h) ∧
      (∀ rec ∈ recs,
        rec.overlap_count =
          overlapOf (["a"] ++ ["c"]) ([Settled.fulfilled pageAccounts] ++ r₂) rec.username ∧
        ∀ x, x ∈ rec.experts_following ↔
          x ∈ followersOf (["a"] ++ ["c"]) ([Settled.fulfilled pageAccounts] ++ r₂)
            rec.username) :=
  ⟨rfl, by decide, rfl, rfl, by decide,
    fun base k => (rateLimitedCount_eq_zero secondFails secondFails_no_rate_limit base k).le,
    by decide,
    analyzeExperts_survives_failed_expert secondFails 6 Schedule.together World.fresh
      ["a"] "b" ["c"] [Settled.fulfilled pageAccounts]
      ⟨[("following_a", pageAccounts)], [("a", none)]⟩ ⟨some 500⟩ 0 "timeout"
      rfl (by decide) rfl rfl (by decide)
      (fun base k => (rateLimitedCount_eq_zero secondFails secondFails_no_rate_limit base k).le)
      (by decide)⟩

/-- The request of the experts `a`, `b` and `c` in which the fetch for `b`
fails: the accounts `x` and `y`, followed by `a` and `c`, are returned with
the fraction "2/3", as they are when the call for `b` is rejected; `b` is
cached with an empty snapshot. -/
theorem analyzeExpertsIn_secondFails :
    (analyzeExpertsIn secondFails 6 Schedule.together World.fresh ["a", "b", "c"]).map
      (fun p => (p.1.map (List.map (fun r =>
        (r.username, r.overlap_count, r.overlap_fraction, r.experts_following))), p.2)) =
      some (Except.ok [("x", 2, "2/3", ["a", "c"]), ("y", 2, "2/3", ["a", "c"])],
        ⟨[("following_a", pageAccounts), ("following_b", []), ("following_c", pageAccounts)],
          [("a", none), ("b", none), ("c", none)]⟩) ∧
    (analyzeExperts ["a", "b", "c"] [Settled.fulfilled pageAccounts,
      Settled.rejected "timeout", Settled.fulfilled pageAccounts]).map
      (List.map (fun r =>
        (r.username, r.overlap_count, r.overlap_fraction, r.experts_following))) =
      Except.ok [("x", 2, "2/3", ["a", "c"]), ("y", 2, "2/3", ["a", "c"])] :=
  ⟨rfl, rfl⟩

/-- C12 (as stated, refuted): a request of two experts whose calls are both
rejected does not fail, it returns the empty list; run against an upstream
that answers every fetch with the status 500 it returns the empty list and
caches two empty snapshots; when the second fetch of each expert fails, it
returns the account `x` with the fraction "2/2" from the first pages; and
against an upstream that answers 429 for ever it does not fail either, it
never returns. -/
theorem analyzeExperts_all_failed_returns :
    analyzeExperts ["a", "b"] failedResults = Except.ok [] ∧
    analyzeExpertsIn alwaysError 1 Schedule.together World.fresh ["a", "b"] =
      some (Except.ok [],
        ⟨[("following_a", []), ("following_b", [])], [("a", none), ("b", none)]⟩) ∧
    (analyzeExpertsIn pageThenErrorEach 2 Schedule.together World.fresh ["a", "b"]).map
      (fun p => (p.1.map (List.map (fun r =>
        (r.username, r.overlap_fraction, r.experts_following))), p.2.fetched)) =
      some (Except.ok [("x", "2/2", ["a", "b"])],
        [("a", none), ("a", some "c1"), ("b", none), ("b", some "c1")]) ∧
    (∀ fuel sched, analyzeExpertsIn alwaysRateLimited fuel sched World.fresh ["a", "b"] = none) :=
  ⟨rfl, rfl, rfl, analyzeExpertsIn_rate_limited_forever⟩

/-- C12 (amended): there is no error for the case that every expert failed: a
failed fetch ends the collection of that expert, whose call is fulfilled with
the pages read before. For every non-empty request in which every fetch
fails with an error other than 429, `analyzeExperts` returns a list after one
turn of each loop; the call for an expert is fulfilled with the snapshot
cached before the request or with the empty snapshot, and with no expert
cached before the request the list is empty. -/
theorem analyzeExpertsIn_all_fetches_fail (responses : Nat → HttpOutcome) (fuel : Nat)
    (sched : Schedule) (w : World) (usernames : List String) (hne : usernames ≠ [])
    (hfail : ∀ i, ∃ e, fetchFollowingPage (responses i) = Except.error e ∧ e.status ≠ some 429)
    (hfuel : 1 ≤ fuel) :
    ∃ results recs w',
      fetchAll responses fuel sched w usernames = some (results, w') ∧
      analyzeExpertsIn responses fuel sched w usernames = some (Except.ok recs, w') ∧
      List.Forall₂ (fun u r => r = Settled.fulfilled [] ∨
        ∃ s, mapGet w.cache (cacheKey u) = some s ∧ r = Settled.fulfilled s)
        usernames results ∧
      ((∀ u ∈ usernames, mapGet w.cache (cacheKey u) = none) → recs = []) := by
  obtain ⟨ss, w', hf, hall⟩ := fetchAllFrom_all_fail responses fuel sched w usernames [] w
    hfail hfuel (by simp)
  have hfa : fetchAll responses fuel sched w usernames =
      some (ss.map Settled.fulfilled, w') := (fetchAll_eq_some _ _ _ _ _ _ _).2 ⟨ss, hf, rfl⟩
  refine ⟨_, _, w', hfa, analyzeExpertsIn_of_fetchAll _ _ _ _ _ _ _ hne hfa, ?_, ?_⟩
  · rw [List.forall₂_map_right_iff]
    refine hall.imp ?_
    intro u s hus
    rcases hus with hc | rfl
    · exact Or.inr ⟨s, hc, rfl⟩
    · exact Or.inl rfl
  · intro hnone
    have hempty : ∀ r ∈ ss.map Settled.fulfilled, r = Settled.fulfilled [] := by
      intro r hr
      obtain ⟨s, hs, rfl⟩ := List.mem_map.1 hr
      have : ∀ us : List String, (∀ u ∈ us, mapGet w.cache (cacheKey u) = none) →
          ∀ ss : List (List Account),
          List.Forall₂ (fun u s => mapGet w.cache (cacheKey u) = some s ∨ s = []) us ss →
          ∀ s ∈ ss, s = [] := by
        intro us hus ss hfor
        induction hfor with
        | nil => simp
        | cons hab _ ih =>
          intro s hs
          rcases List.mem_cons.1 hs with rfl | hs
          · rcases hab with hc | hc
            · rw [hus _ (List.mem_cons_self _ _)] at hc; simp at hc
            · exact hc
          · exact ih (fun u hu => hus u (List.mem_cons_of_mem _ hu)) s hs
      rw [this usernames hnone ss hall s hs]
    rw [processResults_all_empty _ _ hempty]
    rfl

theorem analyzeExpertsIn_all_fetches_fail_witness :
    ["a", "b"] ≠ [] ∧
    (∀ i, ∃ e, fetchFollowingPage (alwaysError i) = Except.error e ∧ e.status ≠ some 429) ∧
    1 ≤ 1 ∧
    ∃ results recs w',
      fetchAll alwaysError 1 Schedule.together World.fresh ["a", "b"] = some (results, w') ∧
      analyzeExpertsIn alwaysError 1 Schedule.together World.fresh ["a", "b"] =
        some (Except.ok recs, w') ∧
      List.Forall₂ (fun u r => r = Settled.fulfilled [] ∨
        ∃ s, mapGet World.fresh.cache (cacheKey u) = some s ∧ r = Settled.fulfilled s)
        ["a", "b"] results ∧
      ((∀ u ∈ ["a", "b"], mapGet World.fresh.cache (cacheKey u) = none) → recs = []) :=
  ⟨by decide, fun _ => ⟨⟨some 500⟩, rfl, by decide⟩, by decide,
    analyzeExpertsIn_all_fetches_fail alwaysError 1 Schedule.together World.fresh ["a", "b"]
      (by decide) (fun _ => ⟨⟨some 500⟩, rfl, by decide⟩) (by decide)⟩

end SignalHunter
